import Mathlib

/-! # bshell: a shallow embedding of `bshell.c` / `bshell.h`

The development models the four parts of the shell: the search-path parser
(`parsePath`), the resolver (`lookupPath`), the tokenizer (`parseCmd`) and one
iteration of the read-eval loop of `main` (`step`).

Modelling conventions.

* A C string is a `List Char` (type `Str`): the characters before the
  terminator.  A byte buffer that may hold terminators is a
  `List (Option Char)`, where `none` is the terminating zero byte.
* A pointer that may be `NULL` is an `Option`.
* Arrays addressed by index (`dirs[MAX_PATHS]`, `argv[MAX_ARGS]`,
  `jobList[MAX_JOBS]`, the `MAX_PATH_LEN` bytes of `fullName`) are lists of
  their declared length; a store or a load outside the array is a fault.
* Undefined behaviour is a fault: `none` in the functions, `Outcome.fault` in
  the loop.
* The library calls (`strtok`, `strcpy`, `strncpy`, `strcat`, `strncat`,
  `atoi`) follow the C standard; the state `strtok` keeps between calls is
  passed explicitly.
* The block of `thePath` (line 43) is requested with `strlen(pathEnv)` bytes
  and line 48 writes one byte more, in every iteration.  The block `malloc`
  returns is `mallocUsable` bytes long (the rounding of glibc on a 64-bit
  system: 24, 40, 56, ... bytes); the terminator is stored inside it unless
  the length of `PATH` is exactly one of these sizes, and `parsePath` faults
  when it is not, since that byte belongs to the allocator.
* The table `jobList` is held as the program lays it out: `MAX_JOBS` entries
  (`Slot`) of two `int`s (four bytes each, least significant byte first) and
  `MAX_ARGS` (64) bytes of `name`, one directly after the other.  `strcat` on
  a `name` works on the bytes from that field to the end of the block: text
  that does not fit the field runs over the following entries, and a write
  past the last entry is a fault.  A `Job` is what the listing shows of an
  entry: its two numbers and the C string that starts at its field `name`.
* The calls of `free` are not events.  Every block a branch frees was
  allocated before the loop or in the same iteration (`thePath` by
  `parsePath`, `argv[i]` by `strdup` in `parseCmd`, `fullpath` by
  `lookupPath`) and is freed once, so on a sound heap `free` changes nothing
  that the loop reads later (apart from `jobList`, see `World.freedBlock`);
  and the heap is sound in every iteration that is not a fault, because each
  store outside a block is one.  The comment of each branch names the blocks
  it frees.
* The operating system is a parameter (`World`): the environment variable,
  the line `fgets` delivers, the answers of `access`, `fork` and `execv`, the
  content of fresh and of freed heap blocks.
* The effects of an iteration on the outside (signals, children, waits) are
  the list of `Event`s of its `Outcome`, in program order.

The file has two parts: the definitions (the embedding, then the notions of
the specification and some concrete states), and the lemmas and theorems.
-/

namespace BShell

/-- C string: the characters before the terminator. -/
abbrev Str := List Char

/-! ## Constants of `bshell.h` -/

def LINE_LEN : Nat := 80
def MAX_ARGS : Nat := 64
def MAX_JOBS : Nat := 10
def MAX_PATHS : Nat := 8
def MAX_PATH_LEN : Nat := 96
def FALSE : Int := 0

def chSpace : Char := Char.ofNat 32
def chTab : Char := Char.ofNat 9
def chNewline : Char := Char.ofNat 10

/-- The macro `SEP`: space, tab, newline. -/
def SEP : List Char := [chSpace, chTab, chNewline]
/-- The macro `DELIM`. -/
def DELIM : List Char := [':']

/-! ## Library functions -/

/-- One call of `strtok`: skip the leading delimiters, stop if nothing is left,
otherwise return the token and the saved pointer (the text after the
delimiter that ended the token). -/
def strtok (delim : List Char) (s : Str) : Option (Str × Str) :=
  match s.dropWhile (fun c => delim.contains c) with
  | [] => none
  | c :: t =>
    some ((c :: t).takeWhile (fun x => !delim.contains x),
          ((c :: t).dropWhile (fun x => !delim.contains x)).drop 1)

/-- The C string a buffer holds: the bytes before the first terminator;
`none` when the buffer has no terminator (a read would leave the buffer). -/
def cstr : List (Option Char) → Option Str
  | [] => none
  | none :: _ => some []
  | some c :: t => (cstr t).map (fun r => c :: r)

/-- The call `strncpy(dst, src, n)`: writes exactly `n` bytes, the characters of `src`
and then terminators; no terminator when `src` has `n` characters or more. -/
def strncpy (dst : List (Option Char)) (src : Str) (n : Nat) : Option (List (Option Char)) :=
  if n ≤ dst.length then
    some ((src.take n).map some ++ List.replicate (n - src.length) none ++ dst.drop n)
  else none

/-- The call `strncat(dst, src, n)`: appends at most `n` characters of `src` after the
string in `dst`, then a terminator. -/
def strncat (dst : List (Option Char)) (src : Str) (n : Nat) : Option (List (Option Char)) :=
  match cstr dst with
  | none => none
  | some d =>
    if d.length + (src.take n).length < dst.length then
      some (d.map some ++ (src.take n).map some ++
        none :: dst.drop (d.length + (src.take n).length + 1))
    else none

/-- The call `strcpy(dst, src)`: writes the characters of `src` and a terminator
at the start of the block `dst`; a fault when they do not fit. -/
def strcpy (dst : List (Option Char)) (src : Str) : Option (List (Option Char)) :=
  if src.length < dst.length then some (src.map some ++ none :: dst.drop (src.length + 1))
  else none

/-- The call `strcat(dst, src)`: appends `src` and a terminator after the string
in `dst`; a fault when `dst` holds no terminator or the text does not fit. -/
def strcat (dst : List (Option Char)) (src : Str) : Option (List (Option Char)) :=
  strncat dst src src.length

/-- The length of the block `malloc(n)` returns, which is at least `n`: the
allocator (glibc on a 64-bit system) hands out chunks of 32, 48, 64, ...
bytes and keeps 8 bytes of each for itself. -/
def mallocUsable (n : Nat) : Nat := max 32 ((n + 8 + 15) / 16 * 16) - 8

/-- Conversion of a computed value to `int`. -/
def wrap32 (x : Int) : Int := (x + 2 ^ 31) % 2 ^ 32 - 2 ^ 31

/-- Conversion of an `int` to `size_t`. -/
def sizeT (x : Int) : Nat := (x % 2 ^ 64).toNat

def isspace (c : Char) : Bool := decide (c.toNat = 32) || (decide (9 ≤ c.toNat) && decide (c.toNat ≤ 13))

/-- Value of the leading decimal digits. -/
def digitsVal : List Char → Int → Int
  | [], acc => acc
  | c :: cs, acc =>
    if 48 ≤ c.toNat ∧ c.toNat ≤ 57 then digitsVal cs (acc * 10 + ((c.toNat : Int) - 48)) else acc

/-- The function `atoi`: optional white space, optional sign, decimal digits; anything else
ends the number (so a token without digits gives 0).  `none` when the value
is not representable in an `int`. -/
def atoi (s : Str) : Option Int :=
  let r : Int :=
    match s.dropWhile isspace with
    | '-' :: t => - digitsVal t 0
    | '+' :: t => digitsVal t 0
    | t => digitsVal t 0
  if - 2 ^ 31 ≤ r ∧ r < 2 ^ 31 then some r else none

/-! ## `parsePath` -/

/-- The `while (token != NULL)` loop of `parsePath`, lines 64-68.  The first
argument bounds the number of iterations: a store at index `MAX_PATHS` is
outside `dirs`, so the loop cannot run more than `MAX_PATHS + 1` times. -/
def parsePathLoop : Nat → Option (Str × Str) → Nat → List (Option Str) →
    Option (Nat × List (Option Str))
  | 0, _, _, _ => none
  | _ + 1, none, numDirs, dirs => some (numDirs, dirs)
  | fuel + 1, some (tok, rest), numDirs, dirs =>
    if numDirs < MAX_PATHS then
      parsePathLoop fuel (strtok DELIM rest) (numDirs + 1) (dirs.set numDirs (some tok))
    else none

/-- The function `parsePath`, given the value of `getenv("PATH")`.  Returns the count and
the array `dirs`.  `strlen(pathEnv)` at line 43 comes before the `NULL` test
of line 45.  Line 43 requests `strlen(pathEnv)` bytes and line 48 copies the
string with its terminator into the block (whose content before the copy
plays no role); `strtok` then works on the string in the block. -/
def parsePath (pathEnv : Option Str) : Option (Nat × List (Option Str)) :=
  match pathEnv with
  | none => none
  | some p =>
    match strcpy (List.replicate (mallocUsable p.length) none) p with
    | none => none
    | some block =>
      match cstr block with
      | none => none
      | some thePath =>
        parsePathLoop (MAX_PATHS + 1) (strtok DELIM thePath) 0 (List.replicate MAX_PATHS none)

/-! ## `lookupPath` -/

/-- The `for` loop of `lookupPath`, lines 113-125: `k` iterations are left,
`i` is the index. -/
def lookupLoop (access : Str → Bool) (fname : Str) (dir : List (Option Str)) :
    Nat → Nat → List (Option Char) → Option (Option Str)
  | 0, _, _ => some none
  | k + 1, i, fullName =>
    match dir[i]? with
    | some (some d) =>
      let maxlen : Int := (MAX_PATH_LEN : Int) - 1
      match strncpy fullName d (sizeT maxlen) with
      | none => none
      | some b1 =>
        let maxlen1 : Int := wrap32 (maxlen - d.length)
        match strncat b1 ['/'] (sizeT maxlen1) with
        | none => none
        | some b2 =>
          let maxlen2 : Int := wrap32 (maxlen1 - 1)
          match strncat b2 fname (sizeT maxlen2) with
          | none => none
          | some b3 =>
            match cstr b3 with
            | none => none
            | some p => if access p then some (some p) else lookupLoop access fname dir k (i + 1) b3
    | _ => none

/-- The function `lookupPath`.  `heap` is the content of the block `malloc(MAX_PATH_LEN)`
returns; the result is the string at the returned pointer, `some none` for
`NULL` (line 128 frees the block before `NULL` is returned). -/
def lookupPath (access : Str → Bool) (heap : List (Option Char)) (fname : Option Str)
    (dir : List (Option Str)) (num : Nat) : Option (Option Str) :=
  match fname with
  | none => none
  | some f =>
    if f.head? = some '/' then
      match strncpy heap f (MAX_PATH_LEN - 1) with
      | none => none
      | some b =>
        match cstr b with
        | none => none
        | some p => if access p then some (some p) else some none
    else lookupLoop access f dir num 0 heap

/-! ## `parseCmd` -/

/-- The struct `Command`. -/
structure Command where
  argc : Nat
  argv : List (Option Str)
deriving DecidableEq

/-- The `while` loop of `parseCmd`, lines 151-155.  The first argument bounds
the iterations; the test `argc < MAX_ARGS` stops the loop after `MAX_ARGS`
of them. -/
def parseCmdFill : Nat → Option (Str × Str) → Nat → List (Option Str) →
    Nat × List (Option Str)
  | 0, _, argc, argv => (argc, argv)
  | _ + 1, none, argc, argv => (argc, argv)
  | fuel + 1, some (tok, rest), argc, argv =>
    if argc < MAX_ARGS then
      parseCmdFill fuel (strtok SEP rest) (argc + 1) (argv.set argc (some tok))
    else (argc, argv)

/-- The function `parseCmd`: the loop, then the store of the sentinel at `argv[argc]`,
which is inside the array only when `argc < MAX_ARGS`. -/
def parseCmd (cmdLine : Str) (cmd : Command) : Option (Nat × Command) :=
  let r := parseCmdFill MAX_ARGS (strtok SEP cmdLine) 0 cmd.argv
  if r.1 < MAX_ARGS then some (r.1, { argc := r.1, argv := r.2.set r.1 none }) else none

/-! ## The job table and the loop of `main` -/

/-- A job as the listing of lines 251-258 shows it: the two numbers of an
entry of `jobList` and the C string that starts at its field `name` (which
ends at the first zero byte, inside the field or after it). -/
structure Job where
  job_id : Int
  pid : Int
  name : Str
deriving DecidableEq

/-- The struct `Job` of `bshell.h` as `jobList` stores it: the two `int`s and
the `MAX_ARGS` bytes of the field `name`. -/
structure Slot where
  job_id : Int
  pid : Int
  name : List (Option Char)
deriving DecidableEq

/-- The byte with value `n` modulo 256; the zero byte is the terminator. -/
def byteOf (n : Nat) : Option Char :=
  if n % 256 = 0 then none else some (Char.ofNat (n % 256))

/-- The value of a byte. -/
def byteVal : Option Char → Nat
  | none => 0
  | some c => c.toNat % 256

/-- The four bytes of an `int`, least significant first. -/
def intBytes (v : Int) : List (Option Char) :=
  [byteOf (v % 2 ^ 32).toNat, byteOf ((v % 2 ^ 32).toNat / 2 ^ 8),
   byteOf ((v % 2 ^ 32).toNat / 2 ^ 16), byteOf ((v % 2 ^ 32).toNat / 2 ^ 24)]

/-- The `int` that four bytes hold. -/
def bytesInt (b : List (Option Char)) : Int :=
  wrap32 ((byteVal (b.getD 0 none) + 2 ^ 8 * byteVal (b.getD 1 none) +
    2 ^ 16 * byteVal (b.getD 2 none) + 2 ^ 24 * byteVal (b.getD 3 none) : Nat) : Int)

/-- The `MAX_ARGS` bytes of the field `name` of an entry. -/
def nameField (x : Slot) : List (Option Char) :=
  (x.name ++ List.replicate MAX_ARGS none).take MAX_ARGS

/-- The bytes of one entry of `jobList`: `job_id`, `pid`, `name`. -/
def slotBytes (x : Slot) : List (Option Char) :=
  intBytes x.job_id ++ intBytes x.pid ++ nameField x

/-- The bytes of consecutive entries of `jobList`. -/
def image : List Slot → List (Option Char)
  | [] => []
  | x :: l => slotBytes x ++ image l

/-- The bytes from the field `name` of the first of these entries to the end
of the block: what `strcat` and `printf("%s")` work on when they are given
that field. -/
def fromName : List Slot → List (Option Char)
  | [] => []
  | x :: l => nameField x ++ image l

/-- The `k` entries that the bytes `b` hold. -/
def slotsOf : Nat → List (Option Char) → List Slot
  | 0, _ => []
  | k + 1, b =>
    { job_id := bytesInt (b.take 4), pid := bytesInt ((b.drop 4).take 4),
      name := (b.drop 8).take MAX_ARGS } :: slotsOf k (b.drop (8 + MAX_ARGS))

/-- What one iteration does to the outside, in program order. -/
inductive Event where
  /-- The call `kill(pid, SIGKILL)` -/
  | signal (pid : Int)
  /-- The call of `fork` gave the parent a child; the child prints the notice when
  `notice` holds and calls `execv(path, argv)` -/
  | spawned (path : Str) (argv : List Str) (notice : Bool)
  /-- The call `waitpid(0, &status, WNOHANG)` -/
  | waitNoHang
  /-- The call `waitpid(0, &status, 0)` -/
  | waitBlocking
  /-- The call `chdir(path)` -/
  | chdir (path : Str)
  /-- The call `system("clear")` -/
  | clear
  /-- One line of the `jobs` listing -/
  | listed (verbose : Bool) (job_id : Int) (pid : Int) (name : Str)
  /-- The line printed after a background launch -/
  | started (job_id : Int) (pid : Int)
  /-- The message "Job ID not found. Enter a valid Job ID." -/
  | advisory
  /-- The message "fork failed" -/
  | forkFailed
  /-- The call `free(jobList)` -/
  | freeJobList
deriving DecidableEq

/-- The variables of `main` that live across iterations. -/
structure Shell where
  jobList : List Slot
  numJobs : Nat
  marker : Int
  command : Command
deriving DecidableEq

/-- What the operating system answers during one iteration. -/
structure World where
  /-- The value of `getenv("PATH")` -/
  pathEnv : Option Str
  /-- the result of `fgets`: `none` at end of input -/
  input : Option Str
  /-- The test `access(p, F_OK) == 0` -/
  access : Str → Bool
  /-- the value `fork` returns in this process -/
  fork : Int
  /-- whether `execv` replaces the image (it returns otherwise) -/
  execOk : Bool
  /-- content of the block `malloc(MAX_PATH_LEN)` returns -/
  heap : List (Option Char)
  /-- content of the block of `jobList` once it has been freed -/
  freedBlock : List Slot

/-- How one iteration ends. -/
inductive Outcome where
  /-- the loop goes on with this state -/
  | next (s : Shell) (ev : List Event)
  /-- the shell returns from `main` or calls `exit` -/
  | exit (status : Int) (ev : List Event)
  /-- this process is the child and `execv` replaced its image -/
  | exec (path : Str) (argv : List Str) (notice : Bool)
  /-- undefined behaviour -/
  | fault
deriving DecidableEq

/-- The entry `argv[i]`; the loop reads indices 0, 1 and `argCount - 1` only. -/
def Command.arg (c : Command) (i : Nat) : Option Str := c.argv.getD i none

/-- The vector `execv` receives: the entries before the first `NULL`. -/
def Command.argvList (c : Command) : List Str :=
  (c.argv.takeWhile Option.isSome).filterMap id

def sExit : Str := ['E', 'x', 'i', 't']
def sexit : Str := ['e', 'x', 'i', 't']
def sjobs : Str := ['j', 'o', 'b', 's']
def sJobs : Str := ['J', 'o', 'b', 's']
def skill : Str := ['k', 'i', 'l', 'l']
def sKill : Str := ['K', 'i', 'l', 'l']
def sr : Str := ['r']
def scd : Str := ['c', 'd']
def sDashL : Str := ['-', 'l']
def sAmp : Str := ['&']
def sHome : Str := ['/', 'h', 'o', 'm', 'e', '/', 'p', 'i']

/-- The loop of lines 238-240 (after `free(jobList)`, so the entries are read
from the freed block): `k` iterations left, index `i`. -/
def signalAll (block : List Slot) : Nat → Nat → Option (List Event)
  | 0, _ => some []
  | k + 1, i =>
    match block[i]? with
    | none => none
    | some j => (signalAll block k (i + 1)).map (fun r => Event.signal j.pid :: r)

/-- The listing loops of the `jobs` built-in, lines 251-258: `printf` reads
the name from the field `name` up to the first zero byte.  (The branch frees
nothing.) -/
def listLoop (verbose : Bool) (jobList : List Slot) : Nat → Nat → Option (List Event)
  | 0, _ => some []
  | k + 1, i =>
    match jobList[i]? with
    | none => none
    | some j =>
      match cstr (fromName (jobList.drop i)) with
      | none => none
      | some name =>
        (listLoop verbose jobList k (i + 1)).map
          (fun r => Event.listed verbose j.job_id j.pid name :: r)

/-- The search loop of the `kill` built-in, lines 274-279: `k` iterations
left, index `i`, current `num`, signals sent so far. -/
def killScan (checker : Int) (jobList : List Slot) :
    Nat → Nat → Int → List Event → Option (Int × List Event)
  | 0, _, num, ev => some (num, ev)
  | k + 1, i, num, ev =>
    match jobList[i]? with
    | none => none
    | some j =>
      if checker = j.job_id then
        killScan checker jobList k (i + 1) j.job_id (ev ++ [Event.signal j.pid])
      else killScan checker jobList k (i + 1) num ev

/-- The loop of lines 284-286, `jobList[j] = jobList[j+1]`: the assignment
copies the whole entry, the `MAX_ARGS` bytes of `name` included. -/
def shiftLoop : Nat → Nat → List Slot → Option (List Slot)
  | 0, _, l => some l
  | k + 1, j, l =>
    match l[j + 1]? with
    | none => none
    | some x => shiftLoop k (j + 1) (l.set j x)

/-- The loop of lines 287-289, `jobList[j].job_id -= 1`. -/
def renumLoop : Nat → Nat → List Slot → Option (List Slot)
  | 0, _, l => some l
  | k + 1, j, l =>
    match l[j]? with
    | none => none
    | some x => renumLoop k (j + 1) (l.set j { x with job_id := x.job_id - 1 })

/-- The `kill` built-in from line 274 on, `checker` being `atoi(argv[1])`.
Both loops run for `j` from `num - 1` to `numJobs - 2`.  (Lines 270-272 free
`argv[0..argc-1]` before the search, line 290 frees `thePath` after a
removal.) -/
def killBuiltin (checker : Int) (s : Shell) : Outcome :=
  match killScan checker s.jobList s.numJobs 0 (-1) [] with
  | none => Outcome.fault
  | some (num, ev) =>
    if num = -1 then Outcome.next s (ev ++ [Event.advisory])
    else
      let count : Nat := ((s.numJobs : Int) - num).toNat
      if count ≠ 0 ∧ num - 1 < 0 then Outcome.fault
      else
        match shiftLoop count (num - 1).toNat s.jobList with
        | none => Outcome.fault
        | some l1 =>
          match renumLoop count (num - 1).toNat l1 with
          | none => Outcome.fault
          | some l2 => Outcome.next { s with jobList := l2, numJobs := s.numJobs - 1 } ev

/-- The loop of lines 356-359: `strcat` of each argument and of a space onto
the field `name` of the new entry.  `mem` holds the bytes from that field to
the end of `jobList`: `strcat` looks for the first zero byte from the start
of the field on and writes from there, without regard to the end of the
field. -/
def nameLoop (c : Command) : Nat → Nat → List (Option Char) → Option (List (Option Char))
  | 0, _, mem => some mem
  | k + 1, i, mem =>
    match c.arg i with
    | none => none
    | some a =>
      match strcat mem a with
      | none => none
      | some m1 =>
        match strcat m1 [chSpace] with
        | none => none
        | some m2 => nameLoop c k (i + 1) m2

/-- The table after lines 352-359: the entries before the new one are as they
were, the new one has the given numbers, and its `name` and the entries after
it are what the bytes `mem` (from the field `name` of the new entry to the end
of the block) hold after the loop of `strcat`. -/
def addJob (jobList : List Slot) (numJobs : Nat) (job_id pid : Int)
    (mem : List (Option Char)) : List Slot :=
  jobList.take numJobs ++
    ({ job_id := job_id, pid := pid, name := mem.take MAX_ARGS } ::
      slotsOf (jobList.length - (numJobs + 1)) (mem.drop MAX_ARGS))

/-- Lines 335-336 and 387-388: the last argument becomes `NULL`, `argc` drops. -/
def stripLast (c : Command) (argCount : Nat) : Command :=
  { argc := c.argc - 1, argv := c.argv.set (argCount - 1) none }

/-- The branch of lines 332-382.  (Line 337 frees the `NULL` it has just
stored; the parent frees `fullpath`, `thePath` and `argv[0..argc-1]` at lines
363-367, after the new entry has been written; `lookupPath` frees its own
block when it returns `NULL`.) -/
def background (w : World) (s : Shell) (argCount numPaths : Nat)
    (dirs : List (Option Str)) : Outcome :=
  let c := stripLast s.command argCount
  match lookupPath w.access w.heap (c.arg 0) dirs numPaths with
  | none => Outcome.fault
  | some none => Outcome.next { s with command := c } []
  | some (some fullpath) =>
    if w.fork = 0 then
      if w.execOk then Outcome.exec fullpath c.argvList false
      else Outcome.next { s with command := c } []
    else if 0 < w.fork then
      match s.jobList[s.numJobs]? with
      | none => Outcome.fault
      | some _ =>
        match nameLoop c c.argc 0 (fromName (s.jobList.drop s.numJobs)) with
        | none => Outcome.fault
        | some mem =>
          Outcome.next
            { s with
              command := c
              numJobs := s.numJobs + 1
              jobList := addJob s.jobList s.numJobs ((s.numJobs : Int) + 1) w.fork mem }
            [Event.spawned fullpath c.argvList false, Event.waitNoHang,
             Event.started ((s.numJobs : Int) + 1) w.fork]
    else Outcome.exit 1 [Event.forkFailed]

/-- The branch of lines 383-429.  (The parent frees `fullpath`, `thePath` and
`argv[0..argc-1]` at lines 408-412, after the wait.) -/
def foreground (w : World) (s : Shell) (argCount numPaths : Nat)
    (dirs : List (Option Str)) (last : Str) : Outcome :=
  let strip : Bool := decide (last = sAmp) && decide (s.numJobs = MAX_JOBS)
  let c := if strip then stripLast s.command argCount else s.command
  let marker : Int := if strip then -1 else s.marker
  match lookupPath w.access w.heap (c.arg 0) dirs numPaths with
  | none => Outcome.fault
  | some none => Outcome.next { s with command := c, marker := marker } []
  | some (some fullpath) =>
    if w.fork = 0 then
      if w.execOk then Outcome.exec fullpath c.argvList (decide (marker = -1))
      else Outcome.next { s with command := c, marker := marker } []
    else if 0 < w.fork then
      Outcome.next { s with command := c, marker := 0 }
        [Event.spawned fullpath c.argvList (decide (marker = -1)), Event.waitBlocking]
    else Outcome.exit 1 [Event.forkFailed]

/-- The final `else` of the chain, lines 329-430. -/
def external (w : World) (s : Shell) (argCount numPaths : Nat)
    (dirs : List (Option Str)) : Outcome :=
  if argCount = 0 then Outcome.fault
  else
    match s.command.arg (argCount - 1) with
    | none => Outcome.fault
    | some last =>
      if last = sAmp ∧ s.numJobs < MAX_JOBS then background w s argCount numPaths dirs
      else foreground w s argCount numPaths dirs last

/-- The chain of lines 221-430, `command` holding the parsed line.  (`exit`
frees `thePath`, `prompt`, `argv[0..argc-1]`, `command` and `jobList` before
it reads the pids; `r` and `cd` free `argv[0..argc-1]` and `thePath`.) -/
def dispatch (w : World) (s : Shell) (argCount numPaths : Nat)
    (dirs : List (Option Str)) : Outcome :=
  match s.command.arg 0 with
  | none => Outcome.fault
  | some a0 =>
    if a0 = sExit ∨ a0 = sexit then
      match signalAll w.freedBlock s.numJobs 0 with
      | none => Outcome.fault
      | some ev => Outcome.exit FALSE (Event.freeJobList :: Event.clear :: ev)
    else if a0 = sjobs ∨ a0 = sJobs then
      match listLoop (decide (s.command.arg 1 = some sDashL)) s.jobList s.numJobs 0 with
      | none => Outcome.fault
      | some ev => Outcome.next s ev
    else if (a0 = skill ∨ a0 = sKill) ∧ s.command.arg 1 ≠ none then
      match (s.command.arg 1).bind atoi with
      | none => Outcome.fault
      | some checker => killBuiltin checker s
    else if a0 = sr ∧ s.command.arg 1 = none then Outcome.next s [Event.clear]
    else if a0 = scd ∧ s.command.arg 1 ≠ none then
      Outcome.next s [Event.chdir ((s.command.arg 1).getD [])]
    else if a0 = scd ∧ s.command.arg 1 = none then Outcome.next s [Event.chdir sHome]
    else external w s argCount numPaths dirs

/-- One iteration of the `while (TRUE)` loop of `main`, lines 191-431. -/
def step (w : World) (s : Shell) : Outcome :=
  match parsePath w.pathEnv with
  | none => Outcome.fault
  | some (numPaths, dirs) =>
    match w.input with
    | none => Outcome.fault
    | some input =>
      if input = [chNewline] then Outcome.next s []
      else if input = [chSpace, chNewline] then Outcome.next s []
      else if input = [chTab, chNewline] then Outcome.next s []
      else
        match parseCmd input s.command with
        | none => Outcome.fault
        | some (argCount, command) =>
          dispatch w { s with command := command } argCount numPaths dirs

/-! ## Notions of the specification -/

/-- The maximal runs of non-delimiter characters of a string, in order: the
string is cut at every delimiter and the empty pieces are dropped. -/
def tokens (delim : List Char) (s : Str) : List Str :=
  (s.splitOnP (fun c => delim.contains c)).filter (fun t => !t.isEmpty)

/-- The candidate `d + "/" + name` that `lookupPath` builds for directory `d`. -/
def candidate (name : Str) (d : Str) : Str := d ++ '/' :: name

/-- The characters before the first zero byte (all of them when there is no
zero byte). -/
def strOf (b : List (Option Char)) : Str := (b.takeWhile Option.isSome).filterMap id

/-- The entries of a table as the listing shows them: the name of an entry is
the string that starts at its field `name`. -/
def listed : List Slot → List Job
  | [] => []
  | x :: l => { job_id := x.job_id, pid := x.pid, name := strOf (fromName (x :: l)) } :: listed l

/-- The tracked jobs: the first `numJobs` entries of `jobList`, in table
order, as the listing shows them. -/
def tracked (s : Shell) : List Job := (listed s.jobList).take s.numJobs

/-- The tracked entries as they are stored. -/
def stored (s : Shell) : List Slot := s.jobList.take s.numJobs

/-- The stored job ids are exactly 1, 2, ..., n in table order. -/
def DenseSlots (l : List Slot) : Prop :=
  ∀ (i : Nat) (x : Slot), l[i]? = some x → x.job_id = (i : Int) + 1

/-- The job ids of a table are exactly 1, 2, ..., n in table order. -/
def DenseIds (jobs : List Job) : Prop :=
  jobs.map Job.job_id = (List.range jobs.length).map (fun (i : Nat) => (i : Int) + 1)

instance (jobs : List Job) : Decidable (DenseIds jobs) := by
  unfold DenseIds
  infer_instance

/-- The shape `main` gives its storage: `jobList` has `MAX_JOBS` entries of
which at most `MAX_JOBS` are tracked, `argv` has `MAX_ARGS` entries. -/
def WellFormed (s : Shell) : Prop :=
  s.jobList.length = MAX_JOBS ∧ s.numJobs ≤ MAX_JOBS ∧ s.command.argv.length = MAX_ARGS

instance (s : Shell) : Decidable (WellFormed s) := by
  unfold WellFormed
  infer_instance

/-- The renumbering of an entry that moves down one position. -/
def renumber (j : Slot) : Slot := { j with job_id := j.job_id - 1 }

/-- The `Command` that `parseCmd` leaves for a line of fewer than `MAX_ARGS`
tokens: the tokens, the sentinel, and the older entries `rest` behind it. -/
def parsedCommand (toks : List Str) (rest : List (Option Str)) : Command :=
  { argc := toks.length, argv := toks.map some ++ none :: rest }

/-- The tokens of the line of this iteration (none at end of input). -/
def World.toks (w : World) : List Str :=
  match w.input with
  | some line => tokens SEP line
  | none => []

/-- The argument vectors that no built-in takes (the table of section 4.4 of
the specification, last row): the first token is none of `exit`, `Exit`,
`jobs`, `Jobs`, `cd`; it is not `kill` or `Kill` followed by a token; it is
not `r` alone. -/
def External (toks : List Str) : Prop :=
  match toks with
  | [] => False
  | a0 :: rest =>
    a0 ≠ sExit ∧ a0 ≠ sexit ∧ a0 ≠ sjobs ∧ a0 ≠ sJobs ∧ a0 ≠ scd ∧
    ¬ ((a0 = skill ∨ a0 = sKill) ∧ rest ≠ []) ∧ ¬ (a0 = sr ∧ rest = [])

instance (toks : List Str) : Decidable (External toks) := by
  unfold External
  cases toks <;> infer_instance

/-- The line of this iteration is an external command whose last token is
`&`, in an iteration in which `parsePath` returns (`PATH` is set, its copy
fits the block of `thePath`, and it names at most `MAX_PATHS` directories)
and `fgets` delivers a line of fewer than `MAX_ARGS` tokens. -/
def AsksBackground (w : World) : Prop :=
  (parsePath w.pathEnv).isSome ∧ w.input.isSome ∧ w.toks.length < MAX_ARGS ∧
  External w.toks ∧ w.toks.getLast? = some sAmp

instance (w : World) : Decidable (AsksBackground w) := by
  unfold AsksBackground
  infer_instance

/-- What `lookupPath` answers in this iteration for the program name that is
left once the last token has been removed. -/
def World.resolveStripped (w : World) : Option (Option Str) :=
  match parsePath w.pathEnv with
  | none => none
  | some (numPaths, dirs) => lookupPath w.access w.heap w.toks.dropLast.head? dirs numPaths

/-- A successful background launch with pid `p`: the line is an external
command whose last token is `&`, its program resolves, and `fork` gives the
parent the pid `p`. -/
def Launches (w : World) (p : Int) : Prop :=
  AsksBackground w ∧ (w.resolveStripped.bind id).isSome ∧ w.fork = p ∧ 0 < p

instance (w : World) (p : Int) : Decidable (Launches w p) := by
  unfold Launches
  infer_instance

/-- The text a background launch appends to the name of the new entry: every
token but the last (the `&`), each followed by a space. -/
def World.launchText (w : World) : Str :=
  (w.toks.dropLast.map (fun a => a ++ [chSpace])).flatten

/-- The name of the new entry stays inside `jobList`: the bytes from the
field `name` of the first free entry to the end of the block hold a string,
and that string, the text of the launch and the terminator fit in them.  A
successful background launch goes on when this holds and is a fault when it
does not. -/
def NameInTable (w : World) (s : Shell) : Prop :=
  match cstr (fromName (s.jobList.drop s.numJobs)) with
  | none => False
  | some d => d.length + w.launchText.length < (fromName (s.jobList.drop s.numJobs)).length

instance (w : World) (s : Shell) : Decidable (NameInTable w s) := by
  unfold NameInTable
  split <;> infer_instance

/-- The token `atoi` is applied to when the line is `kill t ...` or `Kill t ...`. -/
def World.killArg (w : World) : Option Str :=
  match w.toks with
  | c :: t :: _ => if c = skill ∨ c = sKill then some t else none
  | _ => none

/-- The line of this iteration is the command `kill` (or `Kill`) with a second
token whose integer value is `v`, in an iteration in which `parsePath`
returns (`PATH` is set, its copy fits the block of `thePath`, and it names at
most `MAX_PATHS` directories). -/
def Kills (w : World) (v : Int) : Prop :=
  (parsePath w.pathEnv).isSome ∧ w.toks.length < MAX_ARGS ∧ w.killArg.bind atoi = some v

instance (w : World) (v : Int) : Decidable (Kills w v) := by
  unfold Kills
  infer_instance

/-- The states the loop of `main` can be in at the top of an iteration: the
initial one (no job, `marker` 0, storage of the declared sizes with any
content), and those an iteration leads to. -/
inductive Reachable : Shell → Prop where
  | init (s : Shell) (hwf : WellFormed s) (hn : s.numJobs = 0) (hm : s.marker = 0) : Reachable s
  | next (w : World) (s s1 : Shell) (ev : List Event) (hs : Reachable s)
      (hstep : step w s = Outcome.next s1 ev) : Reachable s1

/-! ## Notions for the dispatch -/

/-- Lines 339-381: the background branch once `&` has been removed, `c` being
the command after lines 335-336. -/
def launchBackground (w : World) (s : Shell) (c : Command) (numPaths : Nat)
    (dirs : List (Option Str)) : Outcome :=
  match lookupPath w.access w.heap (c.arg 0) dirs numPaths with
  | none => Outcome.fault
  | some none => Outcome.next { s with command := c } []
  | some (some fullpath) =>
    if w.fork = 0 then
      if w.execOk then Outcome.exec fullpath c.argvList false
      else Outcome.next { s with command := c } []
    else if 0 < w.fork then
      match s.jobList[s.numJobs]? with
      | none => Outcome.fault
      | some _ =>
        match nameLoop c c.argc 0 (fromName (s.jobList.drop s.numJobs)) with
        | none => Outcome.fault
        | some mem =>
          Outcome.next
            { s with
              command := c
              numJobs := s.numJobs + 1
              jobList := addJob s.jobList s.numJobs ((s.numJobs : Int) + 1) w.fork mem }
            [Event.spawned fullpath c.argvList false, Event.waitNoHang,
             Event.started ((s.numJobs : Int) + 1) w.fork]
    else Outcome.exit 1 [Event.forkFailed]

/-- Lines 392-428: the foreground branch after lines 386-390, `c` being the
command and `marker` the flag at that point. -/
def launchForeground (w : World) (s : Shell) (c : Command) (marker : Int) (numPaths : Nat)
    (dirs : List (Option Str)) : Outcome :=
  match lookupPath w.access w.heap (c.arg 0) dirs numPaths with
  | none => Outcome.fault
  | some none => Outcome.next { s with command := c, marker := marker } []
  | some (some fullpath) =>
    if w.fork = 0 then
      if w.execOk then Outcome.exec fullpath c.argvList (decide (marker = -1))
      else Outcome.next { s with command := c, marker := marker } []
    else if 0 < w.fork then
      Outcome.next { s with command := c, marker := 0 }
        [Event.spawned fullpath c.argvList (decide (marker = -1)), Event.waitBlocking]
    else Outcome.exit 1 [Event.forkFailed]

/-- The line of this iteration is an external command: `parsePath` returns
(`PATH` is set, its copy fits the block of `thePath`, and it names at most
`MAX_PATHS` directories), `fgets` delivers a line of fewer than `MAX_ARGS`
tokens, and no built-in takes its argument vector. -/
def ExternalLine (w : World) : Prop :=
  (parsePath w.pathEnv).isSome ∧ w.input.isSome ∧ w.toks.length < MAX_ARGS ∧ External w.toks

instance (w : World) : Decidable (ExternalLine w) := by
  unfold ExternalLine
  infer_instance

/-- The background flag of the specification (ExternalDispatch, step 1): the
last token of the line is exactly `&`. -/
def World.backgroundFlag (w : World) : Prop := w.toks.getLast? = some sAmp

instance (w : World) : Decidable w.backgroundFlag := by
  unfold World.backgroundFlag
  infer_instance

/-- The argument vector of the specification (ExternalDispatch, step 1): the
tokens of the line, without the last one when the background flag is set. -/
def World.vector (w : World) : List Str :=
  if w.backgroundFlag then w.toks.dropLast else w.toks

/-- What `lookupPath` answers in this iteration for the first element of the
argument vector: `none` for a fault, `some none` for `NULL`. -/
def World.resolve (w : World) : Option (Option Str) :=
  match parsePath w.pathEnv with
  | none => none
  | some (numPaths, dirs) => lookupPath w.access w.heap w.vector.head? dirs numPaths

/-- The rows of the classification table of section 4.4 of the specification. -/
inductive Action where
  /-- first token `exit` or `Exit` -/
  | exit
  /-- first token `jobs` or `Jobs`; verbose when the second token is `-l` -/
  | jobs (verbose : Bool)
  /-- first token `kill` or `Kill` with a second token `t` -/
  | kill (t : Str)
  /-- the token `r` alone -/
  | clear
  /-- first token `cd` with a path token -/
  | cd (path : Str)
  /-- the token `cd` alone -/
  | home
  /-- anything else -/
  | external
deriving DecidableEq

/-- The classification table of section 4.4 of the specification, on exact
spellings. -/
def classify : List Str → Action
  | [] => Action.external
  | a0 :: rest =>
    if a0 = sexit ∨ a0 = sExit then Action.exit
    else if a0 = sjobs ∨ a0 = sJobs then Action.jobs (decide (rest.head? = some sDashL))
    else if a0 = skill ∨ a0 = sKill then
      match rest with
      | t :: _ => Action.kill t
      | [] => Action.external
    else if a0 = sr then
      match rest with
      | [] => Action.clear
      | _ :: _ => Action.external
    else if a0 = scd then
      match rest with
      | p :: _ => Action.cd p
      | [] => Action.home
    else Action.external

/-- What the loop does for each row of the table: the bodies of the branches
of lines 221-430. -/
def perform (w : World) (s : Shell) (argCount numPaths : Nat) (dirs : List (Option Str)) :
    Action → Outcome
  | Action.exit =>
    match signalAll w.freedBlock s.numJobs 0 with
    | none => Outcome.fault
    | some ev => Outcome.exit FALSE (Event.freeJobList :: Event.clear :: ev)
  | Action.jobs verbose =>
    match listLoop verbose s.jobList s.numJobs 0 with
    | none => Outcome.fault
    | some ev => Outcome.next s ev
  | Action.kill t =>
    match atoi t with
    | none => Outcome.fault
    | some checker => killBuiltin checker s
  | Action.clear => Outcome.next s [Event.clear]
  | Action.cd path => Outcome.next s [Event.chdir path]
  | Action.home => Outcome.next s [Event.chdir sHome]
  | Action.external => external w s argCount numPaths dirs

/-- The iterations for the worlds `ws` from `s`, as long as the loop goes on;
`none` when an iteration ends the loop. -/
def runNext : List World → Shell → Option Shell
  | [], s => some s
  | w :: ws, s =>
    match step w s with
    | Outcome.next s1 _ => runNext ws s1
    | _ => none

/-- The events of the iteration for `w` from `s` and the tracked jobs after
it, when the loop goes on. -/
def afterStep (w : World) (s : Shell) : Option (List Event × List Job) :=
  match step w s with
  | Outcome.next s1 ev => some (ev, tracked s1)
  | _ => none

/-- The line of this iteration gives a non-empty argument vector: `parsePath`
returns (`PATH` is set, its copy fits the block of `thePath`, and it names at
most `MAX_PATHS` directories) and `fgets` delivers a line with at least one
and fewer than `MAX_ARGS` tokens. -/
def ParsedLine (w : World) : Prop :=
  (parsePath w.pathEnv).isSome ∧ w.input.isSome ∧ w.toks ≠ [] ∧ w.toks.length < MAX_ARGS

instance (w : World) : Decidable (ParsedLine w) := by
  unfold ParsedLine
  infer_instance

/-! ## Concrete states and worlds -/

/-- A `Command` as `malloc(sizeof(Command))` gives it, every entry `NULL`. -/
def emptyCommand : Command := { argc := 0, argv := List.replicate MAX_ARGS none }

/-- A line of 64 tokens: `a a a ... a `. -/
def line64 : Str := (List.replicate 64 ['a', chSpace]).flatten

/-- A short line with runs of delimiters: two spaces, `ls`, tab and space, `-l`, newline. -/
def lineLs : Str := [chSpace, chSpace, 'l', 's', chTab, chSpace, '-', 'l', chNewline]

/-- A search path of nine one-letter directories, `a:b:c:d:e:f:g:h:i`. -/
def path9 : Str :=
  [':'].intercalate [['a'], ['b'], ['c'], ['d'], ['e'], ['f'], ['g'], ['h'], ['i']]

/-- The search path `/bin:/usr/bin`. -/
def pathBin : Str := ['/', 'b', 'i', 'n', ':', '/', 'u', 's', 'r', '/', 'b', 'i', 'n']

/-- A name of 96 bytes beginning with `/`: a slash and 95 times `a`. -/
def longName : Str := '/' :: List.replicate 95 'a'

/-- A block of `MAX_PATH_LEN` zero bytes. -/
def zeroBlock : List (Option Char) := List.replicate MAX_PATH_LEN none

/-- A block of `MAX_PATH_LEN` bytes without any zero byte. -/
def dirtyBlock : List (Option Char) := List.replicate MAX_PATH_LEN (some 'x')

/-- The command text `sleep 100 ` that a launch of `sleep 100 &` stores. -/
def nameSleep : Str := ['s', 'l', 'e', 'e', 'p', chSpace, '1', '0', '0', chSpace]

/-- The field `name` holding the string `t` and zero bytes after it. -/
def nameBytes (t : Str) : List (Option Char) :=
  t.map some ++ List.replicate (MAX_ARGS - t.length) none

/-- An entry of `jobList` of zero bytes. -/
def blankSlot : Slot := { job_id := 0, pid := 0, name := List.replicate MAX_ARGS none }

/-- The entry of a job started by `sleep 100 &` in a zeroed slot. -/
def sleepSlot (job_id pid : Int) : Slot :=
  { job_id := job_id, pid := pid, name := nameBytes nameSleep }

/-- The state before the first line, with zeroed storage. -/
def shell0 : Shell :=
  { jobList := List.replicate MAX_JOBS blankSlot, numJobs := 0, marker := 0,
    command := emptyCommand }

/-- The table of scenario C: three jobs with pids 11, 12, 13. -/
def shell3 : Shell :=
  { jobList := [sleepSlot 1 11, sleepSlot 2 12, sleepSlot 3 13] ++ List.replicate 7 blankSlot,
    numJobs := 3, marker := 0, command := emptyCommand }

/-- A full table: ten jobs with ids 1..10 and pids 101..110. -/
def shell10 : Shell :=
  { jobList := (List.range 10).map (fun (i : Nat) => sleepSlot ((i : Int) + 1) ((i : Int) + 101)),
    numJobs := 10, marker := 0, command := emptyCommand }

/-- The path `/usr/bin/sleep`. -/
def pathSleep : Str := ['/', 'u', 's', 'r', '/', 'b', 'i', 'n', '/', 's', 'l', 'e', 'e', 'p']

/-- A world with `PATH=/bin:/usr/bin` in which only `/usr/bin/sleep` exists,
`fgets` delivers `line` and `fork` returns `pid`. -/
def world (line : Str) (pid : Int) : World :=
  { pathEnv := some pathBin, input := some line, access := fun p => decide (p = pathSleep),
    fork := pid, execOk := true, heap := dirtyBlock, freedBlock := [] }

/-- The line `sleep 100 &`. -/
def lineSleep : Str :=
  ['s', 'l', 'e', 'e', 'p', chSpace, '1', '0', '0', chSpace, '&', chNewline]

/-- The line `kill 2`. -/
def lineKill2 : Str := ['k', 'i', 'l', 'l', chSpace, '2', chNewline]

/-- The line `kill 99`. -/
def lineKill99 : Str := ['k', 'i', 'l', 'l', chSpace, '9', '9', chNewline]

/-- The line `Kill abc`. -/
def lineKillAbc : Str := ['K', 'i', 'l', 'l', chSpace, 'a', 'b', 'c', chNewline]

/-- The state after `sleep 100 &` from `shell0`, the child having pid 11. -/
def shell1 : Shell :=
  { jobList := sleepSlot 1 11 :: List.replicate 9 blankSlot,
    numJobs := 1, marker := 0,
    command :=
      { argc := 2,
        argv := [some ['s', 'l', 'e', 'e', 'p'], some ['1', '0', '0']] ++ List.replicate 62 none } }


/-- The line `ls -l` (in `world` no `ls` exists). -/
def lineLsL : Str := ['l', 's', chSpace, '-', 'l', chNewline]

/-- The line `nosuch &`. -/
def lineNoSuchAmp : Str := ['n', 'o', 's', 'u', 'c', 'h', chSpace, '&', chNewline]

/-- The line `sleep 100`. -/
def lineSleepFg : Str := ['s', 'l', 'e', 'e', 'p', chSpace, '1', '0', '0', chNewline]

/-- The line `jobs -l`. -/
def lineJobsL : Str := ['j', 'o', 'b', 's', chSpace, '-', 'l', chNewline]

/-- The line `CD /tmp`. -/
def lineUpperCd : Str := ['C', 'D', chSpace, '/', 't', 'm', 'p', chNewline]

/-- The line of two spaces and a newline. -/
def lineTwoSpaces : Str := [chSpace, chSpace, chNewline]

/-- The line of a space, a tab and a newline. -/
def lineSpaceTab : Str := [chSpace, chTab, chNewline]

/-- The line `&`. -/
def lineAmp : Str := ['&', chNewline]

/-- The line `exit`. -/
def lineExit : Str := ['e', 'x', 'i', 't', chNewline]

/-- The line `kill 1`. -/
def lineKill1 : Str := ['k', 'i', 'l', 'l', chSpace, '1', chNewline]

/-- The line `ls &` (in `world` no `ls` exists). -/
def lineLsAmp : Str := ['l', 's', chSpace, '&', chNewline]

/-- A line of 75 characters: `sleep`, an argument of 66 letters, `&`. -/
def lineLong : Str :=
  ['s', 'l', 'e', 'e', 'p', chSpace] ++ List.replicate 66 'a' ++ [chSpace, '&', chNewline]

/-- The text of 73 characters that the launch of `lineLong` stores: `sleep`,
the argument of 66 letters, each followed by a space. -/
def nameLong : Str := ['s', 'l', 'e', 'e', 'p', chSpace] ++ List.replicate 66 'a' ++ [chSpace]

/-- The line `kill 3 &`. -/
def lineKill3Amp : Str := ['k', 'i', 'l', 'l', chSpace, '3', chSpace, '&', chNewline]

/-- A search path of 24 characters. -/
def path24 : Str := ("/usr/local/bin:/bin:/opt").toList

/-- The state after `sleep 100 &` (pid 11) and the line of 75 characters (pid
12) from `shell0`. -/
def shellLong : Shell := (runNext [world lineSleep 11, world lineLong 12] shell0).getD shell0

/-- The state after the line of 75 characters (pid 11) from `shell0`. -/
def shellLongFirst : Shell := (runNext [world lineLong 11] shell0).getD shell0

/-- A search path of nine directories, as many systems set it. -/
def pathNine : Str :=
  ("/usr/local/sbin:/usr/local/bin:/usr/sbin:/usr/bin:/sbin:/bin:/usr/games" ++
    ":/usr/local/games:/snap/bin").toList

/-- A world in which `PATH` is not set. -/
def worldNoPath (line : Str) : World :=
  { pathEnv := none, input := some line, access := fun _ => false, fork := 0, execOk := true,
    heap := zeroBlock, freedBlock := [] }

/-- The block of `shell3.jobList` after `free`, the allocator having written
its link word over the first eight bytes (the `job_id` and `pid` of the first
entry); the other entries are intact. -/
def freedShell3 : List Slot :=
  sleepSlot 1431655770 5 :: shell3.jobList.drop 1

/-- The world of the line `exit` on `shell3`. -/
def worldExit : World :=
  { pathEnv := some pathBin, input := some lineExit, access := fun _ => false, fork := 0,
    execOk := true, heap := dirtyBlock, freedBlock := freedShell3 }

/-- The state after ten launches of `sleep 100 &` from `shell0`, the children
having the pids 101..110. -/
def shellFull : Shell :=
  { shell10 with
    command :=
      { argc := 2,
        argv := [some ['s', 'l', 'e', 'e', 'p'], some ['1', '0', '0']] ++ List.replicate 62 none } }

/-- Ten launches of `sleep 100 &`, the children having the pids 101..110. -/
def tenLaunches : List World :=
  (List.range 10).map (fun (i : Nat) => world lineSleep ((i : Int) + 101))

/-- The state after the line `nosuch &` on `shellFull`: the same table, the
flag `marker` at -1, `argv` holding the stripped command. -/
def shellFlagged : Shell :=
  { shellFull with
    marker := -1
    command :=
      { argc := 1, argv := [some ['n', 'o', 's', 'u', 'c', 'h']] ++ List.replicate 63 none } }

/-- The names of these entries end inside their fields: each field `name`
holds a zero byte. -/
def NamesEnd (l : List Slot) : Prop := ∀ x ∈ l, none ∈ nameField x

/-- An entry as the listing shows it when its name ends inside its field. -/
def Slot.shown (x : Slot) : Job :=
  { job_id := x.job_id, pid := x.pid, name := strOf (nameField x) }

/-! # Lemmas and theorems -/

set_option maxRecDepth 20000

/-! ## `strtok` and the maximal runs -/

theorem splitOnP_run (p : Char → Bool) (s : Str) :
    s.splitOnP p = s.takeWhile (fun x => !p x) ::
      (match s.dropWhile (fun x => !p x) with
        | [] => []
        | _ :: r => r.splitOnP p) := by
  induction s with
  | nil => rfl
  | cons a s ih =>
    rw [List.splitOnP_cons]
    by_cases h : p a
    · simp [h, List.takeWhile, List.dropWhile]
    · simp only [h, Bool.false_eq_true, if_false]
      rw [ih]
      simp [List.takeWhile, List.dropWhile, h, List.modifyHead]

theorem strtok_cons_delim (delim : List Char) (a : Char) (s : Str) (h : a ∈ delim) :
    strtok delim (a :: s) = strtok delim s := by
  simp [strtok, List.dropWhile_cons, h]

theorem strtok_cons_char (delim : List Char) (a : Char) (s : Str) (h : a ∉ delim) :
    strtok delim (a :: s) =
      some (a :: s.takeWhile (fun x => !delim.contains x),
        (s.dropWhile (fun x => !delim.contains x)).drop 1) := by
  simp [strtok, List.dropWhile_cons, List.takeWhile_cons, h]

theorem tokens_strtok (delim : List Char) (s : Str) :
    tokens delim s =
      match strtok delim s with
      | none => []
      | some (tok, rest) => tok :: tokens delim rest := by
  induction s with
  | nil => rfl
  | cons a s ih =>
    by_cases h : a ∈ delim
    · have h2 : tokens delim (a :: s) = tokens delim s := by
        simp [tokens, List.splitOnP_cons, h]
      rw [strtok_cons_delim delim a s h, h2, ih]
    · rw [strtok_cons_char delim a s h]
      simp only [tokens]
      rw [splitOnP_run]
      simp only [List.takeWhile_cons, List.dropWhile_cons]
      simp only [List.elem_eq_mem, h, decide_False, Bool.not_false, if_true]
      rw [List.filter_cons_of_pos (by simp)]
      congr 1
      cases hd : s.dropWhile (fun x => !decide (x ∈ delim)) with
      | nil => simp
      | cons d r => simp

/-! ## The loop of `parseCmd` -/

theorem parseCmdFill_spec (fuel : Nat) :
    ∀ (s : Str) (argc : Nat) (argv : List (Option Str)),
      argc + fuel = MAX_ARGS → argv.length = MAX_ARGS →
      (parseCmdFill fuel (strtok SEP s) argc argv).1 = argc + min fuel (tokens SEP s).length ∧
      (parseCmdFill fuel (strtok SEP s) argc argv).2.length = MAX_ARGS ∧
      ∀ i, (parseCmdFill fuel (strtok SEP s) argc argv).2[i]? =
        if argc ≤ i ∧ i < argc + min fuel (tokens SEP s).length
        then some ((tokens SEP s)[i - argc]?) else argv[i]? := by
  induction fuel with
  | zero =>
    intro s argc argv _ hl
    simp only [parseCmdFill, hl, Nat.zero_min, Nat.add_zero, true_and]
    intro i
    rw [if_neg (by omega)]
  | succ fuel ih =>
    intro s argc argv hf hl
    have ht := tokens_strtok SEP s
    cases hs : strtok SEP s with
    | none =>
      rw [hs] at ht
      simp only at ht
      simp only [parseCmdFill, ht, hl, List.length_nil, Nat.min_zero, Nat.add_zero, true_and]
      intro i
      rw [if_neg (by omega)]
    | some pr =>
      obtain ⟨tok, rest⟩ := pr
      rw [hs] at ht
      simp only at ht
      have hlt : argc < MAX_ARGS := by omega
      have hl2 : (argv.set argc (some tok)).length = MAX_ARGS := by simp [hl]
      obtain ⟨h1, h2, h3⟩ := ih rest (argc + 1) (argv.set argc (some tok)) (by omega) hl2
      simp only [parseCmdFill, hlt, if_true]
      refine ⟨?_, h2, ?_⟩
      · rw [h1, ht]
        simp only [List.length_cons]
        omega
      · intro i
        rw [h3 i, ht]
        simp only [List.length_cons]
        by_cases hi : i = argc
        · subst hi
          have : ¬ (i + 1 ≤ i ∧ i < i + 1 + min fuel (tokens SEP rest).length) := by omega
          rw [if_neg this]
          have : i ≤ i ∧ i < i + min (fuel + 1) ((tokens SEP rest).length + 1) := by omega
          rw [if_pos this]
          simp [List.getElem?_set, hl, hlt]
        · by_cases hc : argc + 1 ≤ i ∧ i < argc + 1 + min fuel (tokens SEP rest).length
          · have : argc ≤ i ∧ i < argc + min (fuel + 1) ((tokens SEP rest).length + 1) := by omega
            rw [if_pos hc, if_pos this]
            have e : i - argc = (i - (argc + 1)) + 1 := by omega
            rw [e, List.getElem?_cons_succ]
          · have : ¬ (argc ≤ i ∧ i < argc + min (fuel + 1) ((tokens SEP rest).length + 1)) := by
              omega
            rw [if_neg hc, if_neg this]
            rw [List.getElem?_set_ne (Ne.symm hi)]

theorem tokens_nonempty (delim : List Char) (s : Str) : ∀ t ∈ tokens delim s, t ≠ [] := by
  intro t ht
  simp only [tokens, List.mem_filter] at ht
  intro h
  simp [h] at ht

theorem splitOnP_no_delim (p : Char → Bool) (s : Str) :
    ∀ t ∈ s.splitOnP p, ∀ c ∈ t, p c = false := by
  induction s with
  | nil => simp
  | cons a s ih =>
    rw [List.splitOnP_cons]
    by_cases h : p a
    · simp only [h, if_true, List.mem_cons]
      rintro t (rfl | ht) c hc
      · simp at hc
      · exact ih t ht c hc
    · simp only [h, Bool.false_eq_true, if_false]
      cases hs : s.splitOnP p with
      | nil => simp [List.modifyHead]
      | cons x xs =>
        rw [hs] at ih
        simp only [List.modifyHead, List.mem_cons]
        rintro t (rfl | ht) c hc
        · rcases List.mem_cons.mp hc with rfl | hc
          · simpa using h
          · exact ih x (List.mem_cons_self _ _) c hc
        · exact ih t (List.mem_cons_of_mem _ ht) c hc

theorem tokens_no_delim (delim : List Char) (s : Str) :
    ∀ t ∈ tokens delim s, ∀ c ∈ t, c ∉ delim := by
  intro t ht c hc
  simp only [tokens, List.mem_filter] at ht
  have := splitOnP_no_delim (fun c => delim.contains c) s t ht.1 c hc
  simpa using this

/-- C7: for every line, the `while` loop of `parseCmd` stores, in order, exactly
the first `MAX_ARGS` (64) maximal runs of characters other than space, tab and
newline at `argv[0..argc-1]`, `argc` being the smaller of 64 and the number of
runs; no run is empty and none contains a delimiter; and when `parseCmd`
returns, its count and the entries below it are those of the loop. -/
theorem parseCmd_stores_maximal_runs (line : Str) (cmd : Command)
    (hcap : cmd.argv.length = MAX_ARGS) :
    (parseCmdFill MAX_ARGS (strtok SEP line) 0 cmd.argv).1
        = min MAX_ARGS (tokens SEP line).length ∧
    (parseCmdFill MAX_ARGS (strtok SEP line) 0 cmd.argv).2.take
        (parseCmdFill MAX_ARGS (strtok SEP line) 0 cmd.argv).1
        = ((tokens SEP line).take MAX_ARGS).map some ∧
    (∀ t ∈ tokens SEP line, t ≠ [] ∧ ∀ c ∈ t, c ∉ SEP) ∧
    (∀ n c, parseCmd line cmd = some (n, c) →
      n = (tokens SEP line).length ∧ c.argc = n ∧
      c.argv.take n = (tokens SEP line).map some) := by
  obtain ⟨h1, h2, h3⟩ := parseCmdFill_spec MAX_ARGS line 0 cmd.argv (by simp) hcap
  have hA : (parseCmdFill MAX_ARGS (strtok SEP line) 0 cmd.argv).2.take
      (parseCmdFill MAX_ARGS (strtok SEP line) 0 cmd.argv).1
      = ((tokens SEP line).take MAX_ARGS).map some := by
    apply List.ext_getElem?
    intro i
    rw [List.getElem?_take, h1, h3 i]
    simp only [Nat.zero_add, Nat.zero_le, true_and, Nat.sub_zero, List.getElem?_map,
      List.getElem?_take]
    by_cases hi : i < min MAX_ARGS (tokens SEP line).length
    · have h4 : i < MAX_ARGS := by omega
      have h5 : i < (tokens SEP line).length := by omega
      simp [hi, h4, List.getElem?_eq_getElem h5]
    · simp only [hi, if_false]
      by_cases h4 : i < MAX_ARGS
      · have h5 : (tokens SEP line).length ≤ i := by omega
        simp [h4, List.getElem?_eq_none h5]
      · simp [h4]
  refine ⟨by simpa using h1, hA, ?_, ?_⟩
  · intro t ht
    exact ⟨tokens_nonempty SEP line t ht, tokens_no_delim SEP line t ht⟩
  · intro n c hp
    simp only [parseCmd] at hp
    split at hp
    · rename_i hlt
      simp only [Option.some.injEq, Prod.mk.injEq] at hp
      obtain ⟨rfl, rfl⟩ := hp
      have hn : (parseCmdFill MAX_ARGS (strtok SEP line) 0 cmd.argv).1
          = (tokens SEP line).length := by
        rw [h1] at hlt ⊢
        omega
      refine ⟨hn, rfl, ?_⟩
      simp only
      have hset : ∀ (l : List (Option Str)) (k : Nat), (l.set k none).take k = l.take k := by
        intro l k
        apply List.ext_getElem?
        intro i
        simp only [List.getElem?_take]
        split
        · rw [List.getElem?_set_ne (by omega)]
        · rfl
      rw [hset, hA, List.take_of_length_le]
      rw [h1] at hlt
      omega
    · exact absurd hp (by simp)

/-- C7, on a line with runs of delimiters: the hypothesis holds for the fresh
`Command`, and the loop stores the two runs `ls` and `-l`. -/
theorem parseCmd_stores_maximal_runs_witness :
    emptyCommand.argv.length = MAX_ARGS ∧
    (parseCmdFill MAX_ARGS (strtok SEP lineLs) 0 emptyCommand.argv).1
        = min MAX_ARGS (tokens SEP lineLs).length ∧
    tokens SEP lineLs = [['l', 's'], ['-', 'l']] :=
  ⟨by decide, (parseCmd_stores_maximal_runs lineLs emptyCommand (by decide)).1, by decide⟩

/-- The store of the sentinel has no test of its own: on a line of 64 tokens
the loop of `parseCmd` ends with `argc = MAX_ARGS`, and `argv[argc] = NULL` is
at index 64 of an array of 64 entries, outside the `Command`.  Such a line has
at least 127 characters; `main` passes lines of fewer than `LINE_LEN` (80)
characters only. -/
theorem parseCmd_sentinel_outside_array :
    (tokens SEP line64).length = 64 ∧
    (parseCmdFill MAX_ARGS (strtok SEP line64) 0 emptyCommand.argv).1 = MAX_ARGS ∧
    emptyCommand.argv.length = MAX_ARGS ∧
    parseCmd line64 emptyCommand = none ∧
    LINE_LEN < line64.length := by
  decide

/-! ## `parsePath` -/

theorem parsePathLoop_spec (fuel : Nat) :
    ∀ (s : Str) (n : Nat) (dirs : List (Option Str)),
      (tokens DELIM s).length < fuel → n + (tokens DELIM s).length ≤ MAX_PATHS →
      dirs.length = MAX_PATHS →
      ∃ d, parsePathLoop fuel (strtok DELIM s) n dirs = some (n + (tokens DELIM s).length, d) ∧
        d.length = MAX_PATHS ∧
        ∀ i, d[i]? = if n ≤ i ∧ i < n + (tokens DELIM s).length
          then some ((tokens DELIM s)[i - n]?) else dirs[i]? := by
  induction fuel with
  | zero => intro s n dirs h; omega
  | succ fuel ih =>
    intro s n dirs hf hn hl
    have ht := tokens_strtok DELIM s
    cases hs : strtok DELIM s with
    | none =>
      rw [hs] at ht
      simp only at ht
      refine ⟨dirs, by simp [parsePathLoop, ht], hl, ?_⟩
      intro i
      rw [ht, if_neg (by simp)]
    | some pr =>
      obtain ⟨tok, rest⟩ := pr
      rw [hs] at ht
      simp only at ht
      rw [ht] at hf hn
      simp only [List.length_cons] at hf hn
      have hlt : n < MAX_PATHS := by omega
      obtain ⟨d, h1, h2, h3⟩ := ih rest (n + 1) (dirs.set n (some tok)) (by omega) (by omega)
        (by simp [hl])
      refine ⟨d, ?_, h2, ?_⟩
      · simp only [parsePathLoop, hlt, if_true, h1, ht, List.length_cons]
        congr 2
        omega
      · intro i
        rw [h3 i, ht]
        simp only [List.length_cons]
        by_cases hi : i = n
        · subst hi
          rw [if_neg (by omega), if_pos (by omega)]
          simp [List.getElem?_set, hl, hlt]
        · by_cases hc : n + 1 ≤ i ∧ i < n + 1 + (tokens DELIM rest).length
          · rw [if_pos hc, if_pos (by omega)]
            have e : i - n = (i - (n + 1)) + 1 := by omega
            rw [e, List.getElem?_cons_succ]
          · rw [if_neg hc, if_neg (by omega), List.getElem?_set_ne (Ne.symm hi)]

theorem parsePathLoop_overflow (fuel : Nat) :
    ∀ (s : Str) (n : Nat) (dirs : List (Option Str)),
      MAX_PATHS < n + (tokens DELIM s).length → n ≤ MAX_PATHS →
      parsePathLoop fuel (strtok DELIM s) n dirs = none := by
  induction fuel with
  | zero => intro s n dirs _ _; rfl
  | succ fuel ih =>
    intro s n dirs h hn
    have ht := tokens_strtok DELIM s
    cases hs : strtok DELIM s with
    | none =>
      rw [hs] at ht
      simp only at ht
      rw [ht] at h
      simp only [List.length_nil] at h
      omega
    | some pr =>
      obtain ⟨tok, rest⟩ := pr
      rw [hs] at ht
      simp only at ht
      rw [ht] at h
      simp only [List.length_cons] at h
      simp only [parsePathLoop]
      split
      · exact ih rest (n + 1) _ (by omega) (by omega)
      · rfl

theorem cstr_terminated (s : Str) (r : List (Option Char)) :
    cstr (s.map some ++ none :: r) = some s := by
  induction s with
  | nil => rfl
  | cons a s ih => simp [cstr, ih]

theorem strcpy_fits (dst : List (Option Char)) (src : Str) (h : src.length < dst.length) :
    ∃ b, strcpy dst src = some b ∧ cstr b = some src ∧ b.length = dst.length := by
  refine ⟨_, if_pos h, cstr_terminated _ _, ?_⟩
  simp only [List.length_append, List.length_map, List.length_cons, List.length_drop]
  omega

/-- What `parsePath` returns on a set variable: a fault when the terminator
of the copy is stored outside the block of `thePath` or when there are more
than `MAX_PATHS` non-empty segments; the count of the segments and the array
holding them otherwise. -/
theorem parsePath_eq (p : Str) :
    parsePath (some p) =
      if p.length < mallocUsable p.length ∧ (tokens DELIM p).length ≤ MAX_PATHS then
        some ((tokens DELIM p).length,
          (tokens DELIM p).map some ++ List.replicate (MAX_PATHS - (tokens DELIM p).length) none)
      else none := by
  generalize hu : mallocUsable p.length = u
  by_cases hfit : p.length < u
  · obtain ⟨b, hb, hc, _⟩ := strcpy_fits (List.replicate u none) p
      (by simpa using hfit)
    have hpp : parsePath (some p) =
        parsePathLoop (MAX_PATHS + 1) (strtok DELIM p) 0 (List.replicate MAX_PATHS none) := by
      unfold parsePath
      simp only [hu, hb, hc]
    rw [hpp]
    simp only [hfit, true_and]
    split
    · rename_i h
      obtain ⟨d, h1, h2, h3⟩ := parsePathLoop_spec (MAX_PATHS + 1) p 0
        (List.replicate MAX_PATHS none) (by omega) (by omega) (by simp)
      simp only [h1, Nat.zero_add, Option.some.injEq, Prod.mk.injEq, true_and]
      apply List.ext_getElem?
      intro i
      rw [h3 i]
      simp only [Nat.zero_le, true_and, Nat.zero_add, Nat.sub_zero]
      by_cases hi : i < (tokens DELIM p).length
      · rw [if_pos hi, List.getElem?_append_left (by simpa using hi), List.getElem?_map,
          List.getElem?_eq_getElem hi]
        rfl
      · rw [if_neg hi, List.getElem?_append_right (by simpa using hi)]
        simp only [List.length_map]
        by_cases h4 : i < MAX_PATHS
        · rw [List.getElem?_eq_getElem (by simpa using h4),
            List.getElem?_eq_getElem (by simp; omega)]
          simp
        · rw [List.getElem?_eq_none (by simp; omega), List.getElem?_eq_none (by simp; omega)]
    · rename_i h
      exact parsePathLoop_overflow _ p 0 _ (by omega) (by omega)
  · have hpp : parsePath (some p) = none := by
      unfold parsePath
      simp only [hu, strcpy, List.length_replicate, hfit, if_false]
    rw [hpp]
    simp only [hfit, false_and, if_false]

theorem tokens_intercalate (x : Char) (segs : List Str) (hne : segs ≠ [])
    (hseg : ∀ s ∈ segs, s ≠ [] ∧ x ∉ s) :
    tokens [x] ([x].intercalate segs) = segs := by
  have hp : (fun c => [x].contains c) = (fun c => c == x) := by
    funext c
    by_cases hc : c = x <;> simp [hc]
  have h := List.splitOn_intercalate segs x (fun l hl => (hseg l hl).2) hne
  simp only [List.splitOn] at h
  simp only [tokens, hp, h]
  rw [List.filter_eq_self]
  intro s hs
  have := (hseg s hs).1
  cases s with
  | nil => exact absurd rfl this
  | cons a t => rfl

/-- Up to `MAX_PATHS` segments: for every search-path string made of `N`
colon-separated non-empty segments with `1 ≤ N ≤ MAX_PATHS` (8) whose copy
fits the block of `thePath`, `parsePath` returns `N` and `dirs[0..N-1]` are
exactly those segments in their original order (the other entries of `dirs`
are `NULL`). -/
theorem parsePath_segments (segs : List Str) (hne : segs ≠ [])
    (hseg : ∀ s ∈ segs, s ≠ [] ∧ ':' ∉ s) (hcap : segs.length ≤ MAX_PATHS)
    (hfit : ([':'].intercalate segs).length < mallocUsable ([':'].intercalate segs).length) :
    parsePath (some ([':'].intercalate segs)) =
      some (segs.length, segs.map some ++ List.replicate (MAX_PATHS - segs.length) none) := by
  have ht : tokens DELIM ([':'].intercalate segs) = segs := tokens_intercalate ':' segs hne hseg
  rw [parsePath_eq, ht, if_pos ⟨hfit, hcap⟩]

/-- C10, failing input: the search path `a:b:c:d:e:f:g:h:i` is made of nine
colon-separated non-empty segments (its copy fits the block of `thePath`).
The loop of lines 64-68 has no test of `numDirs`: the ninth store is
`dirs[8]`, outside the array of `MAX_PATHS` (8) entries that line 176
declares, and `parsePath` faults instead of returning 9 with the nine
segments in `dirs[0..8]`.  With the first eight of these segments it returns
8 and the segments in order. -/
theorem parsePath_nine_segments :
    path9 = [':'].intercalate [['a'], ['b'], ['c'], ['d'], ['e'], ['f'], ['g'], ['h'], ['i']] ∧
    tokens DELIM path9 = [['a'], ['b'], ['c'], ['d'], ['e'], ['f'], ['g'], ['h'], ['i']] ∧
    path9.length < mallocUsable path9.length ∧
    (List.replicate MAX_PATHS (none : Option Str)).length < (tokens DELIM path9).length ∧
    parsePath (some path9) = none ∧
    parsePath (some (path9.take 15)) =
      some (8, [some ['a'], some ['b'], some ['c'], some ['d'], some ['e'], some ['f'],
        some ['g'], some ['h']]) := by
  decide

/-! ## `lookupPath` -/

theorem strncpy_short (dst : List (Option Char)) (src : Str) (n : Nat)
    (hn : n ≤ dst.length) (hs : src.length < n) :
    ∃ b, strncpy dst src n = some b ∧ cstr b = some src ∧ b.length = dst.length := by
  refine ⟨_, if_pos hn, ?_, ?_⟩
  · obtain ⟨k, hk⟩ : ∃ k, n - src.length = k + 1 := ⟨n - src.length - 1, by omega⟩
    rw [List.take_of_length_le (by omega), hk, List.replicate_succ, List.append_assoc,
      List.cons_append]
    exact cstr_terminated _ _
  · simp only [List.length_append, List.length_map, List.length_take, List.length_replicate,
      List.length_drop]
    omega

theorem strncat_fits (dst : List (Option Char)) (d src : Str) (n : Nat)
    (hd : cstr dst = some d) (hs : src.length ≤ n) (hfit : d.length + src.length < dst.length) :
    ∃ b, strncat dst src n = some b ∧ cstr b = some (d ++ src) ∧ b.length = dst.length := by
  have ht : src.take n = src := List.take_of_length_le hs
  simp only [strncat, hd, ht, hfit, if_true]
  refine ⟨_, rfl, ?_, ?_⟩
  · rw [← List.map_append]
    exact cstr_terminated _ _
  · simp only [List.length_append, List.length_map, List.length_cons, List.length_drop]
    omega

theorem sizeT_wrap32_small (x : Int) (h0 : 0 ≤ x) (h1 : x < 100) :
    sizeT (wrap32 x) = x.toNat := by
  have e : wrap32 x = x := by
    unfold wrap32
    norm_num
    omega
  rw [e]
  unfold sizeT
  norm_num
  omega

theorem lookupLoop_spec (access : Str → Bool) (name : Str) (ds : List Str) :
    ∀ (pre pad : List (Option Str)) (buf : List (Option Char)),
      buf.length = MAX_PATH_LEN →
      (∀ d ∈ ds, (candidate name d).length ≤ MAX_PATH_LEN - 1) →
      lookupLoop access name (pre ++ ds.map some ++ pad) ds.length pre.length buf =
        some ((ds.map (candidate name)).find? access) := by
  induction ds with
  | nil => intro pre pad buf _ _; rfl
  | cons d ds ih =>
    intro pre pad buf hb hlen
    have hd : (candidate name d).length ≤ MAX_PATH_LEN - 1 := hlen d (List.mem_cons_self _ _)
    simp only [candidate, List.length_append, List.length_cons, MAX_PATH_LEN] at hd
    have hget : (pre ++ (d :: ds).map some ++ pad)[pre.length]? = some (some d) := by
      rw [List.append_assoc, List.getElem?_append_right (Nat.le_refl _)]
      simp
    have hs0 : sizeT ((MAX_PATH_LEN : Int) - 1) = 95 := by
      simp [sizeT, MAX_PATH_LEN]
    have hs1 : sizeT (wrap32 ((MAX_PATH_LEN : Int) - 1 - d.length)) = 95 - d.length := by
      rw [sizeT_wrap32_small _ (by simp [MAX_PATH_LEN]; omega) (by simp [MAX_PATH_LEN]; omega)]
      simp [MAX_PATH_LEN]
    have hw1 : wrap32 ((MAX_PATH_LEN : Int) - 1 - d.length) = 95 - (d.length : Int) := by
      unfold wrap32
      simp [MAX_PATH_LEN]
      omega
    have hs2 : sizeT (wrap32 (wrap32 ((MAX_PATH_LEN : Int) - 1 - d.length) - 1))
        = 94 - d.length := by
      rw [hw1, sizeT_wrap32_small _ (by omega) (by omega)]
      omega
    obtain ⟨b1, e1, c1, l1⟩ := strncpy_short buf d 95 (by rw [hb]; decide) (by omega)
    obtain ⟨b2, e2, c2, l2⟩ := strncat_fits b1 d ['/'] (95 - d.length) c1
      (by simp; omega) (by rw [l1, hb]; simp [MAX_PATH_LEN]; omega)
    obtain ⟨b3, e3, c3, l3⟩ := strncat_fits b2 (d ++ ['/']) name (94 - d.length) c2
      (by omega) (by rw [l2, l1, hb]; simp [MAX_PATH_LEN]; omega)
    have hcand : d ++ ['/'] ++ name = candidate name d := by simp [candidate]
    rw [List.length_cons, lookupLoop, hget]
    simp only [hs0, e1, hs1, e2, hs2, e3, c3, hcand, List.map_cons, List.find?_cons]
    cases ha : access (candidate name d) with
    | true => simp
    | false =>
      simp only [Bool.false_eq_true, if_false]
      have := ih (pre ++ [some d]) pad b3 (by rw [l3, l2, l1, hb])
        (fun x hx => hlen x (List.mem_cons_of_mem _ hx))
      rw [← this]
      simp [List.append_assoc]

/-- The copy of line 104 has no test either: a name of 96 bytes beginning
with `/` that exists is not found, since `lookupPath` copies only its first 95
bytes, probes that shorter name, and returns `NULL`; here even from a zeroed
block.  Such a name is longer than any line `main` reads (`LINE_LEN`, 80). -/
theorem lookupPath_long_name :
    longName.head? = some '/' ∧
    (fun p => decide (p = longName)) longName = true ∧
    lookupPath (fun p => decide (p = longName)) zeroBlock (some longName) [] 0 = some none ∧
    LINE_LEN < longName.length := by
  decide

/-! ## The loops of the `kill` built-in -/

theorem denseIds_iff (jobs : List Job) :
    DenseIds jobs ↔ ∀ (i : Nat) (x : Job), jobs[i]? = some x → x.job_id = (i : Int) + 1 := by
  unfold DenseIds
  constructor
  · intro h i x hx
    have hi : i < jobs.length := by
      rcases Nat.lt_or_ge i jobs.length with h1 | h1
      · exact h1
      · rw [List.getElem?_eq_none h1] at hx
        exact absurd hx (by simp)
    have := congrArg (fun l => l[i]?) h
    simp only [List.getElem?_map, hx, Option.map_some', List.getElem?_range hi] at this
    exact Option.some.inj this
  · intro h
    apply List.ext_getElem?
    intro i
    simp only [List.getElem?_map]
    rcases Nat.lt_or_ge i jobs.length with h1 | h1
    · rw [List.getElem?_range h1, List.getElem?_eq_getElem h1]
      simp only [Option.map_some', Option.some.injEq]
      exact h i _ (List.getElem?_eq_getElem h1)
    · rw [List.getElem?_eq_none h1, List.getElem?_eq_none (by simpa using h1)]
      rfl

theorem stored_getElem? (s : Shell) (i : Nat) :
    (stored s)[i]? = if i < s.numJobs then s.jobList[i]? else none := by
  simp only [stored, List.getElem?_take]

theorem stored_length (s : Shell) (h : s.numJobs ≤ s.jobList.length) :
    (stored s).length = s.numJobs := by
  simp [stored, h]

theorem listed_length (l : List Slot) : (listed l).length = l.length := by
  induction l with
  | nil => rfl
  | cons x l ih => simp [listed, ih]

theorem listed_job_id (l : List Slot) : (listed l).map Job.job_id = l.map Slot.job_id := by
  induction l with
  | nil => rfl
  | cons x l ih => simp [listed, ih]

theorem listed_pid (l : List Slot) : (listed l).map Job.pid = l.map Slot.pid := by
  induction l with
  | nil => rfl
  | cons x l ih => simp [listed, ih]

/-- The listing shows the entry at index `i` with its two numbers and the
string that starts at its field `name`. -/
theorem listed_getElem? (l : List Slot) :
    ∀ i, (listed l)[i]? = (l[i]?).map (fun x =>
      ({ job_id := x.job_id, pid := x.pid, name := strOf (fromName (l.drop i)) } : Job)) := by
  induction l with
  | nil => intro i; simp [listed]
  | cons x l ih =>
    intro i
    cases i with
    | zero => simp [listed]
    | succ i => simp [listed, ih i]

theorem tracked_length (s : Shell) (h : s.numJobs ≤ s.jobList.length) :
    (tracked s).length = s.numJobs := by
  simp [tracked, listed_length, h]

/-- The job ids the listing shows are the stored ones. -/
theorem tracked_job_id (s : Shell) : (tracked s).map Job.job_id = (stored s).map Slot.job_id := by
  simp only [tracked, stored, List.map_take, listed_job_id]

/-- The pids the listing shows are the stored ones. -/
theorem tracked_pid (s : Shell) : (tracked s).map Job.pid = (stored s).map Slot.pid := by
  simp only [tracked, stored, List.map_take, listed_pid]

theorem denseSlots_iff (l : List Slot) :
    DenseSlots l ↔ l.map Slot.job_id = (List.range l.length).map (fun (i : Nat) => (i : Int) + 1) := by
  unfold DenseSlots
  constructor
  · intro h
    apply List.ext_getElem?
    intro i
    simp only [List.getElem?_map]
    rcases Nat.lt_or_ge i l.length with h1 | h1
    · rw [List.getElem?_range h1, List.getElem?_eq_getElem h1]
      simp only [Option.map_some', Option.some.injEq]
      exact h i _ (List.getElem?_eq_getElem h1)
    · rw [List.getElem?_eq_none h1, List.getElem?_eq_none (by simpa using h1)]
      rfl
  · intro h i x hx
    have hi : i < l.length := by
      rcases Nat.lt_or_ge i l.length with h1 | h1
      · exact h1
      · rw [List.getElem?_eq_none h1] at hx
        exact absurd hx (by simp)
    have := congrArg (fun l => l[i]?) h
    simp only [List.getElem?_map, hx, Option.map_some', List.getElem?_range hi] at this
    exact Option.some.inj this

/-- The ids the listing shows are 1..n exactly when the stored ones are. -/
theorem denseIds_tracked (s : Shell) : DenseIds (tracked s) ↔ DenseSlots (stored s) := by
  rw [denseSlots_iff]
  unfold DenseIds
  rw [tracked_job_id]
  have hl : (tracked s).length = (stored s).length := by
    simp only [tracked, stored, List.length_take, listed_length]
  rw [hl]

/-- A job id the listing shows is a stored one, and conversely. -/
theorem tracked_id_mem (s : Shell) (v : Int) :
    (∃ j ∈ tracked s, j.job_id = v) ↔ ∃ x ∈ stored s, x.job_id = v := by
  have h := tracked_job_id s
  constructor
  · rintro ⟨j, hj, rfl⟩
    have : j.job_id ∈ (tracked s).map Job.job_id := List.mem_map_of_mem _ hj
    rw [h] at this
    obtain ⟨x, hx, hxe⟩ := List.mem_map.mp this
    exact ⟨x, hx, hxe⟩
  · rintro ⟨x, hx, rfl⟩
    have : x.job_id ∈ (stored s).map Slot.job_id := List.mem_map_of_mem _ hx
    rw [← h] at this
    obtain ⟨j, hj, hje⟩ := List.mem_map.mp this
    exact ⟨j, hj, hje⟩

theorem killScan_no_match (checker : Int) (l : List Slot) (cnt : Nat) :
    ∀ (i : Nat) (num : Int) (ev : List Event),
      (∀ j, i ≤ j → j < i + cnt → ∃ x, l[j]? = some x ∧ x.job_id ≠ checker) →
      killScan checker l cnt i num ev = some (num, ev) := by
  induction cnt with
  | zero => intro i num ev _; rfl
  | succ cnt ih =>
    intro i num ev h
    obtain ⟨x, hx, hne⟩ := h i (Nat.le_refl _) (by omega)
    rw [killScan, hx]
    simp only [if_neg (Ne.symm hne)]
    exact ih (i + 1) num ev (fun j h1 h2 => h j (by omega) (by omega))

theorem killScan_dense (l : List Slot) (k : Nat) (x : Slot) (hx : l[k]? = some x) (cnt : Nat) :
    ∀ (i : Nat) (num : Int) (ev : List Event),
      i ≤ k → k < i + cnt →
      (∀ j y, i ≤ j → j < i + cnt → l[j]? = some y → y.job_id = (j : Int) + 1) →
      (∀ j, i ≤ j → j < i + cnt → j < l.length) →
      killScan ((k : Int) + 1) l cnt i num ev = some ((k : Int) + 1, ev ++ [Event.signal x.pid]) := by
  induction cnt with
  | zero => intro i num ev h1 h2; omega
  | succ cnt ih =>
    intro i num ev h1 h2 hd hb
    have hil : i < l.length := hb i (Nat.le_refl _) (by omega)
    have hy : l[i]? = some l[i] := List.getElem?_eq_getElem hil
    have hid := hd i _ (Nat.le_refl _) (by omega) hy
    rw [killScan, hy]
    simp only
    by_cases hik : i = k
    · subst hik
      rw [hy] at hx
      have hxy : l[i] = x := Option.some.inj hx
      rw [if_pos hid.symm, hid, hxy]
      apply killScan_no_match
      intro j hj1 hj2
      have hjl : j < l.length := hb j (by omega) (by omega)
      refine ⟨l[j], List.getElem?_eq_getElem hjl, ?_⟩
      rw [hd j _ (by omega) (by omega) (List.getElem?_eq_getElem hjl)]
      omega
    · have hne : ¬ ((k : Int) + 1 = l[i].job_id) := by
        rw [hid]
        omega
      rw [if_neg hne]
      exact ih (i + 1) num ev (by omega) (by omega)
        (fun j y a b c => hd j y (by omega) (by omega) c)
        (fun j a b => hb j (by omega) (by omega))

theorem shiftLoop_spec (cnt : Nat) :
    ∀ (j : Nat) (l : List Slot), j + cnt < l.length →
      ∃ r, shiftLoop cnt j l = some r ∧ r.length = l.length ∧
        ∀ i, r[i]? = if j ≤ i ∧ i < j + cnt then l[i + 1]? else l[i]? := by
  induction cnt with
  | zero =>
    intro j l _
    refine ⟨l, rfl, rfl, fun i => ?_⟩
    rw [if_neg (by omega)]
  | succ cnt ih =>
    intro j l h
    have hx : l[j + 1]? = some l[j + 1] := List.getElem?_eq_getElem (by omega)
    obtain ⟨r, h1, h2, h3⟩ := ih (j + 1) (l.set j l[j + 1]) (by simp; omega)
    refine ⟨r, ?_, by simpa using h2, ?_⟩
    · rw [shiftLoop, hx]
      exact h1
    · intro i
      rw [h3 i]
      by_cases hc : j + 1 ≤ i ∧ i < j + 1 + cnt
      · rw [if_pos hc, if_pos (by omega), List.getElem?_set_ne (by omega)]
      · rw [if_neg hc]
        by_cases hij : i = j
        · subst hij
          rw [if_pos (by omega), List.getElem?_set_self (by omega), hx]
        · rw [if_neg (by omega), List.getElem?_set_ne (Ne.symm hij)]

theorem renumLoop_spec (cnt : Nat) :
    ∀ (j : Nat) (l : List Slot), j + cnt ≤ l.length →
      ∃ r, renumLoop cnt j l = some r ∧ r.length = l.length ∧
        ∀ i, r[i]? = if j ≤ i ∧ i < j + cnt then (l[i]?).map renumber else l[i]? := by
  induction cnt with
  | zero =>
    intro j l _
    refine ⟨l, rfl, rfl, fun i => ?_⟩
    rw [if_neg (by omega)]
  | succ cnt ih =>
    intro j l h
    have hx : l[j]? = some l[j] := List.getElem?_eq_getElem (by omega)
    obtain ⟨r, h1, h2, h3⟩ := ih (j + 1) (l.set j (renumber l[j])) (by simp; omega)
    refine ⟨r, ?_, by simpa using h2, ?_⟩
    · rw [renumLoop, hx]
      exact h1
    · intro i
      rw [h3 i]
      by_cases hc : j + 1 ≤ i ∧ i < j + 1 + cnt
      · rw [if_pos hc, if_pos (by omega), List.getElem?_set_ne (by omega)]
      · rw [if_neg hc]
        by_cases hij : i = j
        · subst hij
          rw [if_pos (by omega), List.getElem?_set_self (by omega), hx]
          rfl
        · rw [if_neg (by omega), List.getElem?_set_ne (Ne.symm hij)]

/-! ## From the line to the dispatch -/

theorem parseCmd_eq (line : Str) (cmd : Command) (hcap : cmd.argv.length = MAX_ARGS)
    (hshort : (tokens SEP line).length < MAX_ARGS) :
    parseCmd line cmd =
      some ((tokens SEP line).length,
        parsedCommand (tokens SEP line) (cmd.argv.drop ((tokens SEP line).length + 1))) := by
  obtain ⟨h1, h2, h3⟩ := parseCmdFill_spec MAX_ARGS line 0 cmd.argv (by simp) hcap
  have hn : (parseCmdFill MAX_ARGS (strtok SEP line) 0 cmd.argv).1 = (tokens SEP line).length := by
    rw [h1]
    omega
  simp only [parseCmd, hn, hshort, if_true, parsedCommand, Option.some.injEq, Prod.mk.injEq,
    true_and, Command.mk.injEq]
  apply List.ext_getElem?
  intro i
  rw [List.getElem?_set, h3 i]
  simp only [Nat.zero_le, true_and, Nat.zero_add, Nat.sub_zero, h2, hshort, if_true]
  rcases Nat.lt_trichotomy i (tokens SEP line).length with hi | hi | hi
  · rw [if_neg (by omega), if_pos (by omega), List.getElem?_append_left (by simpa using hi),
      List.getElem?_map]
    rw [List.getElem?_eq_getElem hi]
    rfl
  · subst hi
    rw [if_pos rfl, List.getElem?_append_right (by simp)]
    simp
  · rw [if_neg (by omega), if_neg (by omega), List.getElem?_append_right (by simp; omega)]
    obtain ⟨m, hm⟩ : ∃ m, i - (tokens SEP line).length = m + 1 :=
      ⟨i - (tokens SEP line).length - 1, by omega⟩
    simp only [List.length_map, hm, List.getElem?_cons_succ, List.getElem?_drop]
    congr 1
    omega

theorem parsedCommand_arg (toks : List Str) (rest : List (Option Str)) (i : Nat)
    (hi : i ≤ toks.length) : (parsedCommand toks rest).arg i = toks[i]? := by
  simp only [Command.arg, parsedCommand, List.getD_eq_getElem?_getD]
  rcases Nat.lt_or_ge i toks.length with h | h
  · rw [List.getElem?_append_left (by simpa using h), List.getElem?_map,
      List.getElem?_eq_getElem h]
    rfl
  · have : i = toks.length := by omega
    subst this
    rw [List.getElem?_append_right (by simp), List.getElem?_eq_none (Nat.le_refl _)]
    simp

theorem argvList_terminated (toks : List Str) (rest : List (Option Str)) :
    Command.argvList { argc := toks.length, argv := toks.map some ++ none :: rest } = toks := by
  simp only [Command.argvList]
  induction toks with
  | nil => simp [List.takeWhile]
  | cons a t ih => simp [List.takeWhile]

theorem stripLast_parsedCommand (toks : List Str) (rest : List (Option Str))
    (hne : toks ≠ []) :
    stripLast (parsedCommand toks rest) toks.length =
      parsedCommand toks.dropLast (none :: rest) := by
  simp only [stripLast, parsedCommand, List.length_dropLast, Command.mk.injEq, true_and]
  have hlen : 0 < toks.length := List.length_pos.mpr hne
  apply List.ext_getElem?
  intro i
  rw [List.getElem?_set]
  simp only [List.length_append, List.length_map, List.length_cons]
  rcases Nat.lt_trichotomy i (toks.length - 1) with hi | hi | hi
  · rw [if_neg (by omega), List.getElem?_append_left (by simp; omega),
      List.getElem?_append_left (by simp; omega), List.getElem?_map, List.getElem?_map,
      List.getElem?_dropLast, if_pos hi]
  · subst hi
    rw [if_pos rfl, if_pos (by omega), List.getElem?_append_right (by simp)]
    simp
  · rw [if_neg (by omega)]
    rcases Nat.lt_or_ge i toks.length with h | h
    · omega
    · rw [List.getElem?_append_right (by simpa using h),
        List.getElem?_append_right (by simp; omega)]
      simp only [List.length_map, List.length_dropLast]
      obtain ⟨m, hm⟩ : ∃ m, i - (toks.length - 1) = m + 1 := ⟨i - toks.length, by omega⟩
      have hm2 : i - toks.length = m := by omega
      rw [hm, hm2, List.getElem?_cons_succ]

theorem tokens_blank :
    tokens SEP [chNewline] = [] ∧ tokens SEP [chSpace, chNewline] = [] ∧
    tokens SEP [chTab, chNewline] = [] := by
  decide

theorem step_dispatch (w : World) (s : Shell) (np : Nat) (dirs : List (Option Str))
    (line : Str) (hpath : parsePath w.pathEnv = some (np, dirs)) (hin : w.input = some line)
    (hne : tokens SEP line ≠ []) (hshort : (tokens SEP line).length < MAX_ARGS)
    (hcap : s.command.argv.length = MAX_ARGS) :
    step w s =
      dispatch w
        { s with
          command :=
            parsedCommand (tokens SEP line) (s.command.argv.drop ((tokens SEP line).length + 1)) }
        (tokens SEP line).length np dirs := by
  have h1 : line ≠ [chNewline] := fun h => hne (by rw [h]; exact tokens_blank.1)
  have h2 : line ≠ [chSpace, chNewline] := fun h => hne (by rw [h]; exact tokens_blank.2.1)
  have h3 : line ≠ [chTab, chNewline] := fun h => hne (by rw [h]; exact tokens_blank.2.2)
  simp only [step, hpath, hin, h1, h2, h3, if_false, parseCmd_eq line s.command hcap hshort]

/-! ## The `kill` built-in -/

theorem dense_getElem? (s : Shell) (hd : DenseSlots (stored s)) (j : Nat) (y : Slot)
    (hj : j < s.numJobs) (hy : s.jobList[j]? = some y) : y.job_id = (j : Int) + 1 := by
  apply hd j y
  rw [stored_getElem?, if_pos hj, hy]

theorem killBuiltin_dense (s : Shell) (hlen : s.numJobs ≤ s.jobList.length)
    (hd : DenseSlots (stored s)) (k : Nat) (x : Slot) (hk : k < s.numJobs)
    (hx : s.jobList[k]? = some x) :
    ∃ l2, killBuiltin ((k : Int) + 1) s =
        Outcome.next { s with jobList := l2, numJobs := s.numJobs - 1 } [Event.signal x.pid] ∧
      l2.length = s.jobList.length ∧
      ∀ i, l2[i]? = if k ≤ i ∧ i < s.numJobs - 1 then (s.jobList[i + 1]?).map renumber
        else s.jobList[i]? := by
  have hscan := killScan_dense s.jobList k x hx s.numJobs 0 (-1) [] (Nat.zero_le _) (by omega)
    (fun j y _ h2 h3 => dense_getElem? s hd j y (by omega) h3)
    (fun j _ h2 => by omega)
  have hcount : ((s.numJobs : Int) - ((k : Int) + 1)).toNat = s.numJobs - 1 - k := by omega
  have hstart : ((k : Int) + 1 - 1).toNat = k := by omega
  obtain ⟨l1, e1, n1, p1⟩ := shiftLoop_spec (s.numJobs - 1 - k) k s.jobList (by omega)
  obtain ⟨l2, e2, n2, p2⟩ := renumLoop_spec (s.numJobs - 1 - k) k l1 (by omega)
  refine ⟨l2, ?_, by rw [n2, n1], ?_⟩
  · have hne : ¬ ((k : Int) + 1 = -1) := by omega
    have hneg : ¬ (s.numJobs - 1 - k ≠ 0 ∧ (k : Int) + 1 - 1 < 0) := by omega
    simp only [killBuiltin, hscan, List.nil_append, hne, if_false, hcount, hstart, hneg, e1, e2]
  · intro i
    rw [p2 i, p1 i]
    have e : k + (s.numJobs - 1 - k) = s.numJobs - 1 := by omega
    rw [e]
    by_cases hc : k ≤ i ∧ i < s.numJobs - 1
    · simp only [hc, and_self, if_true]
    · simp only [hc, if_false]

theorem killBuiltin_not_found (s : Shell) (hlen : s.numJobs ≤ s.jobList.length) (v : Int)
    (hv : ∀ j ∈ stored s, j.job_id ≠ v) :
    killBuiltin v s = Outcome.next s [Event.advisory] := by
  have hscan := killScan_no_match v s.jobList s.numJobs 0 (-1) [] (by
    intro j _ hj
    have hjl : j < s.jobList.length := by omega
    refine ⟨s.jobList[j], List.getElem?_eq_getElem hjl, ?_⟩
    apply hv
    have ht : (stored s)[j]? = some s.jobList[j] := by
      rw [stored_getElem?, if_pos (by omega), List.getElem?_eq_getElem hjl]
    exact List.getElem?_mem ht)
  simp only [killBuiltin, hscan, if_true, List.nil_append]

theorem stored_after_kill (s : Shell) (l2 : List Slot) (k : Nat)
    (hlen : s.numJobs ≤ s.jobList.length) (hk : k < s.numJobs)
    (h : ∀ i, l2[i]? = if k ≤ i ∧ i < s.numJobs - 1 then (s.jobList[i + 1]?).map renumber
        else s.jobList[i]?) :
    stored { s with jobList := l2, numJobs := s.numJobs - 1 } =
      (stored s).take k ++ ((stored s).drop (k + 1)).map renumber := by
  apply List.ext_getElem?
  intro i
  have hA : ((stored s).take k).length = k := by
    rw [List.length_take, stored_length s hlen]
    omega
  rw [stored_getElem?]
  simp only
  rw [h i]
  rcases Nat.lt_or_ge i k with hi | hi
  · have hlt : i < ((stored s).take k).length := by omega
    rw [List.getElem?_append_left hlt, List.getElem?_take, if_pos hi, stored_getElem?]
    have h1 : i < s.numJobs - 1 := by omega
    have h2 : i < s.numJobs := by omega
    have h3 : ¬ (k ≤ i ∧ i < s.numJobs - 1) := by omega
    rw [if_pos h1, if_neg h3, if_pos h2]
  · have hge : ((stored s).take k).length ≤ i := by omega
    rw [List.getElem?_append_right hge, hA, List.getElem?_map, List.getElem?_drop,
      stored_getElem?]
    have e : k + 1 + (i - k) = i + 1 := by omega
    rw [e]
    by_cases hi2 : i < s.numJobs - 1
    · have h2 : i + 1 < s.numJobs := by omega
      rw [if_pos hi2, if_pos ⟨hi, hi2⟩, if_pos h2]
    · have h2 : ¬ (i + 1 < s.numJobs) := by omega
      rw [if_neg hi2, if_neg h2]
      rfl

theorem dispatch_kill (w : World) (s : Shell) (argCount np : Nat) (dirs : List (Option Str))
    (c t : Str) (hc : c = skill ∨ c = sKill) (h0 : s.command.arg 0 = some c)
    (h1 : s.command.arg 1 = some t) :
    dispatch w s argCount np dirs =
      match atoi t with
      | none => Outcome.fault
      | some checker => killBuiltin checker s := by
  have hnot : ¬ (c = sExit ∨ c = sexit) ∧ ¬ (c = sjobs ∨ c = sJobs) := by
    rcases hc with rfl | rfl <;> decide
  simp only [dispatch, h0, h1, hnot.1, hnot.2, if_false, hc, ne_eq, not_false_eq_true,
    and_self, if_true, Option.bind_some]
  rfl

theorem kills_unfold (w : World) (v : Int) (h : Kills w v) :
    ∃ np dirs line c t rest, parsePath w.pathEnv = some (np, dirs) ∧ w.input = some line ∧
      tokens SEP line = c :: t :: rest ∧ (c = skill ∨ c = sKill) ∧
      (tokens SEP line).length < MAX_ARGS ∧ atoi t = some v := by
  obtain ⟨hp, hs, ha⟩ := h
  cases hpp : parsePath w.pathEnv with
  | none => rw [hpp] at hp; exact absurd hp (by simp)
  | some pr =>
    obtain ⟨np, dirs⟩ := pr
    cases hin : w.input with
    | none =>
      simp [World.killArg, World.toks, hin] at ha
    | some line =>
      have ht : w.toks = tokens SEP line := by simp [World.toks, hin]
      rw [ht] at hs
      simp only [World.killArg, ht] at ha
      cases hl : tokens SEP line with
      | nil => rw [hl] at ha; simp at ha
      | cons c r =>
        cases r with
        | nil => rw [hl] at ha; simp at ha
        | cons t rest =>
          rw [hl] at ha
          simp only at ha
          by_cases hc : c = skill ∨ c = sKill
          · rw [if_pos hc] at ha
            exact ⟨np, dirs, line, c, t, rest, rfl, rfl, hl, hc, hs, by simpa using ha⟩
          · rw [if_neg hc] at ha
            simp at ha

theorem step_kill (w : World) (s : Shell) (v : Int) (hk : Kills w v)
    (hcap : s.command.argv.length = MAX_ARGS) :
    ∃ c, step w s = killBuiltin v { s with command := c } := by
  obtain ⟨np, dirs, line, c, t, rest, hp, hin, htok, hc, hshort, hat⟩ := kills_unfold w v hk
  rw [step_dispatch w s np dirs line hp hin (by rw [htok]; simp) hshort hcap]
  refine ⟨parsedCommand (tokens SEP line) (s.command.argv.drop ((tokens SEP line).length + 1)), ?_⟩
  rw [dispatch_kill w _ _ np dirs c t hc
    (by rw [parsedCommand_arg _ _ 0 (Nat.zero_le _), htok]; simp)
    (by rw [parsedCommand_arg _ _ 1 (by rw [htok]; simp), htok]; simp), hat]

/-- The iteration for `kill k` on a table with the ids 1..n, 1 ≤ k ≤ n, on
the stored entries: the pid of entry k is signalled and nothing else; the
entries before it stay, the entries after it move down one position, each a
copy of the whole entry but for its job id, which is one less. -/
theorem kill_step (w : World) (s : Shell) (k : Nat)
    (hwf : WellFormed s) (hd : DenseSlots (stored s)) (hk : 1 ≤ k ∧ k ≤ s.numJobs)
    (hcmd : Kills w (k : Int)) :
    ∃ s1 x, (stored s)[k - 1]? = some x ∧ x.job_id = (k : Int) ∧
      step w s = Outcome.next s1 [Event.signal x.pid] ∧
      s1.numJobs = s.numJobs - 1 ∧ s1.jobList.length = s.jobList.length ∧
      stored s1 = (stored s).take (k - 1) ++ ((stored s).drop k).map renumber ∧
      (∀ i, s.numJobs - 1 ≤ i → s1.jobList[i]? = s.jobList[i]?) ∧
      ∀ j : Slot, (renumber j).pid = j.pid ∧ (renumber j).name = j.name ∧
        (renumber j).job_id = j.job_id - 1 := by
  obtain ⟨hjl, hnj, hcap⟩ := hwf
  obtain ⟨c, hstep⟩ := step_kill w s (k : Int) hcmd hcap
  have hlen : s.numJobs ≤ s.jobList.length := by rw [hjl]; exact hnj
  have hkl : k - 1 < s.jobList.length := by omega
  have hx : s.jobList[k - 1]? = some s.jobList[k - 1] := List.getElem?_eq_getElem hkl
  have hcast : ((k - 1 : Nat) : Int) + 1 = (k : Int) := by omega
  obtain ⟨l2, h1, h2, h3⟩ := killBuiltin_dense { s with command := c } hlen hd (k - 1)
    s.jobList[k - 1] (by show k - 1 < s.numJobs; omega) hx
  rw [hcast] at h1
  refine ⟨_, s.jobList[k - 1], ?_, ?_, hstep.trans h1, rfl, h2, ?_, ?_, fun j => ⟨rfl, rfl, rfl⟩⟩
  · rw [stored_getElem?, if_pos (by omega), hx]
  · rw [dense_getElem? s hd (k - 1) _ (by omega) hx, hcast]
  · have := stored_after_kill { s with command := c } l2 (k - 1) hlen
      (by show k - 1 < s.numJobs; omega) h3
    have e : k - 1 + 1 = k := by omega
    rw [e] at this
    exact this
  · intro i hi
    show l2[i]? = s.jobList[i]?
    rw [h3 i, if_neg]
    show ¬ (k - 1 ≤ i ∧ i < s.numJobs - 1)
    omega

/-- C1, failing input: `sleep 100 &`, then the line of 75 characters
`sleep aaa...a &`, then `kill 1`.  The second launch writes 73 characters and
a terminator from the start of the 64-byte field `name` of the second entry,
so the name runs on into the third entry and is listed with all 73
characters.  `kill 1` copies the second entry over the first (line 285): the
64 bytes of the field, which hold no terminator; the listing of the moved job
then runs on into the entry behind it, which still holds the job id 2 in its
first bytes, and shows 65 characters.  The job formerly with id 2 keeps its
pid and gets id 1, but not its name. -/
theorem kill_changes_long_name :
    lineLong.length < LINE_LEN ∧
    runNext [world lineSleep 11, world lineLong 12] shell0 = some shellLong ∧
    WellFormed shellLong ∧ DenseIds (tracked shellLong) ∧ shellLong.numJobs = 2 ∧
    Kills (world lineKill1 0) 1 ∧
    tracked shellLong =
      [{ job_id := 1, pid := 11, name := nameSleep }, { job_id := 2, pid := 12, name := nameLong }] ∧
    afterStep (world lineKill1 0) shellLong =
      some ([Event.signal 11],
        [{ job_id := 1, pid := 12, name := nameLong.take MAX_ARGS ++ [Char.ofNat 2] }]) ∧
    nameLong.length = 73 ∧ (nameLong.take MAX_ARGS ++ [Char.ofNat 2]).length = 65 := by
  decide

/-- C5: for every job table and every `kill`/`Kill` command whose second
token has an `atoi` value equal to no tracked job id (in an iteration in which
`parsePath` returns, see `Kills`), the iteration prints the advisory and
nothing else happens: no signal is sent, and `jobList` and `numJobs` (so size,
ids, pids and names) are unchanged. -/
theorem kill_unknown_id (w : World) (s : Shell) (v : Int) (hwf : WellFormed s)
    (hcmd : Kills w v) (hv : ∀ j ∈ tracked s, j.job_id ≠ v) :
    ∃ s1, step w s = Outcome.next s1 [Event.advisory] ∧
      s1.jobList = s.jobList ∧ s1.numJobs = s.numJobs ∧ tracked s1 = tracked s := by
  obtain ⟨hjl, hnj, hcap⟩ := hwf
  obtain ⟨c, hstep⟩ := step_kill w s v hcmd hcap
  refine ⟨{ s with command := c }, ?_, rfl, rfl, rfl⟩
  rw [hstep]
  have hv2 : ∀ x ∈ stored s, x.job_id ≠ v := by
    intro x hx hxv
    obtain ⟨j, hj, hjv⟩ := (tracked_id_mem s v).mpr ⟨x, hx, hxv⟩
    exact hv j hj hjv
  exact killBuiltin_not_found { s with command := c } (by show s.numJobs ≤ s.jobList.length; omega)
    v hv2

/-- C5 on scenario E of the specification (`kill 99` on the table of three
jobs), and on a token without digits (`Kill abc`, value 0). -/
theorem kill_unknown_id_witness :
    (WellFormed shell3 ∧ Kills (world lineKill99 0) 99 ∧
      (∀ j ∈ tracked shell3, j.job_id ≠ 99) ∧
      ∃ s1, step (world lineKill99 0) shell3 = Outcome.next s1 [Event.advisory] ∧
        s1.jobList = shell3.jobList ∧ s1.numJobs = shell3.numJobs ∧
        tracked s1 = tracked shell3) ∧
    (Kills (world lineKillAbc 0) 0 ∧
      ∃ s1, step (world lineKillAbc 0) shell3 = Outcome.next s1 [Event.advisory] ∧
        s1.jobList = shell3.jobList ∧ s1.numJobs = shell3.numJobs ∧
        tracked s1 = tracked shell3) :=
  ⟨⟨by decide, by decide, by decide,
    kill_unknown_id (world lineKill99 0) shell3 99 (by decide) (by decide) (by decide)⟩,
   ⟨by decide,
    kill_unknown_id (world lineKillAbc 0) shell3 0 (by decide) (by decide) (by decide)⟩⟩

/-! ## External dispatch -/

theorem dispatch_external (w : World) (s : Shell) (argCount np : Nat)
    (dirs : List (Option Str)) (toks : List Str) (rest : List (Option Str))
    (hc : s.command = parsedCommand toks rest) (hext : External toks) :
    dispatch w s argCount np dirs = external w s argCount np dirs := by
  cases toks with
  | nil => exact absurd hext (by simp [External])
  | cons a0 r =>
    obtain ⟨h1, h2, h3, h4, h5, h6, h7⟩ := hext
    have ha0 : s.command.arg 0 = some a0 := by
      rw [hc, parsedCommand_arg _ _ 0 (Nat.zero_le _)]
      simp
    have ha1 : s.command.arg 1 = r[0]? := by
      rw [hc, parsedCommand_arg _ _ 1 (by simp)]
      simp
    have hr : r[0]? = none ↔ r = [] := by
      cases r <;> simp
    simp only [dispatch, ha0, ha1, h1, h2, h3, h4, h5, or_self, if_false, false_and, ne_eq, hr]
    rw [if_neg h6, if_neg h7]

theorem getLast?_eq_getElem? (toks : List Str) : toks.getLast? = toks[toks.length - 1]? := by
  rw [List.getLast?_eq_getElem?]

theorem external_parsed (w : World) (s : Shell) (np : Nat) (dirs : List (Option Str))
    (toks : List Str) (rest : List (Option Str)) (last : Str)
    (hc : s.command = parsedCommand toks rest) (hlast : toks.getLast? = some last) :
    external w s toks.length np dirs =
      if last = sAmp ∧ s.numJobs < MAX_JOBS then background w s toks.length np dirs
      else foreground w s toks.length np dirs last := by
  have hne : toks ≠ [] := by
    intro h
    rw [h] at hlast
    exact absurd hlast (by simp)
  have hpos : 0 < toks.length := List.length_pos.mpr hne
  have harg : s.command.arg (toks.length - 1) = some last := by
    rw [hc, parsedCommand_arg _ _ _ (by omega), ← getLast?_eq_getElem?, hlast]
  have h0 : ¬ (toks.length = 0) := by omega
  simp only [external, h0, if_false, harg]

theorem strcat_fits (dst : List (Option Char)) (d src : Str) (hd : cstr dst = some d)
    (hfit : d.length + src.length < dst.length) :
    ∃ b, strcat dst src = some b ∧ cstr b = some (d ++ src) ∧ b.length = dst.length :=
  strncat_fits dst d src src.length hd (Nat.le_refl _) hfit

/-- The loop of lines 356-359 when the text stays inside the table: it
appends every argument followed by a space to the string at the field. -/
theorem nameLoop_parsed (toks : List Str) (rest : List (Option Str)) (k : Nat) :
    ∀ (i : Nat) (mem : List (Option Char)) (d : Str), i + k = toks.length →
      cstr mem = some d →
      d.length + (((toks.drop i).map (fun a => a ++ [chSpace])).flatten).length < mem.length →
      ∃ m, nameLoop (parsedCommand toks rest) k i mem = some m ∧ m.length = mem.length ∧
        cstr m = some (d ++ ((toks.drop i).map (fun a => a ++ [chSpace])).flatten) := by
  induction k with
  | zero =>
    intro i mem d h hd _
    refine ⟨mem, rfl, rfl, ?_⟩
    rw [List.drop_of_length_le (by omega)]
    simpa using hd
  | succ k ih =>
    intro i mem d h hd hfit
    have hi : i < toks.length := by omega
    have ha : (parsedCommand toks rest).arg i = some toks[i] := by
      rw [parsedCommand_arg _ _ i (by omega), List.getElem?_eq_getElem hi]
    have hdrop : toks.drop i = toks[i] :: toks.drop (i + 1) := List.drop_eq_getElem_cons hi
    rw [hdrop, List.map_cons, List.flatten_cons] at hfit ⊢
    simp only [List.length_append, List.length_cons, List.length_nil] at hfit
    obtain ⟨m1, e1, c1, l1⟩ := strcat_fits mem d toks[i] hd (by omega)
    obtain ⟨m2, e2, c2, l2⟩ := strcat_fits m1 (d ++ toks[i]) [chSpace] c1
      (by simp only [List.length_append, List.length_cons, List.length_nil]; omega)
    obtain ⟨m, e3, l3, c3⟩ := ih (i + 1) m2 (d ++ toks[i] ++ [chSpace]) (by omega) c2
      (by simp only [List.length_append, List.length_cons, List.length_nil]; omega)
    refine ⟨m, ?_, by rw [l3, l2, l1], ?_⟩
    · rw [nameLoop, ha]
      simp only [e1, e2]
      exact e3
    · rw [c3]
      simp only [List.append_assoc]

theorem slotsOf_length (k : Nat) : ∀ b : List (Option Char), (slotsOf k b).length = k := by
  induction k with
  | zero => intro b; rfl
  | succ k ih => intro b; simp [slotsOf, ih]

/-- The table after a job has been added: as long as before, the tracked
entries as they were, and the new entry after them. -/
theorem addJob_spec (l : List Slot) (n : Nat) (job_id pid : Int) (mem : List (Option Char))
    (h : n < l.length) :
    (addJob l n job_id pid mem).length = l.length ∧
    (addJob l n job_id pid mem).take (n + 1) =
      l.take n ++ [{ job_id := job_id, pid := pid, name := mem.take MAX_ARGS }] := by
  have hl : (l.take n).length = n := by rw [List.length_take]; omega
  constructor
  · simp only [addJob, List.length_append, List.length_cons, slotsOf_length, hl]
    omega
  · simp only [addJob]
    rw [List.take_append_eq_append_take, hl, List.take_of_length_le (by omega)]
    have e : n + 1 - n = 1 := by omega
    rw [e]
    rfl

theorem asksBackground_unfold (w : World) (h : AsksBackground w) :
    ∃ np dirs line, parsePath w.pathEnv = some (np, dirs) ∧ w.input = some line ∧
      w.toks = tokens SEP line ∧ (tokens SEP line).length < MAX_ARGS ∧
      External (tokens SEP line) ∧ (tokens SEP line).getLast? = some sAmp ∧
      w.resolveStripped = lookupPath w.access w.heap (tokens SEP line).dropLast.head? dirs np := by
  obtain ⟨hp, hi, hs, he, hl⟩ := h
  cases hpp : parsePath w.pathEnv with
  | none => rw [hpp] at hp; exact absurd hp (by simp)
  | some pr =>
    obtain ⟨np, dirs⟩ := pr
    cases hin : w.input with
    | none => rw [hin] at hi; exact absurd hi (by simp)
    | some line =>
      have ht : w.toks = tokens SEP line := by simp [World.toks, hin]
      rw [ht] at hs he hl
      exact ⟨np, dirs, line, rfl, rfl, ht, hs, he, hl, by simp [World.resolveStripped, hpp, ht]⟩

/-- What an iteration does with an external command whose last token is `&`
when a slot is free: the branch of lines 332-382 on the parsed line. -/
theorem step_asksBackground (w : World) (s : Shell) (hcap : s.command.argv.length = MAX_ARGS)
    (hn : s.numJobs < MAX_JOBS) (h : AsksBackground w) :
    ∃ rest, (parsedCommand w.toks.dropLast rest).argv.length = MAX_ARGS ∧ step w s =
      match w.resolveStripped with
      | none => Outcome.fault
      | some none => Outcome.next { s with command := parsedCommand w.toks.dropLast rest } []
      | some (some fullpath) =>
        if w.fork = 0 then
          if w.execOk then Outcome.exec fullpath w.toks.dropLast false
          else Outcome.next { s with command := parsedCommand w.toks.dropLast rest } []
        else if 0 < w.fork then
          match s.jobList[s.numJobs]? with
          | none => Outcome.fault
          | some _ =>
            match nameLoop (parsedCommand w.toks.dropLast rest) w.toks.dropLast.length 0
                (fromName (s.jobList.drop s.numJobs)) with
            | none => Outcome.fault
            | some mem =>
              Outcome.next
                { s with
                  command := parsedCommand w.toks.dropLast rest
                  numJobs := s.numJobs + 1
                  jobList := addJob s.jobList s.numJobs ((s.numJobs : Int) + 1) w.fork mem }
                [Event.spawned fullpath w.toks.dropLast false, Event.waitNoHang,
                 Event.started ((s.numJobs : Int) + 1) w.fork]
        else Outcome.exit 1 [Event.forkFailed] := by
  obtain ⟨np, dirs, line, hp, hin, ht, hshort, hext, hlast, hres⟩ := asksBackground_unfold w h
  have hne : tokens SEP line ≠ [] := by
    intro h0
    rw [h0] at hlast
    exact absurd hlast (by simp)
  have hpos : 0 < (tokens SEP line).length := List.length_pos.mpr hne
  refine ⟨none :: s.command.argv.drop ((tokens SEP line).length + 1), ?_, ?_⟩
  · rw [ht]
    simp only [parsedCommand, List.length_append, List.length_map, List.length_dropLast,
      List.length_cons, List.length_drop, hcap]
    omega
  rw [step_dispatch w s np dirs line hp hin hne hshort hcap,
    dispatch_external w _ _ np dirs _ _ rfl hext,
    external_parsed w _ np dirs _ _ sAmp rfl hlast]
  simp only [true_and, hn, if_true, background]
  rw [stripLast_parsedCommand _ _ hne, hres, ht]
  have h0 : (parsedCommand (tokens SEP line).dropLast
      (none :: s.command.argv.drop ((tokens SEP line).length + 1))).arg 0
      = (tokens SEP line).dropLast.head? := by
    rw [parsedCommand_arg _ _ 0 (Nat.zero_le _)]
    cases (tokens SEP line).dropLast <;> simp
  rw [h0]
  have hav : (parsedCommand (tokens SEP line).dropLast
      (none :: s.command.argv.drop ((tokens SEP line).length + 1))).argvList
      = (tokens SEP line).dropLast := argvList_terminated _ _
  have hargc : (parsedCommand (tokens SEP line).dropLast
      (none :: s.command.argv.drop ((tokens SEP line).length + 1))).argc
      = (tokens SEP line).dropLast.length := rfl
  simp only [hav, hargc]

theorem denseSlots_append (t : List Slot) (x : Slot) (hd : DenseSlots t)
    (hx : x.job_id = (t.length : Int) + 1) : DenseSlots (t ++ [x]) := by
  intro i y hy
  rcases Nat.lt_or_ge i t.length with hi | hi
  · rw [List.getElem?_append_left hi] at hy
    exact hd i y hy
  · rw [List.getElem?_append_right hi] at hy
    rcases Nat.eq_zero_or_pos (i - t.length) with h0 | h0
    · rw [h0] at hy
      simp only [List.getElem?_cons_zero, Option.some.injEq] at hy
      rw [← hy, hx]
      have : i = t.length := by omega
      rw [this]
    · obtain ⟨m, hm⟩ : ∃ m, i - t.length = m + 1 := ⟨i - t.length - 1, by omega⟩
      rw [hm] at hy
      simp at hy

/-- The iteration of a successful background launch whose name stays inside
the table, on the stored entries: the tracked entries are as they were and an
entry with job id n+1 and the pid of the child follows them. -/
theorem launch_step (w : World) (p : Int) (s : Shell) (hwf : WellFormed s)
    (hn : s.numJobs < MAX_JOBS) (hl : Launches w p) (hroom : NameInTable w s) :
    ∃ s1 ev x, step w s = Outcome.next s1 ev ∧ WellFormed s1 ∧
      s1.numJobs = s.numJobs + 1 ∧ x.job_id = (s.numJobs : Int) + 1 ∧ x.pid = p ∧
      stored s1 = stored s ++ [x] := by
  obtain ⟨hjl, hnj, hcap⟩ := hwf
  obtain ⟨hask, hres, hfork, hpos⟩ := hl
  obtain ⟨rest, hrest, hstep⟩ := step_asksBackground w s hcap hn hask
  cases hr : w.resolveStripped with
  | none => rw [hr] at hres; exact absurd hres (by simp)
  | some o =>
    cases o with
    | none => rw [hr] at hres; exact absurd hres (by simp)
    | some fullpath =>
      have hlt : s.numJobs < s.jobList.length := by rw [hjl]; exact hn
      have hslot : s.jobList[s.numJobs]? = some s.jobList[s.numJobs] :=
        List.getElem?_eq_getElem hlt
      have hf0 : ¬ (w.fork = 0) := by omega
      have hf1 : 0 < w.fork := by omega
      unfold NameInTable at hroom
      cases hd : cstr (fromName (s.jobList.drop s.numJobs)) with
      | none => rw [hd] at hroom; exact hroom.elim
      | some d =>
        rw [hd] at hroom
        simp only at hroom
        obtain ⟨m, hm, _, _⟩ := nameLoop_parsed w.toks.dropLast rest w.toks.dropLast.length 0
          (fromName (s.jobList.drop s.numJobs)) d (Nat.zero_add _) hd
          (by rw [List.drop_zero]; exact hroom)
        rw [hr] at hstep
        simp only [hf0, if_false, hf1, if_true, hslot, hm] at hstep
        obtain ⟨h1, h2⟩ := addJob_spec s.jobList s.numJobs ((s.numJobs : Int) + 1) w.fork m hlt
        refine ⟨_, _, { job_id := (s.numJobs : Int) + 1, pid := w.fork, name := m.take MAX_ARGS },
          hstep, ⟨?_, ?_, hrest⟩, rfl, rfl, hfork, ?_⟩
        · show (addJob s.jobList s.numJobs _ _ m).length = MAX_JOBS
          rw [h1, hjl]
        · show s.numJobs + 1 ≤ MAX_JOBS
          omega
        · show (addJob s.jobList s.numJobs _ _ m).take (s.numJobs + 1) = _
          rw [h2]
          rfl

/-- C3, failing input: the line of 75 characters `sleep aaa...a &` on the
empty table, then `sleep 100 &`.  The first launch leaves a name of 73
characters that runs from the field `name` of the first entry into the second
entry.  The second launch is a background launch that resolves, with pid 12,
on a table of size 1: it stores its job id and pid over bytes 64-71 of that
text (lines 354-355) and appends its own text behind the byte that is left of
it.  Afterwards the table has size 2 and its last entry has job id 2 and pid
12, but the first entry is not unchanged: its name is now listed with 65
characters (the 64 of its field and the low byte of the job id 2). -/
theorem launch_changes_long_name :
    lineLong.length < LINE_LEN ∧
    runNext [world lineLong 11] shell0 = some shellLongFirst ∧
    WellFormed shellLongFirst ∧ shellLongFirst.numJobs = 1 ∧
    Launches (world lineSleep 12) 12 ∧
    tracked shellLongFirst = [{ job_id := 1, pid := 11, name := nameLong }] ∧
    afterStep (world lineSleep 12) shellLongFirst =
      some ([Event.spawned pathSleep [['s', 'l', 'e', 'e', 'p'], ['1', '0', '0']] false,
          Event.waitNoHang, Event.started 2 12],
        [{ job_id := 1, pid := 11, name := nameLong.take MAX_ARGS ++ [Char.ofNat 2] },
         { job_id := 2, pid := 12, name := chSpace :: nameSleep }]) ∧
    nameLong.take MAX_ARGS ++ [Char.ofNat 2] ≠ nameLong := by
  decide

/-! ## The invariant of the loop -/

theorem denseSlots_after_kill (t : List Slot) (k : Nat) (hd : DenseSlots t) :
    DenseSlots (t.take k ++ (t.drop (k + 1)).map renumber) := by
  intro i y hy
  rcases Nat.lt_or_ge i (t.take k).length with hi | hi
  · rw [List.getElem?_append_left hi, List.getElem?_take] at hy
    rw [List.length_take] at hi
    rw [if_pos (by omega)] at hy
    exact hd i y hy
  · rw [List.getElem?_append_right hi, List.getElem?_map, List.getElem?_drop] at hy
    rw [List.length_take] at hi hy
    cases hz : t[k + 1 + (i - min k t.length)]? with
    | none => rw [hz] at hy; exact absurd hy (by simp)
    | some z =>
      rw [hz] at hy
      simp only [Option.map_some', Option.some.injEq] at hy
      have hzid := hd _ z hz
      have hlt : k + 1 + (i - min k t.length) < t.length := by
        rcases Nat.lt_or_ge (k + 1 + (i - min k t.length)) t.length with h | h
        · exact h
        · rw [List.getElem?_eq_none h] at hz
          exact absurd hz (by simp)
      rw [← hy]
      show z.job_id - 1 = (i : Int) + 1
      rw [hzid]
      omega

theorem inv_of_stored_eq (s s1 : Shell) (hwf : WellFormed s) (hd : DenseSlots (stored s))
    (hj : s1.jobList = s.jobList) (hn : s1.numJobs = s.numJobs)
    (hc : s1.command.argv.length = MAX_ARGS) :
    WellFormed s1 ∧ DenseSlots (stored s1) := by
  refine ⟨⟨by rw [hj]; exact hwf.1, by rw [hn]; exact hwf.2.1, hc⟩, ?_⟩
  have : stored s1 = stored s := by simp [stored, hj, hn]
  rw [this]
  exact hd

theorem killBuiltin_preserves (v : Int) (s s1 : Shell) (ev : List Event)
    (hwf : WellFormed s) (hd : DenseSlots (stored s))
    (h : killBuiltin v s = Outcome.next s1 ev) :
    WellFormed s1 ∧ DenseSlots (stored s1) := by
  obtain ⟨hjl, hnj, hcap⟩ := hwf
  have hlen : s.numJobs ≤ s.jobList.length := by rw [hjl]; exact hnj
  by_cases hex : ∃ j ∈ stored s, j.job_id = v
  · obtain ⟨j, hj, hv⟩ := hex
    obtain ⟨k, hk⟩ := List.mem_iff_getElem?.mp hj
    have hkn : k < s.numJobs := by
      rcases Nat.lt_or_ge k s.numJobs with h1 | h1
      · exact h1
      · rw [stored_getElem?, if_neg (by omega)] at hk
        exact absurd hk (by simp)
    have hx : s.jobList[k]? = some j := by
      rw [stored_getElem?, if_pos hkn] at hk
      exact hk
    have hid : j.job_id = (k : Int) + 1 := dense_getElem? s hd k j hkn hx
    obtain ⟨l2, h1, h2, h3⟩ := killBuiltin_dense s hlen hd k j hkn hx
    rw [← hid, hv, h] at h1
    simp only [Outcome.next.injEq] at h1
    obtain ⟨rfl, _⟩ := h1
    refine ⟨⟨by show l2.length = MAX_JOBS; rw [h2, hjl], by show s.numJobs - 1 ≤ MAX_JOBS; omega,
      hcap⟩, ?_⟩
    rw [stored_after_kill s l2 k hlen hkn h3]
    exact denseSlots_after_kill _ k hd
  · have hv : ∀ j ∈ stored s, j.job_id ≠ v := fun j hj hjv => hex ⟨j, hj, hjv⟩
    rw [killBuiltin_not_found s hlen v hv] at h
    simp only [Outcome.next.injEq] at h
    obtain ⟨rfl, _⟩ := h
    exact ⟨⟨hjl, hnj, hcap⟩, hd⟩

theorem stripLast_length (c : Command) (n : Nat) :
    (stripLast c n).argv.length = c.argv.length := by
  simp [stripLast]

theorem background_preserves (w : World) (s s1 : Shell) (ev : List Event) (n np : Nat)
    (dirs : List (Option Str)) (hwf : WellFormed s) (hd : DenseSlots (stored s))
    (h : background w s n np dirs = Outcome.next s1 ev) :
    WellFormed s1 ∧ DenseSlots (stored s1) := by
  have hc : (stripLast s.command n).argv.length = MAX_ARGS := by
    rw [stripLast_length]
    exact hwf.2.2
  simp only [background] at h
  split at h
  · exact absurd h (by simp)
  · simp only [Outcome.next.injEq] at h
    obtain ⟨rfl, _⟩ := h
    exact inv_of_stored_eq s _ hwf hd rfl rfl hc
  · split at h
    · split at h
      · exact absurd h (by simp)
      · simp only [Outcome.next.injEq] at h
        obtain ⟨rfl, _⟩ := h
        exact inv_of_stored_eq s _ hwf hd rfl rfl hc
    · split at h
      · split at h
        · exact absurd h (by simp)
        · rename_i slot hslot
          split at h
          · exact absurd h (by simp)
          · rename_i mem hmem
            simp only [Outcome.next.injEq] at h
            obtain ⟨rfl, _⟩ := h
            have hlt : s.numJobs < s.jobList.length := by
              rcases Nat.lt_or_ge s.numJobs s.jobList.length with h1 | h1
              · exact h1
              · rw [List.getElem?_eq_none h1] at hslot
                exact absurd hslot (by simp)
            obtain ⟨h1, h2⟩ := addJob_spec s.jobList s.numJobs ((s.numJobs : Int) + 1) w.fork
              mem hlt
            refine ⟨⟨?_, ?_, hc⟩, ?_⟩
            · show (addJob s.jobList s.numJobs _ _ mem).length = MAX_JOBS
              rw [h1]
              exact hwf.1
            · show s.numJobs + 1 ≤ MAX_JOBS
              have := hwf.1
              omega
            · show DenseSlots ((addJob s.jobList s.numJobs _ _ mem).take (s.numJobs + 1))
              rw [h2]
              apply denseSlots_append _ _ hd
              show (s.numJobs : Int) + 1 = ((stored s).length : Int) + 1
              rw [stored_length s (by omega)]
      · exact absurd h (by simp)

theorem foreground_preserves (w : World) (s s1 : Shell) (ev : List Event) (n np : Nat)
    (dirs : List (Option Str)) (last : Str) (hwf : WellFormed s) (hd : DenseSlots (stored s))
    (h : foreground w s n np dirs last = Outcome.next s1 ev) :
    WellFormed s1 ∧ DenseSlots (stored s1) ∧ s1.jobList = s.jobList ∧ s1.numJobs = s.numJobs := by
  have hc : (if (decide (last = sAmp) && decide (s.numJobs = MAX_JOBS)) = true
      then stripLast s.command n else s.command).argv.length = MAX_ARGS := by
    split
    · rw [stripLast_length]
      exact hwf.2.2
    · exact hwf.2.2
  have key : ∀ s2 : Shell, s2.jobList = s.jobList → s2.numJobs = s.numJobs →
      s2.command.argv.length = MAX_ARGS →
      WellFormed s2 ∧ DenseSlots (stored s2) ∧ s2.jobList = s.jobList ∧
        s2.numJobs = s.numJobs :=
    fun s2 a b c => ⟨(inv_of_stored_eq s s2 hwf hd a b c).1,
      (inv_of_stored_eq s s2 hwf hd a b c).2, a, b⟩
  simp only [foreground] at h
  split at h
  · exact absurd h (by simp)
  · simp only [Outcome.next.injEq] at h
    obtain ⟨rfl, _⟩ := h
    exact key _ rfl rfl hc
  · split at h
    · split at h
      · exact absurd h (by simp)
      · simp only [Outcome.next.injEq] at h
        obtain ⟨rfl, _⟩ := h
        exact key _ rfl rfl hc
    · split at h
      · simp only [Outcome.next.injEq] at h
        obtain ⟨rfl, _⟩ := h
        exact key _ rfl rfl hc
      · exact absurd h (by simp)

theorem dispatch_preserves (w : World) (s s1 : Shell) (ev : List Event) (n np : Nat)
    (dirs : List (Option Str)) (hwf : WellFormed s) (hd : DenseSlots (stored s))
    (h : dispatch w s n np dirs = Outcome.next s1 ev) :
    WellFormed s1 ∧ DenseSlots (stored s1) := by
  simp only [dispatch] at h
  split at h
  · exact absurd h (by simp)
  · split at h
    · split at h <;> exact absurd h (by simp)
    · split at h
      · split at h
        · exact absurd h (by simp)
        · simp only [Outcome.next.injEq] at h
          obtain ⟨rfl, _⟩ := h
          exact ⟨hwf, hd⟩
      · split at h
        · split at h
          · exact absurd h (by simp)
          · exact killBuiltin_preserves _ s s1 ev hwf hd h
        · split at h
          · simp only [Outcome.next.injEq] at h
            obtain ⟨rfl, _⟩ := h
            exact ⟨hwf, hd⟩
          · split at h
            · simp only [Outcome.next.injEq] at h
              obtain ⟨rfl, _⟩ := h
              exact ⟨hwf, hd⟩
            · split at h
              · simp only [Outcome.next.injEq] at h
                obtain ⟨rfl, _⟩ := h
                exact ⟨hwf, hd⟩
              · simp only [external] at h
                split at h
                · exact absurd h (by simp)
                · split at h
                  · exact absurd h (by simp)
                  · split at h
                    · exact background_preserves w s s1 ev n np dirs hwf hd h
                    · exact ⟨(foreground_preserves w s s1 ev n np dirs _ hwf hd h).1,
                        (foreground_preserves w s s1 ev n np dirs _ hwf hd h).2.1⟩

theorem parseCmd_argv_length (line : Str) (cmd c : Command) (n : Nat)
    (hcap : cmd.argv.length = MAX_ARGS) (h : parseCmd line cmd = some (n, c)) :
    c.argv.length = MAX_ARGS := by
  obtain ⟨_, h2, _⟩ := parseCmdFill_spec MAX_ARGS line 0 cmd.argv (by simp) hcap
  simp only [parseCmd] at h
  split at h
  · simp only [Option.some.injEq, Prod.mk.injEq] at h
    obtain ⟨_, rfl⟩ := h
    simp only [List.length_set]
    exact h2
  · exact absurd h (by simp)

theorem step_preserves (w : World) (s s1 : Shell) (ev : List Event)
    (hwf : WellFormed s) (hd : DenseSlots (stored s))
    (h : step w s = Outcome.next s1 ev) :
    WellFormed s1 ∧ DenseSlots (stored s1) := by
  simp only [step] at h
  split at h
  · exact absurd h (by simp)
  · split at h
    · exact absurd h (by simp)
    · split at h
      · simp only [Outcome.next.injEq] at h
        obtain ⟨rfl, _⟩ := h
        exact ⟨hwf, hd⟩
      · split at h
        · simp only [Outcome.next.injEq] at h
          obtain ⟨rfl, _⟩ := h
          exact ⟨hwf, hd⟩
        · split at h
          · simp only [Outcome.next.injEq] at h
            obtain ⟨rfl, _⟩ := h
            exact ⟨hwf, hd⟩
          · split at h
            · exact absurd h (by simp)
            · rename_i n c hparse
              have hc := parseCmd_argv_length _ _ _ _ hwf.2.2 hparse
              exact dispatch_preserves w { s with command := c } s1 ev _ _ _ ⟨hwf.1, hwf.2.1, hc⟩ hd h

theorem reachable_inv (s : Shell) (h : Reachable s) :
    WellFormed s ∧ DenseSlots (stored s) := by
  induction h with
  | init s hwf hn _ =>
    refine ⟨hwf, ?_⟩
    have : stored s = [] := by simp [stored, hn]
    rw [this]
    intro i x hx
    simp at hx
  | next w s s1 ev _ hstep ih => exact step_preserves w s s1 ev ih.1 ih.2 hstep

/-! ## The claims on the job table -/

/-- C2: in every state reachable from the empty job table by any sequence of
iterations (whatever the lines: background launches, foreground commands,
`kill`, `jobs`, `cd`, `r`, and whatever the system answers), the tracked jobs
are `numJobs` many and their job ids are exactly 1, 2, ..., n in table order. -/
theorem reachable_job_ids_dense (s : Shell) (h : Reachable s) :
    (tracked s).length = s.numJobs ∧ DenseIds (tracked s) ∧
    (tracked s).map Job.job_id = (List.range s.numJobs).map (fun (i : Nat) => (i : Int) + 1) := by
  obtain ⟨hwf, hds⟩ := reachable_inv s h
  have hd : DenseIds (tracked s) := (denseIds_tracked s).mpr hds
  have hlen : (tracked s).length = s.numJobs :=
    tracked_length s (by rw [hwf.1]; exact hwf.2.1)
  refine ⟨hlen, hd, ?_⟩
  have := hd
  unfold DenseIds at this
  rw [hlen] at this
  exact this

/-- C2 on the state after the first background launch: it is reachable from
the state before the first line, and its only job has id 1. -/
theorem reachable_job_ids_dense_witness :
    Reachable shell1 ∧
    ((tracked shell1).length = shell1.numJobs ∧ DenseIds (tracked shell1) ∧
      (tracked shell1).map Job.job_id =
        (List.range shell1.numJobs).map (fun (i : Nat) => (i : Int) + 1)) :=
  have hr : Reachable shell1 :=
    Reachable.next (world lineSleep 11) shell0 shell1
      [Event.spawned pathSleep [['s', 'l', 'e', 'e', 'p'], ['1', '0', '0']] false,
        Event.waitNoHang, Event.started 1 11]
      (Reachable.init shell0 (by decide) (by decide) (by decide)) (by decide)
  ⟨hr, reachable_job_ids_dense shell1 hr⟩

/-- What an iteration does with an external command whose last token is `&`
when the table is full: the branch of lines 383-429 on the parsed line. -/
theorem step_full_table (w : World) (s : Shell) (hcap : s.command.argv.length = MAX_ARGS)
    (hn : s.numJobs = MAX_JOBS) (h : AsksBackground w) :
    ∃ rest, (parsedCommand w.toks.dropLast rest).argv.length = MAX_ARGS ∧
      (parsedCommand w.toks.dropLast rest).argvList = w.toks.dropLast ∧
      step w s =
      match w.resolveStripped with
      | none => Outcome.fault
      | some none =>
        Outcome.next { s with command := parsedCommand w.toks.dropLast rest, marker := -1 } []
      | some (some fullpath) =>
        if w.fork = 0 then
          if w.execOk then Outcome.exec fullpath w.toks.dropLast true
          else
            Outcome.next { s with command := parsedCommand w.toks.dropLast rest, marker := -1 } []
        else if 0 < w.fork then
          Outcome.next { s with command := parsedCommand w.toks.dropLast rest, marker := 0 }
            [Event.spawned fullpath w.toks.dropLast true, Event.waitBlocking]
        else Outcome.exit 1 [Event.forkFailed] := by
  obtain ⟨np, dirs, line, hp, hin, ht, hshort, hext, hlast, hres⟩ := asksBackground_unfold w h
  have hne : tokens SEP line ≠ [] := by
    intro h0
    rw [h0] at hlast
    exact absurd hlast (by simp)
  have hpos : 0 < (tokens SEP line).length := List.length_pos.mpr hne
  have hav : (parsedCommand (tokens SEP line).dropLast
      (none :: s.command.argv.drop ((tokens SEP line).length + 1))).argvList
      = (tokens SEP line).dropLast := argvList_terminated _ _
  refine ⟨none :: s.command.argv.drop ((tokens SEP line).length + 1), ?_, ?_, ?_⟩
  · rw [ht]
    simp only [parsedCommand, List.length_append, List.length_map, List.length_dropLast,
      List.length_cons, List.length_drop, hcap]
    omega
  · rw [ht]
    exact hav
  rw [step_dispatch w s np dirs line hp hin hne hshort hcap,
    dispatch_external w _ _ np dirs _ _ rfl hext,
    external_parsed w _ np dirs _ _ sAmp rfl hlast]
  have hnlt : ¬ (s.numJobs < MAX_JOBS) := by omega
  have hdec : decide (s.numJobs = MAX_JOBS) = true := by simp [hn]
  simp only [hnlt, and_false, if_false, foreground, hdec, decide_True, Bool.and_self, if_true]
  rw [stripLast_parsedCommand _ _ hne, hres, ht]
  have h0 : (parsedCommand (tokens SEP line).dropLast
      (none :: s.command.argv.drop ((tokens SEP line).length + 1))).arg 0
      = (tokens SEP line).dropLast.head? := by
    rw [parsedCommand_arg _ _ 0 (Nat.zero_le _)]
    cases (tokens SEP line).dropLast <;> simp
  rw [h0]
  simp only [hav]

/-- C4 as amended: the job table never holds more than `MAX_JOBS` (10) jobs
in a reachable state; and an external command whose last token is `&`, issued
when the table holds 10 jobs (in an iteration in which `parsePath` returns,
see `AsksBackground`), leaves the table unchanged whenever the loop goes on,
and, when its program resolves and `fork` succeeds, is run in the foreground:
the child gets the argument vector without the `&` and the parent performs the
blocking wait. -/
theorem table_never_exceeds_capacity :
    (∀ s : Shell, Reachable s → s.numJobs ≤ MAX_JOBS ∧ (tracked s).length ≤ MAX_JOBS) ∧
    (∀ (w : World) (s : Shell), WellFormed s → s.numJobs = MAX_JOBS → AsksBackground w →
      (∀ s1 ev, step w s = Outcome.next s1 ev →
        s1.jobList = s.jobList ∧ s1.numJobs = s.numJobs) ∧
      (∀ fullpath, w.resolveStripped = some (some fullpath) → 0 < w.fork →
        ∃ s1, step w s = Outcome.next s1
            [Event.spawned fullpath w.toks.dropLast true, Event.waitBlocking] ∧
          s1.jobList = s.jobList ∧ s1.numJobs = s.numJobs ∧
          s1.command.argvList = w.toks.dropLast)) := by
  constructor
  · intro s hs
    obtain ⟨hwf, _⟩ := reachable_inv s hs
    refine ⟨hwf.2.1, ?_⟩
    rw [tracked_length s (by rw [hwf.1]; exact hwf.2.1)]
    exact hwf.2.1
  · intro w s hwf hn hask
    obtain ⟨rest, _, hav, hstep⟩ := step_full_table w s hwf.2.2 hn hask
    constructor
    · intro s1 ev h
      rw [hstep] at h
      split at h
      · exact absurd h (by simp)
      · simp only [Outcome.next.injEq] at h
        obtain ⟨rfl, _⟩ := h
        exact ⟨rfl, rfl⟩
      · split at h
        · split at h
          · exact absurd h (by simp)
          · simp only [Outcome.next.injEq] at h
            obtain ⟨rfl, _⟩ := h
            exact ⟨rfl, rfl⟩
        · split at h
          · simp only [Outcome.next.injEq] at h
            obtain ⟨rfl, _⟩ := h
            exact ⟨rfl, rfl⟩
          · exact absurd h (by simp)
    · intro fullpath hres hfork
      have hf0 : ¬ (w.fork = 0) := by omega
      rw [hres] at hstep
      simp only [hf0, if_false, hfork, if_true] at hstep
      exact ⟨_, hstep, rfl, rfl, hav⟩

/-- C4 as amended, on the full table: `sleep 100 &` with ten tracked jobs leaves the table
as it is, and the child runs `/usr/bin/sleep` with the arguments `sleep`,
`100` (after printing the notice) while the parent waits. -/
theorem table_never_exceeds_capacity_witness :
    WellFormed shell10 ∧ shell10.numJobs = MAX_JOBS ∧ AsksBackground (world lineSleep 14) ∧
    (world lineSleep 14).resolveStripped = some (some pathSleep) ∧
    ∃ s1, step (world lineSleep 14) shell10 = Outcome.next s1
        [Event.spawned pathSleep (world lineSleep 14).toks.dropLast true, Event.waitBlocking] ∧
      s1.jobList = shell10.jobList ∧ s1.numJobs = shell10.numJobs ∧
      s1.command.argvList = (world lineSleep 14).toks.dropLast :=
  ⟨by decide, by decide, by decide, by decide,
   (table_never_exceeds_capacity.2 (world lineSleep 14) shell10 (by decide) (by decide)
      (by decide)).2 pathSleep (by decide) (by decide)⟩

/-- C4 as stated fails for a built-in: with ten tracked jobs the line
`kill 3 &` ends with `&`, yet the chain of lines 221-326 takes it as `kill`
with the argument `3` before the test of line 332 is reached: job 3 is
signalled and removed, nothing is run in the foreground.  And the line
`nosuch &`, whose program does not resolve, runs nothing either. -/
theorem full_table_kill_with_ampersand :
    runNext tenLaunches shell0 = some shellFull ∧ shellFull.numJobs = MAX_JOBS ∧
    (world lineKill3Amp 0).toks = [skill, ['3'], sAmp] ∧
    (world lineKill3Amp 0).toks.getLast? = some sAmp ∧
    ¬ External (world lineKill3Amp 0).toks ∧
    (tracked shellFull).map Job.pid = [101, 102, 103, 104, 105, 106, 107, 108, 109, 110] ∧
    (afterStep (world lineKill3Amp 0) shellFull).map (fun r => (r.1, r.2.map Job.pid)) =
      some ([Event.signal 103], [101, 102, 104, 105, 106, 107, 108, 109, 110]) ∧
    (world lineNoSuchAmp 0).toks.getLast? = some sAmp ∧ External (world lineNoSuchAmp 0).toks ∧
    (afterStep (world lineNoSuchAmp 0) shellFull).map (fun r => r.1) = some [] := by
  decide

theorem strtok_rest_length (delim : List Char) (s : Str) (tok rest : Str)
    (h : strtok delim s = some (tok, rest)) :
    rest.length + 2 ≤ s.length ∨ (rest = [] ∧ 1 ≤ s.length) := by
  induction s with
  | nil => exact absurd h (by simp [strtok])
  | cons a s ih =>
    by_cases ha : a ∈ delim
    · rw [strtok_cons_delim delim a s ha] at h
      rcases ih h with h1 | ⟨h1, h2⟩
      · left
        simp only [List.length_cons]
        omega
      · right
        exact ⟨h1, by simp⟩
    · rw [strtok_cons_char delim a s ha] at h
      simp only [Option.some.injEq, Prod.mk.injEq] at h
      obtain ⟨_, hr⟩ := h
      have hle : (s.dropWhile (fun x => !delim.contains x)).length ≤ s.length :=
        (List.dropWhile_sublist _).length_le
      cases hd : s.dropWhile (fun x => !delim.contains x) with
      | nil =>
        right
        rw [hd] at hr
        exact ⟨by rw [← hr]; rfl, by simp⟩
      | cons d r =>
        left
        rw [hd] at hr hle
        simp only [List.drop_succ_cons, List.drop_zero] at hr
        simp only [List.length_cons] at hle ⊢
        rw [← hr]
        omega

theorem tokens_length_bound (delim : List Char) (n : Nat) :
    ∀ s : Str, s.length ≤ n → 2 * (tokens delim s).length ≤ s.length + 1 := by
  induction n with
  | zero =>
    intro s hs
    have : s = [] := List.length_eq_zero.mp (by omega)
    subst this
    have h0 : (tokens delim []).length = 0 := rfl
    omega
  | succ n ih =>
    intro s hs
    have ht := tokens_strtok delim s
    cases hst : strtok delim s with
    | none =>
      rw [hst] at ht
      simp only at ht
      rw [ht]
      simp
    | some pr =>
      obtain ⟨tok, rest⟩ := pr
      rw [hst] at ht
      simp only at ht
      rw [ht]
      simp only [List.length_cons]
      rcases strtok_rest_length delim s tok rest hst with h1 | ⟨h1, h2⟩
      · have := ih rest (by omega)
        omega
      · subst h1
        have h0 : (tokens delim []).length = 0 := rfl
        omega

/-- A line read by `fgets(cmdline, LINE_LEN, stdin)` has fewer than `LINE_LEN`
characters, hence fewer than `MAX_ARGS` tokens. -/
theorem tokens_short_line (line : Str) (h : line.length < LINE_LEN) :
    (tokens SEP line).length < MAX_ARGS := by
  have := tokens_length_bound SEP line.length line (Nat.le_refl _)
  simp only [LINE_LEN] at h
  simp only [MAX_ARGS]
  omega

theorem strtok_token_length (delim : List Char) (s : Str) (tok rest : Str)
    (h : strtok delim s = some (tok, rest)) : tok.length + rest.length ≤ s.length := by
  induction s with
  | nil => exact absurd h (by simp [strtok])
  | cons a s ih =>
    by_cases ha : a ∈ delim
    · rw [strtok_cons_delim delim a s ha] at h
      have := ih h
      simp only [List.length_cons]
      omega
    · rw [strtok_cons_char delim a s ha] at h
      simp only [Option.some.injEq, Prod.mk.injEq] at h
      obtain ⟨ht, hr⟩ := h
      have hsum := List.takeWhile_append_dropWhile (fun x => !delim.contains x) s
      have hlen : (s.takeWhile (fun x => !delim.contains x)).length +
          (s.dropWhile (fun x => !delim.contains x)).length = s.length := by
        rw [← List.length_append, hsum]
      rw [← ht, ← hr]
      simp only [List.length_cons, List.length_drop]
      omega

/-- A token is not longer than the line it comes from. -/
theorem token_length_le (delim : List Char) (n : Nat) :
    ∀ s : Str, s.length ≤ n → ∀ t ∈ tokens delim s, t.length ≤ s.length := by
  induction n with
  | zero =>
    intro s hs t ht
    have : s = [] := List.length_eq_zero.mp (by omega)
    subst this
    simp [tokens] at ht
  | succ n ih =>
    intro s hs t ht
    have hts := tokens_strtok delim s
    cases hst : strtok delim s with
    | none =>
      rw [hst] at hts
      simp only at hts
      rw [hts] at ht
      simp at ht
    | some pr =>
      obtain ⟨tok, rest⟩ := pr
      rw [hst] at hts
      simp only at hts
      rw [hts] at ht
      have hl := strtok_token_length delim s tok rest hst
      have hpos : 0 < tok.length := by
        have : tok ∈ tokens delim s := by rw [hts]; exact List.mem_cons_self _ _
        exact List.length_pos.mpr (tokens_nonempty delim s tok this)
      rcases List.mem_cons.mp ht with h1 | h1
      · rw [h1]
        omega
      · have := ih rest (by omega) t h1
        omega

/-- C8: for every line that `fgets(cmdline, LINE_LEN, stdin)` delivers (fewer
than `LINE_LEN` characters) and every `Command` with its `MAX_ARGS` entries,
`parseCmd` returns a count `argc` below `MAX_ARGS` (so at most 64) that it
also stores in `cmd->argc`; every `argv[i]` with `i < argc` is a non-null,
non-empty token; and the null sentinel is stored at index `argc`, which is an
index of the argument vector of `MAX_ARGS` entries. -/
theorem parseCmd_count_and_sentinel (line : Str) (cmd : Command)
    (hcap : cmd.argv.length = MAX_ARGS) (hline : line.length < LINE_LEN) :
    ∃ n c, parseCmd line cmd = some (n, c) ∧ n ≤ MAX_ARGS ∧ c.argc = n ∧
      n = (tokens SEP line).length ∧ c.argv.length = MAX_ARGS ∧ n < c.argv.length ∧
      (∀ i, i < n → ∃ t, c.argv[i]? = some (some t) ∧ t ≠ [] ∧ (tokens SEP line)[i]? = some t) ∧
      c.argv[n]? = some none := by
  have hshort := tokens_short_line line hline
  have hparse := parseCmd_eq line cmd hcap hshort
  have hlen := parseCmd_argv_length line cmd _ _ hcap hparse
  refine ⟨_, _, hparse, by omega, rfl, rfl, hlen, by rw [hlen]; exact hshort, ?_, ?_⟩
  · intro i hi
    refine ⟨(tokens SEP line)[i], ?_, ?_, List.getElem?_eq_getElem hi⟩
    · simp only [parsedCommand]
      rw [List.getElem?_append_left (by simpa using hi), List.getElem?_map,
        List.getElem?_eq_getElem hi]
      rfl
    · exact tokens_nonempty SEP line _ (List.getElem_mem _)
  · simp only [parsedCommand]
    rw [List.getElem?_append_right (by simp)]
    simp

/-- C8 on the line of two spaces, `ls`, tab and space, `-l`, newline: the
count is 2, `argv[0]` and `argv[1]` are `ls` and `-l`, `argv[2]` is `NULL`. -/
theorem parseCmd_count_and_sentinel_witness :
    emptyCommand.argv.length = MAX_ARGS ∧ lineLs.length < LINE_LEN ∧
    (∃ n c, parseCmd lineLs emptyCommand = some (n, c) ∧ n ≤ MAX_ARGS ∧ c.argc = n ∧
      n = (tokens SEP lineLs).length ∧ c.argv.length = MAX_ARGS ∧ n < c.argv.length ∧
      (∀ i, i < n → ∃ t, c.argv[i]? = some (some t) ∧ t ≠ [] ∧
        (tokens SEP lineLs)[i]? = some t) ∧
      c.argv[n]? = some none) ∧
    (parseCmd lineLs emptyCommand).map (fun r => (r.1, r.2.argc, r.2.argv.take 3)) =
      some (2, 2, [some ['l', 's'], some ['-', 'l'], none]) :=
  ⟨by decide, by decide, parseCmd_count_and_sentinel lineLs emptyCommand (by decide) (by decide),
   by decide⟩

/-- C9: given an existence oracle `access` and a fresh block of
`MAX_PATH_LEN` bytes with any content, for every name of at most 94 bytes,
which every token of a line that `fgets(cmdline, LINE_LEN, stdin)` delivers
is: if the name begins with `/`, `lookupPath` returns the name itself if it
exists and `NULL` otherwise, whatever the search path; if it does not, then
for every search path `d_0..d_{n-1}` with each `d_i + "/" + name` at most 95
bytes long `lookupPath` returns the first candidate, in path order, that
exists, and `NULL` if none exists. -/
theorem lookupPath_resolves (access : Str → Bool) (heap : List (Option Char))
    (hheap : heap.length = MAX_PATH_LEN) (name : Str) :
    (name.head? = some '/' → name.length ≤ 94 →
      ∀ (dir : List (Option Str)) (num : Nat),
        lookupPath access heap (some name) dir num =
          some (if access name then some name else none)) ∧
    (name.head? ≠ some '/' →
      ∀ (ds : List Str) (pad : List (Option Str)),
        (∀ d ∈ ds, (candidate name d).length ≤ 95) →
        lookupPath access heap (some name) (ds.map some ++ pad) ds.length =
          some ((ds.map (candidate name)).find? access)) ∧
    (∀ line : Str, line.length < LINE_LEN → name ∈ tokens SEP line → name.length ≤ 94) := by
  refine ⟨?_, ?_, ?_⟩
  · intro hslash hlen dir num
    obtain ⟨b, e, c, _⟩ := strncpy_short heap name (MAX_PATH_LEN - 1)
      (by rw [hheap]; decide) (by simp [MAX_PATH_LEN]; omega)
    simp only [lookupPath, hslash, if_true, e, c]
    cases access name <;> simp
  · intro hslash ds pad hlen
    simp only [lookupPath, hslash, if_false]
    have := lookupLoop_spec access name ds [] pad heap hheap
      (by simpa [MAX_PATH_LEN] using hlen)
    simpa using this
  · intro line hline hmem
    have := token_length_le SEP line.length line (Nat.le_refl _) name hmem
    simp only [LINE_LEN] at hline
    omega

/-- C9 on scenario A of the specification: with search path `/bin`,
`/usr/bin` and `ls` existing only in `/usr/bin`, the result is `/usr/bin/ls`,
from a block without any zero byte; and on the absolute name
`/usr/bin/sleep`, which is returned as it is. -/
theorem lookupPath_resolves_witness :
    dirtyBlock.length = MAX_PATH_LEN ∧
    lookupPath (fun p => decide (p = ['/', 'u', 's', 'r', '/', 'b', 'i', 'n', '/', 'l', 's']))
        dirtyBlock (some ['l', 's'])
        ([['/', 'b', 'i', 'n'], ['/', 'u', 's', 'r', '/', 'b', 'i', 'n']].map some ++ [])
        [['/', 'b', 'i', 'n'], ['/', 'u', 's', 'r', '/', 'b', 'i', 'n']].length =
      some (some ['/', 'u', 's', 'r', '/', 'b', 'i', 'n', '/', 'l', 's']) ∧
    lookupPath (fun p => decide (p = pathSleep)) dirtyBlock (some pathSleep) [] 0 =
      some (some pathSleep) :=
  ⟨by decide,
   ((lookupPath_resolves _ dirtyBlock (by decide) ['l', 's']).2.1 (by decide)
      [['/', 'b', 'i', 'n'], ['/', 'u', 's', 'r', '/', 'b', 'i', 'n']] [] (by decide)).trans
      (by decide),
   ((lookupPath_resolves (fun p => decide (p = pathSleep)) dirtyBlock (by decide) pathSleep).1
      (by decide) (by decide) [] 0).trans (by decide)⟩

/-! ## External dispatch in general -/

theorem background_eq_launch (w : World) (s : Shell) (n np : Nat) (dirs : List (Option Str)) :
    background w s n np dirs = launchBackground w s (stripLast s.command n) np dirs := rfl

theorem foreground_eq_launch (w : World) (s : Shell) (n np : Nat) (dirs : List (Option Str))
    (last : Str) :
    foreground w s n np dirs last =
      launchForeground w s
        (if (decide (last = sAmp) && decide (s.numJobs = MAX_JOBS)) = true
          then stripLast s.command n else s.command)
        (if (decide (last = sAmp) && decide (s.numJobs = MAX_JOBS)) = true
          then -1 else s.marker) np dirs := rfl

theorem externalLine_unfold (w : World) (h : ExternalLine w) :
    ∃ np dirs line, parsePath w.pathEnv = some (np, dirs) ∧ w.input = some line ∧
      w.toks = tokens SEP line ∧ (tokens SEP line).length < MAX_ARGS ∧
      External (tokens SEP line) := by
  obtain ⟨hp, hi, hs, he⟩ := h
  cases hpp : parsePath w.pathEnv with
  | none => rw [hpp] at hp; exact absurd hp (by simp)
  | some pr =>
    obtain ⟨np, dirs⟩ := pr
    cases hin : w.input with
    | none => rw [hin] at hi; exact absurd hi (by simp)
    | some line =>
      have ht : w.toks = tokens SEP line := by simp [World.toks, hin]
      rw [ht] at hs he
      exact ⟨np, dirs, line, rfl, rfl, ht, hs, he⟩

theorem parsedCommand_head (vec : List Str) (rest : List (Option Str)) :
    (parsedCommand vec rest).arg 0 = vec.head? := by
  rw [parsedCommand_arg _ _ 0 (Nat.zero_le _)]
  cases vec <;> simp

/-- What an iteration does with an external command: the command in effect
is the argument vector of the specification followed by the sentinel; the
background branch runs when the flag is set and a slot is free, the
foreground branch otherwise, with the advisory flag when the flag is set. -/
theorem step_external (w : World) (s : Shell) (hwf : WellFormed s) (hext : ExternalLine w) :
    ∃ np dirs rest, parsePath w.pathEnv = some (np, dirs) ∧
      (parsedCommand w.vector rest).argv.length = MAX_ARGS ∧
      step w s =
        if w.backgroundFlag ∧ s.numJobs < MAX_JOBS then
          launchBackground w s (parsedCommand w.vector rest) np dirs
        else
          launchForeground w s (parsedCommand w.vector rest)
            (if w.backgroundFlag then -1 else s.marker) np dirs := by
  obtain ⟨hjl, hnj, hcap⟩ := hwf
  obtain ⟨np, dirs, line, hp, hin, ht, hshort, hextt⟩ := externalLine_unfold w hext
  have hne : tokens SEP line ≠ [] := by
    intro h0
    rw [h0] at hextt
    exact hextt
  have hpos : 0 < (tokens SEP line).length := List.length_pos.mpr hne
  obtain ⟨last, hlast⟩ : ∃ last, (tokens SEP line).getLast? = some last := by
    cases hl : (tokens SEP line).getLast? with
    | none => exact absurd (List.getLast?_eq_none_iff.mp hl) hne
    | some last => exact ⟨last, rfl⟩
  have hstep := step_dispatch w s np dirs line hp hin hne hshort hcap
  rw [dispatch_external w _ _ np dirs _ _ rfl hextt,
    external_parsed w _ np dirs _ _ last rfl hlast] at hstep
  have hflag : w.backgroundFlag ↔ last = sAmp := by
    simp only [World.backgroundFlag, ht, hlast, Option.some.injEq]
  by_cases hamp : last = sAmp
  · have hbg : w.backgroundFlag := hflag.mpr hamp
    have hvec : w.vector = (tokens SEP line).dropLast := by
      simp only [World.vector, hbg, if_true, ht]
    refine ⟨np, dirs, none :: s.command.argv.drop ((tokens SEP line).length + 1), hp, ?_, ?_⟩
    · rw [hvec]
      simp only [parsedCommand, List.length_append, List.length_map, List.length_dropLast,
        List.length_cons, List.length_drop, hcap]
      omega
    · rw [hstep, hvec]
      by_cases hn : s.numJobs < MAX_JOBS
      · simp only [hamp, hn, and_self, if_true, hbg, background_eq_launch]
        rw [stripLast_parsedCommand _ _ hne]
        rfl
      · have hfull : s.numJobs = MAX_JOBS := by omega
        have hdec : (decide (last = sAmp) && decide (s.numJobs = MAX_JOBS)) = true := by
          simp [hamp, hfull]
        simp only [hn, and_false, if_false, hbg, if_true, foreground_eq_launch]
        simp only [hdec, if_true]
        rw [stripLast_parsedCommand _ _ hne]
        rfl
  · have hbg : ¬ w.backgroundFlag := fun h => hamp (hflag.mp h)
    have hvec : w.vector = tokens SEP line := by
      simp only [World.vector, hbg, if_false, ht]
    refine ⟨np, dirs, s.command.argv.drop ((tokens SEP line).length + 1), hp, ?_, ?_⟩
    · rw [hvec]
      simp only [parsedCommand, List.length_append, List.length_map,
        List.length_cons, List.length_drop, hcap]
      omega
    · rw [hstep, hvec]
      simp only [hamp, false_and, if_false, hbg, foreground_eq_launch, decide_False,
        Bool.false_and, Bool.false_eq_true]
      rfl

theorem world_resolve_eq (w : World) (np : Nat) (dirs : List (Option Str))
    (hp : parsePath w.pathEnv = some (np, dirs)) :
    w.resolve = lookupPath w.access w.heap w.vector.head? dirs np := by
  simp only [World.resolve, hp]

theorem launchBackground_facts (w : World) (s : Shell) (c : Command) (np : Nat)
    (dirs : List (Option Str)) :
    (∀ p a n, launchBackground w s c np dirs = Outcome.exec p a n →
      a = c.argvList ∧ lookupPath w.access w.heap (c.arg 0) dirs np = some (some p)) ∧
    (∀ s1 ev p a n, launchBackground w s c np dirs = Outcome.next s1 ev →
      Event.spawned p a n ∈ ev →
      a = c.argvList ∧ lookupPath w.access w.heap (c.arg 0) dirs np = some (some p)) ∧
    (∀ s1 ev, launchBackground w s c np dirs = Outcome.next s1 ev → s1.command = c) ∧
    (lookupPath w.access w.heap (c.arg 0) dirs np = some none →
      launchBackground w s c np dirs = Outcome.next { s with command := c } []) := by
  unfold launchBackground
  cases hl : lookupPath w.access w.heap (c.arg 0) dirs np with
  | none => simp
  | some o =>
    cases o with
    | none =>
      simp only [Outcome.next.injEq, reduceCtorEq, false_implies, implies_true, true_and,
        and_true]
      refine ⟨?_, ?_⟩
      · rintro s1 ev p a n ⟨_, rfl⟩ hmem
        simp at hmem
      · rintro s1 ev ⟨rfl, _⟩
        rfl
    | some fullpath =>
      simp only [Option.some.injEq, reduceCtorEq, false_implies, and_true]
      by_cases hf0 : w.fork = 0
      · simp only [hf0, if_true]
        by_cases he : w.execOk = true
        · simp only [he, if_true, Outcome.exec.injEq, reduceCtorEq, false_implies, implies_true,
            and_true]
          rintro p a n ⟨rfl, rfl, _⟩
          exact ⟨rfl, rfl⟩
        · simp only [he, Bool.false_eq_true, if_false, reduceCtorEq, false_implies, implies_true,
            true_and, Outcome.next.injEq]
          refine ⟨?_, ?_⟩
          · rintro s1 ev p a n ⟨_, rfl⟩ hmem
            simp at hmem
          · rintro s1 ev ⟨rfl, _⟩
            rfl
      · simp only [hf0, if_false]
        by_cases hf1 : 0 < w.fork
        · simp only [hf1, if_true]
          cases hs : s.jobList[s.numJobs]? with
          | none => simp
          | some slot =>
            simp only
            cases hnm : nameLoop c c.argc 0 (fromName (s.jobList.drop s.numJobs)) with
            | none => simp
            | some mem =>
              simp only [reduceCtorEq, false_implies, implies_true, true_and,
                Outcome.next.injEq]
              refine ⟨?_, ?_⟩
              · rintro s1 ev p a n ⟨_, rfl⟩ hmem
                simp only [List.mem_cons, Event.spawned.injEq, reduceCtorEq, List.mem_singleton,
                  or_false, List.not_mem_nil] at hmem
                obtain ⟨rfl, rfl, _⟩ := hmem
                exact ⟨rfl, rfl⟩
              · rintro s1 ev ⟨rfl, _⟩
                rfl
        · simp [hf1]

theorem launchForeground_facts (w : World) (s : Shell) (c : Command) (m : Int) (np : Nat)
    (dirs : List (Option Str)) :
    (∀ p a n, launchForeground w s c m np dirs = Outcome.exec p a n →
      a = c.argvList ∧ lookupPath w.access w.heap (c.arg 0) dirs np = some (some p)) ∧
    (∀ s1 ev p a n, launchForeground w s c m np dirs = Outcome.next s1 ev →
      Event.spawned p a n ∈ ev →
      a = c.argvList ∧ lookupPath w.access w.heap (c.arg 0) dirs np = some (some p)) ∧
    (∀ s1 ev, launchForeground w s c m np dirs = Outcome.next s1 ev → s1.command = c) ∧
    (lookupPath w.access w.heap (c.arg 0) dirs np = some none →
      launchForeground w s c m np dirs = Outcome.next { s with command := c, marker := m } []) := by
  unfold launchForeground
  cases hl : lookupPath w.access w.heap (c.arg 0) dirs np with
  | none => simp
  | some o =>
    cases o with
    | none =>
      simp only [Outcome.next.injEq, reduceCtorEq, false_implies, implies_true, true_and,
        and_true]
      refine ⟨?_, ?_⟩
      · rintro s1 ev p a n ⟨_, rfl⟩ hmem
        simp at hmem
      · rintro s1 ev ⟨rfl, _⟩
        rfl
    | some fullpath =>
      simp only [Option.some.injEq, reduceCtorEq, false_implies, and_true]
      by_cases hf0 : w.fork = 0
      · simp only [hf0, if_true]
        by_cases he : w.execOk = true
        · simp only [he, if_true, Outcome.exec.injEq, reduceCtorEq, false_implies, implies_true,
            and_true]
          rintro p a n ⟨rfl, rfl, _⟩
          exact ⟨rfl, rfl⟩
        · simp only [he, Bool.false_eq_true, if_false, reduceCtorEq, false_implies, implies_true,
            true_and, Outcome.next.injEq]
          refine ⟨?_, ?_⟩
          · rintro s1 ev p a n ⟨_, rfl⟩ hmem
            simp at hmem
          · rintro s1 ev ⟨rfl, _⟩
            rfl
      · simp only [hf0, if_false]
        by_cases hf1 : 0 < w.fork
        · simp only [hf1, if_true, reduceCtorEq, false_implies, implies_true, true_and,
            Outcome.next.injEq]
          refine ⟨?_, ?_⟩
          · rintro s1 ev p a n ⟨_, rfl⟩ hmem
            simp only [List.mem_cons, Event.spawned.injEq, reduceCtorEq, List.mem_singleton,
              or_false, List.not_mem_nil] at hmem
            obtain ⟨rfl, rfl, _⟩ := hmem
            exact ⟨rfl, rfl⟩
          · rintro s1 ev ⟨rfl, _⟩
            rfl
        · simp [hf1]

/-- The argument vector an external command runs with, for both claims on it. -/
theorem external_vector (w : World) (s : Shell) (hwf : WellFormed s) (hext : ExternalLine w) :
    ∃ c np dirs, parsePath w.pathEnv = some (np, dirs) ∧
      c.argvList = w.vector ∧ c.argc = w.vector.length ∧ c.arg w.vector.length = none ∧
      (∀ i, i < w.vector.length → c.arg i = w.vector[i]?) ∧
      step w s =
        (if w.backgroundFlag ∧ s.numJobs < MAX_JOBS then launchBackground w s c np dirs
         else launchForeground w s c (if w.backgroundFlag then -1 else s.marker) np dirs) ∧
      (∀ p a n, step w s = Outcome.exec p a n → a = w.vector ∧ w.resolve = some (some p)) ∧
      (∀ s1 ev p a n, step w s = Outcome.next s1 ev → Event.spawned p a n ∈ ev →
        a = w.vector ∧ w.resolve = some (some p)) ∧
      (∀ s1 ev, step w s = Outcome.next s1 ev → s1.command = c) ∧
      (w.resolve = some none →
        ∃ s1, step w s = Outcome.next s1 [] ∧ s1.jobList = s.jobList ∧
          s1.numJobs = s.numJobs) := by
  obtain ⟨np, dirs, rest, hp, _, hstep⟩ := step_external w s hwf hext
  have hav : (parsedCommand w.vector rest).argvList = w.vector := argvList_terminated _ _
  have h0 : (parsedCommand w.vector rest).arg 0 = w.vector.head? := parsedCommand_head _ _
  have hres := world_resolve_eq w np dirs hp
  obtain ⟨b1, b2, b3, b4⟩ := launchBackground_facts w s (parsedCommand w.vector rest) np dirs
  obtain ⟨f1, f2, f3, f4⟩ := launchForeground_facts w s (parsedCommand w.vector rest)
    (if w.backgroundFlag then -1 else s.marker) np dirs
  rw [h0, ← hres] at b1 b2 b4 f1 f2 f4
  rw [hav] at b1 b2 f1 f2
  refine ⟨parsedCommand w.vector rest, np, dirs, hp, hav, rfl,
    parsedCommand_arg _ _ _ (Nat.le_refl _) |>.trans (List.getElem?_eq_none (Nat.le_refl _)),
    fun i hi => parsedCommand_arg _ _ i (Nat.le_of_lt hi), hstep, ?_, ?_, ?_, ?_⟩
  · intro p a n h
    rw [hstep] at h
    split at h
    · exact b1 p a n h
    · exact f1 p a n h
  · intro s1 ev p a n h hmem
    rw [hstep] at h
    split at h
    · exact b2 s1 ev p a n h hmem
    · exact f2 s1 ev p a n h hmem
  · intro s1 ev h
    rw [hstep] at h
    split at h
    · exact b3 s1 ev h
    · exact f3 s1 ev h
  · intro hfail
    rw [hstep]
    split
    · exact ⟨_, b4 hfail, rfl, rfl⟩
    · exact ⟨_, f4 hfail, rfl, rfl⟩

/-- C11: for every parsed command that reaches external dispatch (in a state
with at most `MAX_JOBS` jobs and an iteration in which `parsePath` returns,
see `ExternalLine`), the command is handled as a background request
exactly when its last token is `&`: the argument vector is then the parsed
one without its last element, otherwise the parsed one unchanged.  The
command in effect holds that vector, its length as count, and the sentinel at
that count; the resolver receives its first element and `execv` the vector.
With the flag the background branch runs when a slot is free, and the
foreground branch with the advisory flag otherwise. -/
theorem background_flag_strips_vector (w : World) (s : Shell) (hwf : WellFormed s)
    (hext : ExternalLine w) :
    (w.backgroundFlag ↔ w.toks.getLast? = some sAmp) ∧
    (w.backgroundFlag → w.vector = w.toks.dropLast ∧ w.vector.length + 1 = w.toks.length) ∧
    (¬ w.backgroundFlag → w.vector = w.toks) ∧
    ∃ c np dirs, parsePath w.pathEnv = some (np, dirs) ∧
      c.argvList = w.vector ∧ c.argc = w.vector.length ∧ c.arg w.vector.length = none ∧
      (∀ i, i < w.vector.length → c.arg i = w.vector[i]?) ∧
      step w s =
        (if w.backgroundFlag ∧ s.numJobs < MAX_JOBS then launchBackground w s c np dirs
         else launchForeground w s c (if w.backgroundFlag then -1 else s.marker) np dirs) ∧
      (∀ p a n, step w s = Outcome.exec p a n → a = w.vector ∧ w.resolve = some (some p)) ∧
      (∀ s1 ev p a n, step w s = Outcome.next s1 ev → Event.spawned p a n ∈ ev →
        a = w.vector ∧ w.resolve = some (some p)) ∧
      (∀ s1 ev, step w s = Outcome.next s1 ev → s1.command = c) := by
  refine ⟨Iff.rfl, ?_, ?_, ?_⟩
  · intro hbg
    have hv : w.vector = w.toks.dropLast := by simp only [World.vector, hbg, if_true]
    refine ⟨hv, ?_⟩
    have hne : w.toks ≠ [] := by
      intro h0
      have : w.toks.getLast? = some sAmp := hbg
      rw [h0] at this
      exact absurd this (by simp)
    have hpos : 0 < w.toks.length := List.length_pos.mpr hne
    rw [hv, List.length_dropLast]
    omega
  · intro hbg
    simp only [World.vector, hbg, if_false]
  · obtain ⟨c, np, dirs, h1, h2, h3, h4, h5, h6, h7, h8, h9, _⟩ := external_vector w s hwf hext
    exact ⟨c, np, dirs, h1, h2, h3, h4, h5, h6, h7, h8, h9⟩

/-- C11 on `sleep 100 &` and on `sleep 100` with three tracked jobs: the first
runs with the vector `sleep`, `100` (flag set), the second with the same
vector (flag not set). -/
theorem background_flag_strips_vector_witness :
    (WellFormed shell3 ∧ ExternalLine (world lineSleep 14) ∧
      ((world lineSleep 14).backgroundFlag ↔ (world lineSleep 14).toks.getLast? = some sAmp) ∧
      (world lineSleep 14).backgroundFlag ∧
      (world lineSleep 14).vector = [['s', 'l', 'e', 'e', 'p'], ['1', '0', '0']]) ∧
    (ExternalLine (world lineSleepFg 14) ∧
      (¬ (world lineSleepFg 14).backgroundFlag → (world lineSleepFg 14).vector
        = (world lineSleepFg 14).toks) ∧
      ¬ (world lineSleepFg 14).backgroundFlag ∧
      (world lineSleepFg 14).vector = [['s', 'l', 'e', 'e', 'p'], ['1', '0', '0']]) :=
  ⟨⟨by decide, by decide,
    (background_flag_strips_vector (world lineSleep 14) shell3 (by decide) (by decide)).1,
    by decide, by decide⟩,
   ⟨by decide,
    (background_flag_strips_vector (world lineSleepFg 14) shell3 (by decide) (by decide)).2.2.1,
    by decide, by decide⟩⟩

/-- C15: for every external command, foreground or background (in an
iteration in which `parsePath` returns, see `ExternalLine`), whose program
name fails resolution (`lookupPath` returns `NULL` for the first element of
the argument vector), the iteration has no effect on the outside (no process
is spawned, none is signalled), the job table is unchanged, and the loop goes
on. -/
theorem unresolved_command_spawns_nothing (w : World) (s : Shell) (hwf : WellFormed s)
    (hext : ExternalLine w) (hfail : w.resolve = some none) :
    ∃ s1, step w s = Outcome.next s1 [] ∧ s1.jobList = s.jobList ∧
      s1.numJobs = s.numJobs ∧ tracked s1 = tracked s := by
  obtain ⟨c, np, dirs, _, _, _, _, _, _, _, _, _, h10⟩ := external_vector w s hwf hext
  obtain ⟨s1, h1, h2, h3⟩ := h10 hfail
  exact ⟨s1, h1, h2, h3, by simp only [tracked, h2, h3]⟩

/-- C15 on `ls -l` and on `nosuch &` with three tracked jobs, in a world where
only `/usr/bin/sleep` exists. -/
theorem unresolved_command_spawns_nothing_witness :
    (WellFormed shell3 ∧ ExternalLine (world lineLsL 14) ∧
      (world lineLsL 14).resolve = some none ∧
      ∃ s1, step (world lineLsL 14) shell3 = Outcome.next s1 [] ∧
        s1.jobList = shell3.jobList ∧ s1.numJobs = shell3.numJobs ∧
        tracked s1 = tracked shell3) ∧
    (ExternalLine (world lineNoSuchAmp 14) ∧ (world lineNoSuchAmp 14).resolve = some none ∧
      ∃ s1, step (world lineNoSuchAmp 14) shell3 = Outcome.next s1 [] ∧
        s1.jobList = shell3.jobList ∧ s1.numJobs = shell3.numJobs ∧
        tracked s1 = tracked shell3) :=
  ⟨⟨by decide, by decide, by decide,
    unresolved_command_spawns_nothing (world lineLsL 14) shell3 (by decide) (by decide)
      (by decide)⟩,
   ⟨by decide, by decide,
    unresolved_command_spawns_nothing (world lineNoSuchAmp 14) shell3 (by decide) (by decide)
      (by decide)⟩⟩

/-! ## The classification table -/

theorem dispatch_classify (w : World) (s : Shell) (n np : Nat) (dirs : List (Option Str))
    (toks : List Str) (rest : List (Option Str)) (hc : s.command = parsedCommand toks rest)
    (hne : toks ≠ []) :
    dispatch w s n np dirs = perform w s n np dirs (classify toks) := by
  cases toks with
  | nil => exact absurd rfl hne
  | cons a0 r =>
    have ha0 : s.command.arg 0 = some a0 := by
      rw [hc, parsedCommand_arg _ _ 0 (Nat.zero_le _)]
      simp
    have ha1 : s.command.arg 1 = r.head? := by
      rw [hc, parsedCommand_arg _ _ 1 (by simp)]
      cases r <;> simp
    simp only [dispatch, ha0, ha1, classify]
    by_cases h1 : a0 = sExit ∨ a0 = sexit
    · have h1c : a0 = sexit ∨ a0 = sExit := h1.symm
      simp only [h1, h1c, if_true, perform]
    · have h1c : ¬ (a0 = sexit ∨ a0 = sExit) := fun h => h1 h.symm
      simp only [h1, h1c, if_false]
      by_cases h2 : a0 = sjobs ∨ a0 = sJobs
      · simp only [h2, if_true, perform]
      · simp only [h2, if_false]
        by_cases h3 : a0 = skill ∨ a0 = sKill
        · have hr : ¬ (a0 = sr) := by rcases h3 with rfl | rfl <;> decide
          have hcd : ¬ (a0 = scd) := by rcases h3 with rfl | rfl <;> decide
          cases r with
          | nil =>
            simp only [h3, List.head?_nil, ne_eq, not_true_eq_false, and_false, if_false, hr,
              false_and, hcd, if_true, perform]
          | cons t r2 =>
            simp only [h3, List.head?_cons, ne_eq, reduceCtorEq, not_false_eq_true, and_self,
              if_true, perform]
            rfl
        · simp only [h3, false_and, if_false]
          by_cases h4 : a0 = sr
          · have hcd : ¬ (a0 = scd) := by rw [h4]; decide
            cases r with
            | nil => simp only [h4, List.head?_nil, and_self, if_true, perform]
            | cons t r2 =>
              simp only [h4, List.head?_cons, reduceCtorEq, and_false, if_false, hcd, false_and,
                if_true, perform]
              rw [← h4]
              simp only [hcd, false_and, if_false]
          · simp only [h4, false_and, if_false]
            by_cases h5 : a0 = scd
            · cases r with
              | nil =>
                simp only [h5, List.head?_nil, ne_eq, not_true_eq_false, and_false, if_false,
                  and_self, if_true, perform]
              | cons t r2 =>
                simp only [h5, List.head?_cons, ne_eq, reduceCtorEq, not_false_eq_true, and_self,
                  if_true, perform, Option.getD_some]
            · simp only [h5, false_and, if_false, perform]

theorem parsedLine_unfold (w : World) (h : ParsedLine w) :
    ∃ np dirs line, parsePath w.pathEnv = some (np, dirs) ∧ w.input = some line ∧
      w.toks = tokens SEP line ∧ tokens SEP line ≠ [] ∧ (tokens SEP line).length < MAX_ARGS := by
  obtain ⟨hp, hi, hne, hs⟩ := h
  cases hpp : parsePath w.pathEnv with
  | none => rw [hpp] at hp; exact absurd hp (by simp)
  | some pr =>
    obtain ⟨np, dirs⟩ := pr
    cases hin : w.input with
    | none => rw [hin] at hi; exact absurd hi (by simp)
    | some line =>
      have ht : w.toks = tokens SEP line := by simp [World.toks, hin]
      rw [ht] at hs hne
      exact ⟨np, dirs, line, rfl, rfl, ht, hne, hs⟩

/-- C12: for every non-empty argument vector (of an iteration in which
`parsePath` returns, see `ParsedLine`) the iteration does what the closed
table says for it, on exact, case-sensitive spellings: `exit`/`Exit`
runs the exit branch; `jobs`/`Jobs` lists the jobs, verbose exactly when the
second token is `-l`; `kill`/`Kill` with a second token runs the removal on
the value of that token; `r` alone clears the screen; `cd` with a path token
changes to that path and `cd` alone to `/home/pi`; every other vector,
including `CD`, `R`, `EXIT`, `kill` alone and `r` with further tokens, goes
to external dispatch. -/
theorem dispatch_follows_table :
    (∀ (w : World) (s : Shell), s.command.argv.length = MAX_ARGS → ParsedLine w →
      ∃ np dirs c, parsePath w.pathEnv = some (np, dirs) ∧ c.argvList = w.toks ∧
        step w s =
          perform w { s with command := c } w.toks.length np dirs (classify w.toks)) ∧
    (∀ rest, classify (sexit :: rest) = Action.exit ∧ classify (sExit :: rest) = Action.exit) ∧
    (∀ rest, classify (sjobs :: sDashL :: rest) = Action.jobs true ∧
      classify (sJobs :: sDashL :: rest) = Action.jobs true) ∧
    (∀ t rest, t ≠ sDashL → classify (sjobs :: t :: rest) = Action.jobs false ∧
      classify (sJobs :: t :: rest) = Action.jobs false) ∧
    (classify [sjobs] = Action.jobs false ∧ classify [sJobs] = Action.jobs false) ∧
    (∀ t rest, classify (skill :: t :: rest) = Action.kill t ∧
      classify (sKill :: t :: rest) = Action.kill t) ∧
    (classify [skill] = Action.external ∧ classify [sKill] = Action.external) ∧
    (classify [sr] = Action.clear ∧ ∀ t rest, classify (sr :: t :: rest) = Action.external) ∧
    (classify [scd] = Action.home ∧ ∀ p rest, classify (scd :: p :: rest) = Action.cd p) ∧
    (∀ rest, classify (['C', 'D'] :: rest) = Action.external ∧
      classify (['R'] :: rest) = Action.external ∧
      classify (['E', 'X', 'I', 'T'] :: rest) = Action.external ∧
      classify (['J', 'O', 'B', 'S'] :: rest) = Action.external ∧
      classify (['K', 'I', 'L', 'L'] :: rest) = Action.external) ∧
    (∀ a0 rest, a0 ≠ sexit → a0 ≠ sExit → a0 ≠ sjobs → a0 ≠ sJobs → a0 ≠ skill → a0 ≠ sKill →
      a0 ≠ sr → a0 ≠ scd → classify (a0 :: rest) = Action.external) := by
  refine ⟨?_, ?_, ?_, ?_, ?_, ?_, ?_, ?_, ?_, ?_, ?_⟩
  · intro w s hcap hl
    obtain ⟨np, dirs, line, hp, hin, ht, hne, hshort⟩ := parsedLine_unfold w hl
    refine ⟨np, dirs, parsedCommand (tokens SEP line)
      (s.command.argv.drop ((tokens SEP line).length + 1)), hp, ?_, ?_⟩
    · rw [ht]
      exact argvList_terminated _ _
    · rw [step_dispatch w s np dirs line hp hin hne hshort hcap, ht]
      exact dispatch_classify w _ _ np dirs _ _ rfl hne
  · intro rest
    exact ⟨rfl, rfl⟩
  · intro rest
    exact ⟨rfl, rfl⟩
  · intro t rest ht
    simp [classify, sjobs, sJobs, sexit, sExit, ht]
  · exact ⟨rfl, rfl⟩
  · intro t rest
    exact ⟨rfl, rfl⟩
  · exact ⟨rfl, rfl⟩
  · exact ⟨rfl, fun t rest => rfl⟩
  · exact ⟨rfl, fun p rest => rfl⟩
  · intro rest
    exact ⟨rfl, rfl, rfl, rfl, rfl⟩
  · intro a0 rest h1 h2 h3 h4 h5 h6 h7 h8
    simp [classify, h1, h2, h3, h4, h5, h6, h7, h8]

/-- C12 on `jobs -l` with three tracked jobs (the verbose listing) and on
`CD /tmp` (external dispatch; no `CD` exists, so nothing happens). -/
theorem dispatch_follows_table_witness :
    (shell3.command.argv.length = MAX_ARGS ∧ ParsedLine (world lineJobsL 0) ∧
      classify (world lineJobsL 0).toks = Action.jobs true ∧
      (∃ np dirs c, parsePath (world lineJobsL 0).pathEnv = some (np, dirs) ∧
        c.argvList = (world lineJobsL 0).toks ∧
        step (world lineJobsL 0) shell3 =
          perform (world lineJobsL 0) { shell3 with command := c }
            (world lineJobsL 0).toks.length np dirs (classify (world lineJobsL 0).toks)) ∧
      ∃ s1, step (world lineJobsL 0) shell3 = Outcome.next s1
        [Event.listed true 1 11 nameSleep, Event.listed true 2 12 nameSleep,
         Event.listed true 3 13 nameSleep]) ∧
    (ParsedLine (world lineUpperCd 0) ∧
      classify (world lineUpperCd 0).toks = Action.external ∧
      ∃ s1, step (world lineUpperCd 0) shell3 = Outcome.next s1 []) :=
  ⟨⟨by decide, by decide, by decide,
    dispatch_follows_table.1 (world lineJobsL 0) shell3 (by decide) (by decide),
    ⟨{ shell3 with command := parsedCommand [sjobs, sDashL] (List.replicate 61 none) },
      by decide⟩⟩,
   ⟨by decide, by decide,
    ⟨{ shell3 with
        command := parsedCommand [['C', 'D'], ['/', 't', 'm', 'p']] (List.replicate 61 none) },
      by decide⟩⟩⟩

/-! ## Inputs on which the code departs from the specification -/

theorem reachable_runNext (ws : List World) :
    ∀ s s1 : Shell, Reachable s → runNext ws s = some s1 → Reachable s1 := by
  induction ws with
  | nil =>
    intro s s1 hs h
    simp only [runNext, Option.some.injEq] at h
    rw [← h]
    exact hs
  | cons w ws ih =>
    intro s s1 hs h
    simp only [runNext] at h
    split at h
    · rename_i s2 ev hstep
      exact ih s2 s1 (Reachable.next w s s2 ev hs hstep) h
    · exact absurd h (by simp)

/-- C13, failing input: the line of two spaces and a newline (and the line of
a space, a tab and a newline) consists of whitespace only, yet it is none of
the three strings of lines 211-213; `parseCmd` is called and builds a
`Command` with `argc = 0` and `argv[0] = NULL`, and the `strcmp` of line 221
reads through that `NULL`: the iteration faults instead of prompting again. -/
theorem whitespace_line_reaches_parseCmd :
    tokens SEP lineTwoSpaces = [] ∧
    (parseCmd lineTwoSpaces shell0.command).map (fun r => (r.1, r.2.arg 0)) = some (0, none) ∧
    step (world lineTwoSpaces 0) shell0 = Outcome.fault ∧
    tokens SEP lineSpaceTab = [] ∧
    step (world lineSpaceTab 0) shell0 = Outcome.fault ∧
    step (world [chSpace, chNewline] 0) shell0 = Outcome.next shell0 [] := by
  decide

/-- C20, failing input: the line `&` passes the blank-line check and reaches
external dispatch with `argCount = 1`; its last token is `&`, so line 335 sets
`argv[0]` to `NULL`, and `lookupPath` is called with a `NULL` name, which
line 103 reads: the iteration faults.  The same happens with a full table
(line 387). -/
theorem lone_ampersand_null_name :
    ExternalLine (world lineAmp 0) ∧ (world lineAmp 0).toks = [sAmp] ∧
    (world lineAmp 0).vector = [] ∧
    (parseCmd lineAmp shell0.command).map (fun r => r.1) = some 1 ∧
    (stripLast (parsedCommand [sAmp] []) 1).arg 0 = none ∧
    lookupPath (world lineAmp 0).access (world lineAmp 0).heap none [] 0 = none ∧
    step (world lineAmp 0) shell0 = Outcome.fault ∧
    step (world lineAmp 0) shellFull = Outcome.fault := by
  decide

/-- C17, failing input: when `PATH` is not set, `getenv` returns `NULL` and
line 43 calls `strlen` on it before the test of line 45: `parsePath` faults,
and so does the first iteration of the loop.  On the empty string `parsePath`
returns 0 directories and a name without leading `/` is not found. -/
theorem parsePath_unset_variable :
    parsePath none = none ∧
    step (worldNoPath lineSleepFg) shell0 = Outcome.fault ∧
    parsePath (some []) = some (0, List.replicate MAX_PATHS none) ∧
    lookupPath (fun _ => true) zeroBlock (some ['l', 's']) (List.replicate MAX_PATHS none) 0
      = some none := by
  decide

/-- C18, failing input: on a search path of nine directories the loop of
lines 64-68 stores the ninth pointer at `dirs[8]`, outside the array of
`MAX_PATHS` entries (there is no test of `numDirs`): `parsePath` faults
instead of returning at most 8. -/
theorem parsePath_ninth_directory :
    (tokens DELIM pathNine).length = 9 ∧
    MAX_PATHS < (tokens DELIM pathNine).length ∧
    (tokens DELIM pathNine)[MAX_PATHS]? = some ['/', 's', 'n', 'a', 'p', '/', 'b', 'i', 'n'] ∧
    parsePath (some pathNine) = none := by
  decide

/-- C14, failing input: `sleep 100 &`, then `kill 1`, then `sleep 100 &`
again.  The second launch reuses the first slot and `strcat` appends to the
name the slot still holds, so the new job is named `sleep 100 sleep 100 ` and
not `sleep 100`.  Every argument is followed by a space, also the last one
(already on the first launch); and nothing is truncated: the line of 75
characters gives a name of 73 characters for the buffer of `MAX_ARGS` (64)
bytes. -/
theorem job_name_appends_to_stale_text :
    (runNext [world lineSleep 11, world lineKill1 0, world lineSleep 12] shell0).map
        (fun s => (tracked s).map (fun j => (j.job_id, j.pid, j.name)))
      = some [(1, 12, nameSleep ++ nameSleep)] ∧
    (runNext [world lineSleep 11] shell0).map (fun s => (tracked s).map Job.name)
      = some [['s', 'l', 'e', 'e', 'p', chSpace, '1', '0', '0', chSpace]] ∧
    [chSpace].intercalate [['s', 'l', 'e', 'e', 'p'], ['1', '0', '0']]
      = ['s', 'l', 'e', 'e', 'p', chSpace, '1', '0', '0'] ∧
    lineLong.length < LINE_LEN ∧
    (runNext [world lineLong 11] shell0).map (fun s => (tracked s).map (fun j => j.name.length))
      = some [73] ∧
    MAX_ARGS < 73 := by
  decide

/-- C16, failing input: `exit` with three tracked jobs (pids 11, 12, 13).
Line 232 frees `jobList` before the loop of lines 238-240 reads the pids from
it; with the first entry of the freed block overwritten, the signals go to
the pids 5, 12, 13: pid 11 is not signalled and pid 5, which is no job, is.
The status is `FALSE` (0). -/
theorem exit_reads_freed_table :
    (tracked shell3).map Job.pid = [11, 12, 13] ∧
    step worldExit shell3 =
      Outcome.exit 0
        [Event.freeJobList, Event.clear, Event.signal 5, Event.signal 12, Event.signal 13] := by
  decide

/-- C19, failing input: with ten tracked jobs (a state ten launches lead to),
the line `nosuch &` sets `marker` to -1 (line 389) and fails resolution, so
the reset of line 414 is not reached; the next line, `sleep 100`, has no `&`
and does not set `marker`, yet starts with `marker = -1` and its child prints
the notice. -/
theorem notice_after_failed_lookup :
    runNext tenLaunches shell0 = some shellFull ∧ Reachable shellFull ∧
    shellFull.numJobs = MAX_JOBS ∧ shellFull.marker = 0 ∧
    step (world lineNoSuchAmp 0) shellFull = Outcome.next shellFlagged [] ∧
    shellFlagged.marker = -1 ∧ Reachable shellFlagged ∧
    ¬ (world lineSleepFg 15).backgroundFlag ∧
    (∃ s2, step (world lineSleepFg 15) shellFlagged = Outcome.next s2
      [Event.spawned pathSleep [['s', 'l', 'e', 'e', 'p'], ['1', '0', '0']] true,
       Event.waitBlocking]) ∧
    step (world lineSleepFg 0) shellFlagged =
      Outcome.exec pathSleep [['s', 'l', 'e', 'e', 'p'], ['1', '0', '0']] true := by
  have hrun : runNext tenLaunches shell0 = some shellFull := by decide
  have hreach : Reachable shellFull :=
    reachable_runNext tenLaunches shell0 shellFull
      (Reachable.init shell0 (by decide) (by decide) (by decide)) hrun
  have hstep : step (world lineNoSuchAmp 0) shellFull = Outcome.next shellFlagged [] := by
    decide
  refine ⟨hrun, hreach, by decide, by decide, hstep, by decide,
    Reachable.next _ _ _ _ hreach hstep, by decide, ?_, by decide⟩
  refine ⟨{ shellFull with
      marker := 0
      command := parsedCommand [['s', 'l', 'e', 'e', 'p'], ['1', '0', '0']]
        (List.replicate 61 none) }, ?_⟩
  decide

/-! ## How far the departures reach -/

/-- Every whitespace-only line other than the three of lines 211-213 faults. -/
theorem whitespace_line_faults (w : World) (s : Shell) (line : Str)
    (hp : (parsePath w.pathEnv).isSome) (hin : w.input = some line)
    (hcap : s.command.argv.length = MAX_ARGS) (hws : tokens SEP line = [])
    (h1 : line ≠ [chNewline]) (h2 : line ≠ [chSpace, chNewline])
    (h3 : line ≠ [chTab, chNewline]) :
    step w s = Outcome.fault := by
  cases hpp : parsePath w.pathEnv with
  | none => rw [hpp] at hp; exact absurd hp (by simp)
  | some pr =>
    obtain ⟨np, dirs⟩ := pr
    have hparse := parseCmd_eq line s.command hcap (by rw [hws]; decide)
    simp only [step, hpp, hin, h1, h2, h3, if_false, hparse, dispatch]
    have h0 : (parsedCommand (tokens SEP line)
        (s.command.argv.drop ((tokens SEP line).length + 1))).arg 0 = none := by
      rw [parsedCommand_head, hws]
      rfl
    simp only [h0]

/-- Without `PATH` every iteration faults. -/
theorem step_unset_path (w : World) (s : Shell) (h : w.pathEnv = none) :
    step w s = Outcome.fault := by
  have hp : parsePath w.pathEnv = none := by
    rw [h]
    rfl
  simp only [step, hp]

/-- The program name of an external command is a token of the line, unless
the line is `&` alone. -/
theorem external_name (w : World) (hext : ExternalLine w) (hamp : w.toks ≠ [sAmp]) :
    ∃ name, w.vector.head? = some name ∧ name ∈ w.toks := by
  obtain ⟨_, _, _, he⟩ := hext
  cases ht : w.toks with
  | nil =>
    rw [ht] at he
    exact absurd he (by simp [External])
  | cons a r =>
    by_cases hbg : w.backgroundFlag
    · have hv : w.vector = (a :: r).dropLast := by simp only [World.vector, hbg, if_true, ht]
      cases r with
      | nil =>
        have hl : w.toks.getLast? = some sAmp := hbg
        rw [ht] at hl hamp
        simp only [List.getLast?_singleton, Option.some.injEq] at hl
        rw [hl] at hamp
        exact absurd rfl hamp
      | cons b r2 =>
        refine ⟨a, ?_, List.mem_cons_self _ _⟩
        rw [hv]
        rfl
    · have hv : w.vector = a :: r := by simp only [World.vector, hbg, if_false, ht]
      exact ⟨a, by rw [hv]; rfl, List.mem_cons_self _ _⟩

/-- The loop of lines 238-240 signals the pids the block holds, in order. -/
theorem signalAll_eq (block : List Slot) (k : Nat) :
    ∀ i, i + k ≤ block.length →
      signalAll block k i = some (((block.drop i).take k).map (fun j => Event.signal j.pid)) := by
  induction k with
  | zero => intro i _; simp [signalAll]
  | succ k ih =>
    intro i h
    have hi : i < block.length := by omega
    rw [signalAll, List.getElem?_eq_getElem hi]
    simp only
    rw [ih (i + 1) (by omega), List.drop_eq_getElem_cons hi, List.take_succ_cons, List.map_cons]
    rfl

/-- Had the block kept its content after `free`, `exit` would signal exactly
the tracked pids. -/
theorem exit_signals_block (w : World) (s : Shell) (n np : Nat) (dirs : List (Option Str))
    (a0 : Str) (h0 : s.command.arg 0 = some a0) (ha : a0 = sExit ∨ a0 = sexit)
    (hlen : s.numJobs ≤ w.freedBlock.length) :
    dispatch w s n np dirs =
      Outcome.exit FALSE (Event.freeJobList :: Event.clear ::
        (w.freedBlock.take s.numJobs).map (fun j => Event.signal j.pid)) := by
  have := signalAll_eq w.freedBlock s.numJobs 0 (by omega)
  simp only [List.drop_zero] at this
  simp only [dispatch, h0, ha, if_true, this]

theorem strOf_append (a b : List (Option Char)) (h : none ∈ a) : strOf (a ++ b) = strOf a := by
  induction a with
  | nil => simp at h
  | cons x a ih =>
    cases x with
    | none => simp [strOf, List.takeWhile]
    | some c =>
      have h2 : none ∈ a := by simpa using h
      have := ih h2
      simp only [strOf] at this ⊢
      simp only [List.cons_append, List.takeWhile_cons, Option.isSome_some, if_true,
        List.filterMap_cons, id_eq]
      rw [this]

/-- The listing of entries whose names end inside their fields shows each
entry by itself. -/
theorem listed_take_of_namesEnd (l : List Slot) :
    ∀ n, NamesEnd (l.take n) → (listed l).take n = (l.take n).map Slot.shown := by
  induction l with
  | nil => intro n _; simp [listed]
  | cons x l ih =>
    intro n h
    cases n with
    | zero => simp
    | succ n =>
      simp only [List.take_succ_cons, listed, List.map_cons, List.cons.injEq]
      refine ⟨?_, ih n (fun y hy => h y (by simp [hy]))⟩
      have hx : none ∈ nameField x := h x (by simp)
      simp only [Slot.shown, fromName, strOf_append _ _ hx]

theorem tracked_of_namesEnd (s : Shell) (h : NamesEnd (stored s)) :
    tracked s = (stored s).map Slot.shown :=
  listed_take_of_namesEnd s.jobList s.numJobs h

/-- The iteration for `kill k` on a table with the ids 1..n in which every
tracked name ends inside its field, 1 ≤ k ≤ n: the pid of job k is signalled
and nothing else; the jobs before it are unchanged, the jobs after it follow
in the same order, each with its pid and name and a job id one less. -/
theorem kill_keeps_short_names (w : World) (s : Shell) (k : Nat)
    (hwf : WellFormed s) (hd : DenseIds (tracked s)) (hk : 1 ≤ k ∧ k ≤ s.numJobs)
    (hcmd : Kills w (k : Int)) (hnames : NamesEnd (stored s)) :
    ∃ s1 x, (tracked s)[k - 1]? = some x ∧ x.job_id = (k : Int) ∧
      step w s = Outcome.next s1 [Event.signal x.pid] ∧
      s1.numJobs = s.numJobs - 1 ∧ (tracked s1).length = s.numJobs - 1 ∧
      tracked s1 = (tracked s).take (k - 1) ++
        ((tracked s).drop k).map (fun j => { j with job_id := j.job_id - 1 }) := by
  obtain ⟨s1, x, hx, hid, hstep, hn1, hl1, hst, _, _⟩ :=
    kill_step w s k hwf ((denseIds_tracked s).mp hd) hk hcmd
  have hnames1 : NamesEnd (stored s1) := by
    intro y hy
    rw [hst] at hy
    rcases List.mem_append.mp hy with h1 | h1
    · exact hnames y (List.mem_of_mem_take h1)
    · obtain ⟨z, hz, rfl⟩ := List.mem_map.mp h1
      exact hnames z (List.mem_of_mem_drop hz)
  refine ⟨s1, x.shown, ?_, hid, hstep, hn1, ?_, ?_⟩
  · rw [tracked_of_namesEnd s hnames, List.getElem?_map, hx]
    rfl
  · rw [tracked_length s1 (by rw [hl1, hn1, hwf.1]; have := hwf.2.1; omega), hn1]
  · rw [tracked_of_namesEnd s1 hnames1, tracked_of_namesEnd s hnames, hst, List.map_append,
      List.map_take, ← List.map_drop, List.map_map, List.map_map]
    rfl

/-- The iteration of a successful background launch on a table in which every
tracked name ends inside its field, the new name staying inside the table:
the table has one job more, the jobs tracked before are unchanged, and the
new job has the id n+1 and the pid of the child. -/
theorem launch_keeps_short_names (w : World) (p : Int) (s : Shell) (hwf : WellFormed s)
    (hn : s.numJobs < MAX_JOBS) (hl : Launches w p) (hroom : NameInTable w s)
    (hnames : NamesEnd (stored s)) :
    ∃ s1 ev, step w s = Outcome.next s1 ev ∧ s1.numJobs = s.numJobs + 1 ∧
      (tracked s1).take s.numJobs = tracked s ∧
      (tracked s1).map Job.job_id = (tracked s).map Job.job_id ++ [(s.numJobs : Int) + 1] ∧
      (tracked s1).map Job.pid = (tracked s).map Job.pid ++ [p] := by
  obtain ⟨s1, ev, x, hstep, hwf1, hn1, hxid, hxpid, hst⟩ := launch_step w p s hwf hn hl hroom
  have hlen : (stored s).length = s.numJobs := stored_length s (by rw [hwf.1]; exact hwf.2.1)
  have htake : s1.jobList.take s.numJobs = stored s := by
    have : (stored s1).take s.numJobs = stored s := by
      rw [hst]
      exact List.take_left' hlen
    rw [← this]
    simp only [stored, hn1, List.take_take]
    congr 1
    omega
  refine ⟨s1, ev, hstep, hn1, ?_, ?_, ?_⟩
  · have h1 : (tracked s1).take s.numJobs = (listed s1.jobList).take s.numJobs := by
      simp only [tracked, hn1, List.take_take]
      congr 1
      omega
    rw [h1, listed_take_of_namesEnd s1.jobList s.numJobs (by rw [htake]; exact hnames), htake,
      tracked_of_namesEnd s hnames]
  · rw [tracked_job_id, tracked_job_id, hst, List.map_append, List.map_singleton, hxid]
  · rw [tracked_pid, tracked_pid, hst, List.map_append, List.map_singleton, hxpid]

/-- With a search path whose length is exactly the length of the block,
the terminator of the copy is stored outside it: every iteration faults. -/
theorem step_path_overrun (w : World) (s : Shell) (p : Str) (h : w.pathEnv = some p)
    (hfit : ¬ p.length < mallocUsable p.length) : step w s = Outcome.fault := by
  have hp : parsePath w.pathEnv = none := by
    rw [h, parsePath_eq, if_neg (fun hc => hfit hc.1)]
  simp only [step, hp]

/-- A search path of 24 characters fills its block of 24 bytes: `parsePath`
faults, although the path has three directories only. -/
theorem parsePath_path24 :
    path24.length = 24 ∧ mallocUsable 24 = 24 ∧ (tokens DELIM path24).length = 3 ∧
    parsePath (some path24) = none ∧ pathBin.length = 13 ∧ mallocUsable 13 = 24 := by
  decide

theorem cstr_length_lt : ∀ (b : List (Option Char)) (d : Str), cstr b = some d →
    d.length < b.length := by
  intro b
  induction b with
  | nil => intro d h; exact absurd h (by simp [cstr])
  | cons x b ih =>
    intro d h
    cases x with
    | none =>
      simp only [cstr, Option.some.injEq] at h
      rw [← h]
      simp
    | some c =>
      simp only [cstr, Option.map_eq_some'] at h
      obtain ⟨r, hr, rfl⟩ := h
      have := ih r hr
      simp only [List.length_cons]
      omega

theorem strcat_none_of_no_room (dst : List (Option Char)) (d src : Str)
    (hd : cstr dst = some d) (h : ¬ d.length + src.length < dst.length) :
    strcat dst src = none := by
  simp only [strcat, strncat, hd, List.take_length, h, if_false]

/-- The loop of lines 356-359 when the text does not stay inside the table:
some `strcat` writes past the end of `jobList`. -/
theorem nameLoop_past_table (toks : List Str) (rest : List (Option Str)) (k : Nat) :
    ∀ (i : Nat) (mem : List (Option Char)) (d : Str), i + k = toks.length →
      cstr mem = some d →
      ¬ d.length + (((toks.drop i).map (fun a => a ++ [chSpace])).flatten).length < mem.length →
      nameLoop (parsedCommand toks rest) k i mem = none := by
  induction k with
  | zero =>
    intro i mem d h hd hno
    rw [List.drop_of_length_le (by omega)] at hno
    have := cstr_length_lt mem d hd
    simp only [List.map_nil, List.flatten_nil, List.length_nil, Nat.add_zero] at hno
    omega
  | succ k ih =>
    intro i mem d h hd hno
    have hi : i < toks.length := by omega
    have ha : (parsedCommand toks rest).arg i = some toks[i] := by
      rw [parsedCommand_arg _ _ i (by omega), List.getElem?_eq_getElem hi]
    have hdrop : toks.drop i = toks[i] :: toks.drop (i + 1) := List.drop_eq_getElem_cons hi
    rw [hdrop, List.map_cons, List.flatten_cons] at hno
    simp only [List.length_append, List.length_cons, List.length_nil] at hno
    rw [nameLoop, ha]
    simp only
    by_cases h1 : d.length + toks[i].length < mem.length
    · obtain ⟨m1, e1, c1, l1⟩ := strcat_fits mem d toks[i] hd h1
      simp only [e1]
      by_cases h2 : (d ++ toks[i]).length + [chSpace].length < m1.length
      · obtain ⟨m2, e2, c2, l2⟩ := strcat_fits m1 (d ++ toks[i]) [chSpace] c1 h2
        simp only [e2]
        apply ih (i + 1) m2 (d ++ toks[i] ++ [chSpace]) (by omega) c2
        simp only [List.length_append, List.length_cons, List.length_nil, l2, l1]
        omega
      · rw [strcat_none_of_no_room m1 (d ++ toks[i]) [chSpace] c1 h2]
    · rw [strcat_none_of_no_room mem d toks[i] hd h1]

/-- A successful background launch whose name does not stay inside the table
is a fault: `strcat` finds no zero byte up to the end of `jobList`, or writes
past it. -/
theorem launch_past_table (w : World) (p : Int) (s : Shell) (hwf : WellFormed s)
    (hn : s.numJobs < MAX_JOBS) (hl : Launches w p) (hroom : ¬ NameInTable w s) :
    step w s = Outcome.fault := by
  obtain ⟨hjl, hnj, hcap⟩ := hwf
  obtain ⟨hask, hres, hfork, hpos⟩ := hl
  obtain ⟨rest, hrest, hstep⟩ := step_asksBackground w s hcap hn hask
  obtain ⟨np, dirs, line, hp, hin, ht, hshort, hext, hlast, hres2⟩ := asksBackground_unfold w hask
  cases hr : w.resolveStripped with
  | none => rw [hr] at hres; exact absurd hres (by simp)
  | some o =>
    cases o with
    | none => rw [hr] at hres; exact absurd hres (by simp)
    | some fullpath =>
      have hlt : s.numJobs < s.jobList.length := by rw [hjl]; exact hn
      have hslot : s.jobList[s.numJobs]? = some s.jobList[s.numJobs] :=
        List.getElem?_eq_getElem hlt
      have hf0 : ¬ (w.fork = 0) := by omega
      have hf1 : 0 < w.fork := by omega
      have hne : w.toks.dropLast ≠ [] := by
        intro h0
        rw [hres2, ← ht, h0] at hr
        simp [lookupPath] at hr
      obtain ⟨k, hk⟩ : ∃ k, w.toks.dropLast.length = k + 1 :=
        ⟨w.toks.dropLast.length - 1, by have := List.length_pos.mpr hne; omega⟩
      have hnone : nameLoop (parsedCommand w.toks.dropLast rest) w.toks.dropLast.length 0
          (fromName (s.jobList.drop s.numJobs)) = none := by
        unfold NameInTable at hroom
        cases hd : cstr (fromName (s.jobList.drop s.numJobs)) with
        | none =>
          have ha : (parsedCommand w.toks.dropLast rest).arg 0 = some w.toks.dropLast[0] := by
            rw [parsedCommand_arg _ _ 0 (Nat.zero_le _), List.getElem?_eq_getElem (by omega)]
          rw [hk, nameLoop, ha]
          simp only [strcat, strncat, hd]
        | some d =>
          rw [hd] at hroom
          simp only at hroom
          exact nameLoop_past_table w.toks.dropLast rest w.toks.dropLast.length 0 _ d
            (Nat.zero_add _) hd (by rw [List.drop_zero]; exact hroom)
      rw [hstep, hr]
      simp only [hf0, if_false, hf1, if_true, hslot, hnone]

end BShell
